import Mathlib

/-!
# gerkle: a Merkle tree with inclusion proofs

A shallow embedding of `gerkle.go` and a verification of its specification.

The Go program works on a pointer structure (`*MerkleTree` nodes with `Parent`,
`Left` and `Right` links) and on one shared, stateful `hash.Hash` object.  Both are
made explicit here:

* the heap is a `List MerkleTree`; a pointer is an index into it, `nil` is `none`;
* the hasher is a value of an arbitrary state type `σ` together with the three
  methods the program calls (`Write`, `Sum(nil)`, `Reset`), threaded through every
  function that touches it;
* recursion that follows pointers (`EnumerateLeaves`, the parent walk of
  `FindProofFor`) takes a fuel argument, and the theorems show that the fuel
  suffices on every tree made by `Build`;
* a Go panic (index out of range, nil dereference) is a result of its own.
-/

set_option autoImplicit false

namespace Gerkle

/-! ## Data model -/

/-- One byte. -/
abbrev Byte := Fin 256

/-- A `fmt.Stringer` leaf value: an opaque payload (`ident`) and the result of its
`String()` method, a Go string, that is a byte sequence. Two leaves may differ and
still have the same string. -/
structure Stringer where
  ident : Nat
  String : List Byte
deriving DecidableEq, Repr

/-- The struct `MerkleStep`; `Typ` is the Go field `Type`. -/
structure MerkleStep where
  Typ : String
  Hash : List Byte
deriving DecidableEq, Repr

/-- The struct `MerkleTree`, one heap cell. The field `hasher` is the shared hasher
object, whose state is passed explicitly. -/
structure MerkleTree where
  hex : Bool
  separator : Byte
  Hash : List Byte
  Leaf : Option Stringer
  Parent : Option Nat
  Left : Option Nat
  Right : Option Nat
deriving DecidableEq, Repr

/-- The interface `hash.Hash` as far as the program uses it. `Write` returns the new
state and whether the returned error is non-nil; `Sum` is `Sum(nil)`, which does not
change the state of a hasher that keeps the contract of `hash.Hash`; an implementation
is free to, so `Sum` returns a state too. -/
structure HashImpl (σ : Type) where
  Write : σ → List Byte → σ × Bool
  Sum : σ → List Byte × σ
  Reset : σ → σ

/-- The hasher of a digest function `H`: the state is the bytes written since the
last reset, `Write` appends and never fails, `Sum` is `H` of the state. -/
def accumulator (H : List Byte → List Byte) : HashImpl (List Byte) where
  Write := fun s d => (s ++ d, false)
  Sum := fun s => (H s, s)
  Reset := fun _ => []

/-- The errors the program makes with `fmt.Errorf`, one per message. -/
inductive Error where
  | failedToComputeHash
  | failedComputingHash
  | unableToFindLeaf (s : List Byte)
  | unableToComputeHash
  | firstEntryMustBeLeaf
  | lastEntryMustBeRoot
  | proofMismatch
  | rootMismatch
  | unreachableCode
deriving DecidableEq, Repr

/-- The error kinds of the specification. -/
inductive ErrorKind where
  | HashWriteFailure
  | LeafNotFound
  | MalformedProof
  | ProofMismatch
  | RootMismatch
  | Unreachable
deriving DecidableEq, Repr

/-- The kind of each error. -/
def Error.kind : Error → ErrorKind
  | .failedToComputeHash => .HashWriteFailure
  | .failedComputingHash => .HashWriteFailure
  | .unableToFindLeaf _ => .LeafNotFound
  | .unableToComputeHash => .HashWriteFailure
  | .firstEntryMustBeLeaf => .MalformedProof
  | .lastEntryMustBeRoot => .MalformedProof
  | .proofMismatch => .ProofMismatch
  | .rootMismatch => .RootMismatch
  | .unreachableCode => .Unreachable

/-- The run-time panics of Go that the program can raise. -/
inductive Panic where
  | indexOutOfRange
  | nilDereference
deriving DecidableEq, Repr

/-- How a call ends: with a value, with an error value, with a panic, or not within
the fuel given. -/
inductive Outcome (α : Type) where
  | ok (a : α)
  | error (e : Error)
  | panic (p : Panic)
  | outOfFuel
deriving DecidableEq, Repr

/-! ## encoding/hex -/

/-- The string `"0123456789abcdef"` of `encoding/hex`. -/
def hextable : List Byte := [48, 49, 50, 51, 52, 53, 54, 55, 56, 57, 97, 98, 99, 100, 101, 102]

/-- The character `hextable[i]`. -/
def hexdigit (i : Nat) : Byte := hextable.getD i 0

/-- The function `hex.EncodeToString`: two characters per byte, `hextable[v>>4]` and
`hextable[v&0x0f]`. -/
def EncodeToString : List Byte → List Byte
  | [] => []
  | v :: rest => hexdigit (v.val / 16) :: hexdigit (v.val % 16) :: EncodeToString rest

/-! ## The program -/

/-- The function `writeChained`: `prev` and the result say whether the error is non-nil. -/
def writeChained {σ : Type} (prev : Bool) (h : HashImpl σ) (st : σ) (data : List Byte) : Bool × σ :=
  if prev then (prev, st) else ((h.Write st data).2, (h.Write st data).1)

/-- The assignment `p.Parent = parent` on the heap. -/
def setParent (heap : List MerkleTree) (p : Nat) (parent : Option Nat) : List MerkleTree :=
  match heap[p]? with
  | some n => heap.set p { n with Parent := parent }
  | none => heap

/-- The function `Build`. It returns the pointer to the root, the heap with the new
nodes and the hasher's state. -/
def Build {σ : Type} (hash : HashImpl σ) (useHex : Bool) (separator : Byte) (leaves : List Stringer)
    (heap : List MerkleTree) (st : σ) : Outcome Nat × List MerkleTree × σ :=
  if h0 : leaves.length = 0 then
    let b := hash.Sum st
    (.ok heap.length,
      heap ++ [{ hex := useHex, separator := separator, Hash := b.1, Leaf := none,
                 Parent := none, Left := none, Right := none }],
      hash.Reset b.2)
  else if h1 : leaves.length = 1 then
    let w := hash.Write st (leaves[0]).String
    if w.2 then (.error .failedToComputeHash, heap, w.1)
    else
      let b := hash.Sum w.1
      (.ok heap.length,
        heap ++ [{ hex := useHex, separator := separator, Hash := b.1, Leaf := some leaves[0],
                   Parent := none, Left := none, Right := none }],
        hash.Reset b.2)
  else
    let midpoint := leaves.length / 2 + leaves.length % 2
    let r1 := Build hash useHex separator (leaves.take midpoint) heap st
    match r1.1 with
    | .ok left =>
      let r2 := Build hash useHex separator (leaves.drop midpoint) r1.2.1 r1.2.2
      match r2.1 with
      | .ok right =>
        match r2.2.1[left]?, r2.2.1[right]? with
        | some l, some r =>
          let e :=
            if useHex then
              let e1 := writeChained false hash r2.2.2 (EncodeToString l.Hash)
              let e2 := writeChained e1.1 hash e1.2 [separator]
              writeChained e2.1 hash e2.2 (EncodeToString r.Hash)
            else
              let e1 := writeChained false hash r2.2.2 l.Hash
              let e2 := writeChained e1.1 hash e1.2 [separator]
              writeChained e2.1 hash e2.2 r.Hash
          if e.1 then (.error .failedComputingHash, r2.2.1, e.2)
          else
            let interiorHash := hash.Sum e.2
            let interior := r2.2.1.length
            let heap1 := r2.2.1 ++ [{ hex := useHex, separator := separator, Hash := interiorHash.1,
                                      Leaf := none, Parent := none, Left := some left,
                                      Right := some right }]
            (.ok interior, setParent (setParent heap1 left (some interior)) right (some interior),
              hash.Reset interiorHash.2)
        | _, _ => (.panic .nilDereference, r2.2.1, r2.2.2)
      | o => (o, r2.2.1, r2.2.2)
    | o => (o, r1.2.1, r1.2.2)
termination_by leaves.length
decreasing_by
  all_goals simp_wf
  all_goals omega

/-- The method `EnumerateLeaves`. The callback gets the pointer to the leaf node and
the value of the variables it captured, and returns its boolean and their new value. -/
def EnumerateLeaves {τ : Type} (heap : List MerkleTree) (callback : Nat → τ → Outcome (Bool × τ)) :
    Nat → Nat → τ → Outcome (Bool × τ)
  | 0, _, _ => .outOfFuel
  | fuel + 1, tree, acc =>
    match heap[tree]? with
    | none => .panic .nilDereference
    | some t =>
      if t.Leaf ≠ none then callback tree acc
      else
        match (match t.Left with
               | none => Outcome.ok (true, acc)
               | some l => EnumerateLeaves heap callback fuel l acc) with
        | .ok (true, acc1) =>
          match t.Right with
          | none => .ok (true, acc1)
          | some r =>
            match EnumerateLeaves heap callback fuel r acc1 with
            | .ok (true, acc2) => .ok (true, acc2)
            | .ok (false, acc2) => .ok (false, acc2)
            | o => o
        | .ok (false, acc1) => .ok (false, acc1)
        | o => o

/-- The function `_enumerateWithProofs`. The callback gets the pointer to the leaf node,
the proof and the value of the variables it captured; it returns its boolean, its error
(`none` is `nil`) and the new value of the variables. -/
def _enumerateWithProofs {τ ε : Type} (heap : List MerkleTree)
    (callback : Nat → List MerkleStep → τ → Outcome ((Bool × Option ε) × τ)) :
    Nat → Option Nat → List MerkleStep → τ → Outcome ((Bool × Option ε) × τ)
  | 0, _, _, _ => .outOfFuel
  | _ + 1, none, _, _ => .panic .nilDereference
  | fuel + 1, some tree, ancestors, acc =>
    match heap[tree]? with
    | none => .panic .nilDereference
    | some t =>
      if t.Leaf ≠ none then callback tree ({ Typ := "Leaf", Hash := t.Hash } :: ancestors) acc
      else
        match t.Right with
        | none => .panic .nilDereference
        | some r =>
          match heap[r]? with
          | none => .panic .nilDereference
          | some rn =>
            match _enumerateWithProofs heap callback fuel t.Left
                ({ Typ := "Right", Hash := rn.Hash } :: ancestors) acc with
            | .ok ((cont, err), acc1) =>
              if !cont || err.isSome then .ok ((cont, err), acc1)
              else
                match t.Left with
                | none => .panic .nilDereference
                | some l =>
                  match heap[l]? with
                  | none => .panic .nilDereference
                  | some ln =>
                    _enumerateWithProofs heap callback fuel t.Right
                      ({ Typ := "Left", Hash := ln.Hash } :: ancestors) acc1
            | o => o

/-- The method `EnumerateWithProofs` of the node at `tree`. -/
def EnumerateWithProofs {τ ε : Type} (heap : List MerkleTree)
    (callback : Nat → List MerkleStep → τ → Outcome ((Bool × Option ε) × τ)) (fuel : Nat)
    (tree : Nat) (acc : τ) : Outcome ((Bool × Option ε) × τ) :=
  match heap[tree]? with
  | none => .panic .nilDereference
  | some t =>
    _enumerateWithProofs heap callback fuel (some tree) [{ Typ := "Root", Hash := t.Hash }] acc

/-- The callback of `FindProofFor`; the captured variable is `treeLeaf`. -/
def findCallback (heap : List MerkleTree) (leaf : Stringer) (m : Nat) (treeLeaf : Option Nat) :
    Outcome (Bool × Option Nat) :=
  match heap[m]? with
  | none => .panic .nilDereference
  | some n =>
    match n.Leaf with
    | none => .panic .nilDereference
    | some x => if x.String = leaf.String then .ok (false, some m) else .ok (true, treeLeaf)

/-- The loop `for current.Parent != nil` of `FindProofFor`; it returns the last
`current` and the steps. -/
def walkUp (heap : List MerkleTree) : Nat → Nat → List MerkleStep → Outcome (Nat × List MerkleStep)
  | 0, _, _ => .outOfFuel
  | fuel + 1, current, steps =>
    match heap[current]? with
    | none => .panic .nilDereference
    | some c =>
      match c.Parent with
      | none => .ok (current, steps)
      | some p =>
        match heap[p]? with
        | none => .panic .nilDereference
        | some par =>
          if par.Left = some current then
            match par.Right with
            | none => .panic .nilDereference
            | some r =>
              match heap[r]? with
              | none => .panic .nilDereference
              | some rn => walkUp heap fuel p (steps ++ [{ Typ := "Right", Hash := rn.Hash }])
          else
            match par.Left with
            | none => .panic .nilDereference
            | some l =>
              match heap[l]? with
              | none => .panic .nilDereference
              | some ln => walkUp heap fuel p (steps ++ [{ Typ := "Left", Hash := ln.Hash }])

/-- The method `FindProofFor` of the node at `tree`. -/
def FindProofFor {σ : Type} (hasher : HashImpl σ) (fuel : Nat) (heap : List MerkleTree) (tree : Nat)
    (leaf : Stringer) (st : σ) : Outcome (List MerkleStep) × σ :=
  match EnumerateLeaves heap (findCallback heap leaf) fuel tree none with
  | .ok (_, none) => (.error (.unableToFindLeaf leaf.String), st)
  | .ok (_, some treeLeaf) =>
    let w := hasher.Write st leaf.String
    if w.2 then (.error .unableToComputeHash, w.1)
    else
      let b := hasher.Sum w.1
      let st1 := hasher.Reset b.2
      match walkUp heap fuel treeLeaf [{ Typ := "Leaf", Hash := b.1 }] with
      | .ok (current, steps) =>
        match heap[current]? with
        | none => (.panic .nilDereference, st1)
        | some c => (.ok (steps ++ [{ Typ := "Root", Hash := c.Hash }]), st1)
      | .error e => (.error e, st1)
      | .panic p => (.panic p, st1)
      | .outOfFuel => (.outOfFuel, st1)
  | .error e => (.error e, st)
  | .panic p => (.panic p, st)
  | .outOfFuel => (.outOfFuel, st)

/-- The loop `for idx, step := range steps` of `CheckProof`, from index `idx` on, with
`rest` the steps not yet visited and `hash` the local variable. -/
def checkLoop {σ : Type} (hasher : HashImpl σ) (tree : MerkleTree) (first last : Int) :
    Nat → List MerkleStep → List Byte → σ → Outcome Unit × σ
  | _, [], _, st => (.error .unreachableCode, st)
  | idx, step :: rest, hash, st =>
    if (idx : Int) = first then checkLoop hasher tree first last (idx + 1) rest step.Hash st
    else if (idx : Int) = last then
      if hash ≠ step.Hash then (.error .proofMismatch, st)
      else if hash ≠ tree.Hash then (.error .rootMismatch, st)
      else (.ok (), st)
    else
      let e :=
        if tree.hex then
          if step.Typ = "Left" then
            let e1 := writeChained false hasher st (EncodeToString step.Hash)
            let e2 := writeChained e1.1 hasher e1.2 [tree.separator]
            writeChained e2.1 hasher e2.2 (EncodeToString hash)
          else if step.Typ = "Right" then
            let e1 := writeChained false hasher st (EncodeToString hash)
            let e2 := writeChained e1.1 hasher e1.2 [tree.separator]
            writeChained e2.1 hasher e2.2 (EncodeToString step.Hash)
          else (false, st)
        else
          if step.Typ = "Left" then
            let e1 := writeChained false hasher st step.Hash
            let e2 := writeChained e1.1 hasher e1.2 [tree.separator]
            writeChained e2.1 hasher e2.2 hash
          else if step.Typ = "Right" then
            let e1 := writeChained false hasher st hash
            let e2 := writeChained e1.1 hasher e1.2 [tree.separator]
            writeChained e2.1 hasher e2.2 step.Hash
          else (false, st)
      if e.1 then (.error .unableToComputeHash, e.2)
      else checkLoop hasher tree first last (idx + 1) rest (hasher.Sum e.2).1
        (hasher.Reset (hasher.Sum e.2).2)

/-- The method `CheckProof` of the node `tree`. `steps[first]` and `steps[last]` panic
when the index is out of range. -/
def CheckProof {σ : Type} (hasher : HashImpl σ) (tree : MerkleTree) (steps : List MerkleStep)
    (st : σ) : Outcome Unit × σ :=
  let first : Int := 0
  let last : Int := (steps.length : Int) - 1
  match (if first < 0 then none else steps[first.toNat]?) with
  | none => (.panic .indexOutOfRange, st)
  | some s0 =>
    if s0.Typ ≠ "Leaf" then (.error .firstEntryMustBeLeaf, st)
    else
      match (if last < 0 then none else steps[last.toNat]?) with
      | none => (.panic .indexOutOfRange, st)
      | some sl =>
        if sl.Typ ≠ "Root" then (.error .lastEntryMustBeRoot, st)
        else checkLoop hasher tree first last 0 steps [] st

/-! ## The tree that `Build` makes, as a value

`shape leaves` is the tree of calls of `Build leaves`: the same case distinction and the
same two slices. The functions on `Shape` say which cells `Build` appends to the heap;
that it does is the theorem `Build_accumulator`. -/

/-- A binary tree of leaves; `empty` is the node that `Build` makes of no leaves. -/
inductive Shape where
  | empty
  | leaf (x : Stringer)
  | node (l r : Shape)
deriving DecidableEq, Repr

/-- The tree of the recursive calls of `Build leaves`. -/
def shape (leaves : List Stringer) : Shape :=
  if h0 : leaves.length = 0 then .empty
  else if h1 : leaves.length = 1 then .leaf leaves[0]
  else
    let midpoint := leaves.length / 2 + leaves.length % 2
    .node (shape (leaves.take midpoint)) (shape (leaves.drop midpoint))
termination_by leaves.length
decreasing_by
  all_goals simp_wf
  all_goals omega

/-- The encoding of a digest before it is written: `hex.EncodeToString` or nothing. -/
def encode (useHex : Bool) (d : List Byte) : List Byte :=
  if useHex then EncodeToString d else d

/-- The digest of an interior node from the digests of its children. -/
def combine (H : List Byte → List Byte) (useHex : Bool) (separator : Byte) (l r : List Byte) :
    List Byte :=
  H (encode useHex l ++ [separator] ++ encode useHex r)

/-- The number of nodes. -/
def Shape.size : Shape → Nat
  | .empty => 1
  | .leaf _ => 1
  | .node l r => l.size + r.size + 1

/-- The number of edges on the longest path from the root to a leaf. -/
def Shape.height : Shape → Nat
  | .empty => 0
  | .leaf _ => 0
  | .node l r => max l.height r.height + 1

/-- The leaves from left to right. -/
def Shape.leaves : Shape → List Stringer
  | .empty => []
  | .leaf x => [x]
  | .node l r => l.leaves ++ r.leaves

/-- The digest of the root. -/
def Shape.digest (H : List Byte → List Byte) (useHex : Bool) (separator : Byte) : Shape → List Byte
  | .empty => H []
  | .leaf x => H x.String
  | .node l r => combine H useHex separator (l.digest H useHex separator) (r.digest H useHex separator)

/-- The cell of the root of a tree whose cells start at address `base`: the cells of the
left subtree come first, then those of the right subtree, then the root. -/
def Shape.rootCell (H : List Byte → List Byte) (useHex : Bool) (separator : Byte) (base : Nat)
    (parent : Option Nat) (t : Shape) : MerkleTree :=
  match t with
  | .empty => { hex := useHex, separator := separator, Hash := t.digest H useHex separator,
                Leaf := none, Parent := parent, Left := none, Right := none }
  | .leaf x => { hex := useHex, separator := separator, Hash := t.digest H useHex separator,
                 Leaf := some x, Parent := parent, Left := none, Right := none }
  | .node l r => { hex := useHex, separator := separator, Hash := t.digest H useHex separator,
                   Leaf := none, Parent := parent, Left := some (base + l.size - 1),
                   Right := some (base + l.size + r.size - 1) }

/-- The cells below the root, from address `base` on. -/
def Shape.body (H : List Byte → List Byte) (useHex : Bool) (separator : Byte) : Nat → Shape →
    List MerkleTree
  | _, .empty => []
  | _, .leaf _ => []
  | base, .node l r =>
    (l.body H useHex separator base ++
        [l.rootCell H useHex separator base (some (base + l.size + r.size))]) ++
      (r.body H useHex separator (base + l.size) ++
        [r.rootCell H useHex separator (base + l.size) (some (base + l.size + r.size))])

/-- All cells of a tree, from address `base` on; the root is the last one. -/
def Shape.cells (H : List Byte → List Byte) (useHex : Bool) (separator : Byte) (base : Nat)
    (parent : Option Nat) (t : Shape) : List MerkleTree :=
  t.body H useHex separator base ++ [t.rootCell H useHex separator base parent]

/-- The address of the root of a tree whose cells start at `base`. -/
def Shape.root (base : Nat) (t : Shape) : Nat := base + t.size - 1

/-- The heap holds the cells of `t` from address `base` on, the root with parent `parent`. -/
def Sits (H : List Byte → List Byte) (useHex : Bool) (separator : Byte) (heap : List MerkleTree)
    (base : Nat) (parent : Option Nat) (t : Shape) : Prop :=
  ∃ pre post, heap = pre ++ t.cells H useHex separator base parent ++ post ∧ pre.length = base

/-- The addresses of the leaf nodes from left to right. -/
def Shape.leafPtrs (base : Nat) : Shape → List Nat
  | .empty => []
  | .leaf _ => [base]
  | .node l r => l.leafPtrs base ++ r.leafPtrs (base + l.size)

/-- Calling the callback on the given nodes in order until it returns false. -/
def visitAll {τ : Type} (callback : Nat → τ → Outcome (Bool × τ)) : List Nat → τ → Outcome (Bool × τ)
  | [], acc => .ok (true, acc)
  | p :: ps, acc =>
    match callback p acc with
    | .ok (true, acc1) => visitAll callback ps acc1
    | .ok (false, acc1) => .ok (false, acc1)
    | o => o

/-- The address of the first leaf node whose string is that of `q`, and the sibling steps
from that node up to the root: at a node with the leaf in its left subtree a `Right` step
with the digest of the right child, else a `Left` step with the digest of the left child. -/
def Shape.findPath (H : List Byte → List Byte) (useHex : Bool) (separator : Byte) (q : Stringer) :
    Nat → Shape → Option (Nat × List MerkleStep)
  | _, .empty => none
  | base, .leaf x => if x.String = q.String then some (base, []) else none
  | base, .node l r =>
    match l.findPath H useHex separator q base with
    | some (p, s) => some (p, s ++ [{ Typ := "Right", Hash := r.digest H useHex separator }])
    | none =>
      match r.findPath H useHex separator q (base + l.size) with
      | some (p, s) => some (p, s ++ [{ Typ := "Left", Hash := l.digest H useHex separator }])
      | none => none

/-- One interior step of the loop of `CheckProof` as a function on the accumulated
hash, for the hasher of a digest function: a `Left` step puts the step's digest on the
left, a `Right` step on the right, and for any other tag nothing is written before the
digest is taken. -/
def replayStep (H : List Byte → List Byte) (useHex : Bool) (separator : Byte) (acc : List Byte)
    (step : MerkleStep) : List Byte :=
  if step.Typ = "Left" then combine H useHex separator step.Hash acc
  else if step.Typ = "Right" then combine H useHex separator acc step.Hash
  else H []

/-- The accumulated hash after the interior steps, in order. -/
def replay (H : List Byte → List Byte) (useHex : Bool) (separator : Byte) (acc : List Byte)
    (steps : List MerkleStep) : List Byte :=
  steps.foldl (replayStep H useHex separator) acc

/-- The two comparisons at the last step of `CheckProof`. -/
def finalCheck (tree : MerkleTree) (acc : List Byte) (last : MerkleStep) : Outcome Unit :=
  if acc ≠ last.Hash then .error .proofMismatch
  else if acc ≠ tree.Hash then .error .rootMismatch
  else .ok ()

/-- Specification side, not from the source. The fold of the specification of
`CheckProof` over the interior steps:
`acc := H(enc(step.Hash) ++ [sep] ++ enc(acc))` for a `Left` step and
`acc := H(enc(acc) ++ [sep] ++ enc(step.Hash))` for a `Right` step. The specification
names no other interior step; here such a step leaves `acc` as it is. -/
def specFold (H : List Byte → List Byte) (useHex : Bool) (separator : Byte) (acc : List Byte)
    (steps : List MerkleStep) : List Byte :=
  steps.foldl (fun acc step =>
    if step.Typ = "Left" then H (encode useHex step.Hash ++ [separator] ++ encode useHex acc)
    else if step.Typ = "Right" then H (encode useHex acc ++ [separator] ++ encode useHex step.Hash)
    else acc) acc

/-- A call of a method of the hasher. -/
inductive HashCall where
  | Write (data : List Byte)
  | Sum
  | Reset
deriving DecidableEq, Repr

/-- A hasher that behaves as `h` and records every call it receives, the last one first;
it makes the calls of the program observable in the state. -/
def recording {σ : Type} (h : HashImpl σ) : HashImpl (σ × List HashCall) where
  Write := fun s d => (((h.Write s.1 d).1, HashCall.Write d :: s.2), (h.Write s.1 d).2)
  Sum := fun s => ((h.Sum s.1).1, ((h.Sum s.1).2, HashCall.Sum :: s.2))
  Reset := fun s => (h.Reset s.1, HashCall.Reset :: s.2)

/-- Specification side, not from the source. The reference digest `R` of a leaf list:
`R([]) = H(empty)`, `R([x]) = H(x.String())`,
and for two or more leaves, with `mid = n/2 + n%2`,
`R(L) = H(enc(R(L[0:mid])) ++ [s] ++ enc(R(L[mid:n])))`. -/
def refDigest (H : List Byte → List Byte) (useHex : Bool) (separator : Byte)
    (leaves : List Stringer) : List Byte :=
  if h0 : leaves.length = 0 then H []
  else if h1 : leaves.length = 1 then H (leaves[0]).String
  else
    let mid := leaves.length / 2 + leaves.length % 2
    H (encode useHex (refDigest H useHex separator (leaves.take mid)) ++ [separator] ++
      encode useHex (refDigest H useHex separator (leaves.drop mid)))
termination_by leaves.length
decreasing_by
  all_goals simp_wf
  all_goals omega

/-- Specification side, not from the source. The sibling steps of the leaf with index `i`
in a leaf list, from the leaf's level upward: at a node over two or more leaves, split at `mid = n/2 + n%2`, a leaf of the left
part first gets its steps inside the left part and then the step `Right` with the digest
of the right part; a leaf of the right part first gets its steps inside the right part
and then the step `Left` with the digest of the left part. -/
def siblingSteps (H : List Byte → List Byte) (useHex : Bool) (separator : Byte)
    (leaves : List Stringer) (i : Nat) : List MerkleStep :=
  if h : leaves.length ≤ 1 then []
  else
    let mid := leaves.length / 2 + leaves.length % 2
    if i < mid then
      siblingSteps H useHex separator (leaves.take mid) i ++
        [{ Typ := "Right", Hash := refDigest H useHex separator (leaves.drop mid) }]
    else
      siblingSteps H useHex separator (leaves.drop mid) (i - mid) ++
        [{ Typ := "Left", Hash := refDigest H useHex separator (leaves.take mid) }]
termination_by leaves.length
decreasing_by
  all_goals simp_wf
  all_goals omega

/-- The relation of a subtree to a tree. -/
inductive Shape.Sub : Shape → Shape → Prop where
  | refl (t : Shape) : Shape.Sub t t
  | left {s l : Shape} (r : Shape) : Shape.Sub s l → Shape.Sub s (.node l r)
  | right {s r : Shape} (l : Shape) : Shape.Sub s r → Shape.Sub s (.node l r)

/-- Specification side, not from the source. The subtree at address `p` covers the leaves
`xs`, from left to right: a node without
leaf value and children covers none, a leaf node covers its leaf value, a node with two
children covers what the left child covers followed by what the right child covers. -/
inductive LeavesUnder (heap : List MerkleTree) : Nat → List Stringer → Prop where
  | empty (p : Nat) (node : MerkleTree) : heap[p]? = some node → node.Leaf = none →
      node.Left = none → node.Right = none → LeavesUnder heap p []
  | leaf (p : Nat) (node : MerkleTree) (x : Stringer) : heap[p]? = some node →
      node.Leaf = some x → LeavesUnder heap p [x]
  | node (p : Nat) (node : MerkleTree) (l r : Nat) (xs ys : List Stringer) :
      heap[p]? = some node → node.Leaf = none → node.Left = some l → node.Right = some r →
      LeavesUnder heap l xs → LeavesUnder heap r ys → LeavesUnder heap p (xs ++ ys)

/-- No node of the tree is the node that `Build` makes of no leaves. -/
def Shape.Proper : Shape → Prop
  | .empty => False
  | .leaf _ => True
  | .node l r => l.Proper ∧ r.Proper

/-- For every leaf from left to right: the address of its node, its value and the sibling
steps from the node up to the root (a `Right` step with the digest of the right child
where the leaf is in the left subtree, else a `Left` step with the digest of the left
child). -/
def Shape.paths (H : List Byte → List Byte) (useHex : Bool) (separator : Byte) :
    Nat → Shape → List (Nat × Stringer × List MerkleStep)
  | _, .empty => []
  | base, .leaf x => [(base, x, [])]
  | base, .node l r =>
    (l.paths H useHex separator base).map
        (fun e => (e.1, e.2.1, e.2.2 ++ [{ Typ := "Right", Hash := r.digest H useHex separator }])) ++
      (r.paths H useHex separator (base + l.size)).map
        (fun e => (e.1, e.2.1, e.2.2 ++ [{ Typ := "Left", Hash := l.digest H useHex separator }]))

/-- Calling the callback of `EnumerateWithProofs` on the given nodes and proofs in order
until it returns false or an error. -/
def visitPairs {τ ε : Type} (callback : Nat → List MerkleStep → τ → Outcome ((Bool × Option ε) × τ)) :
    List (Nat × List MerkleStep) → τ → Outcome ((Bool × Option ε) × τ)
  | [], acc => .ok ((true, none), acc)
  | e :: rest, acc =>
    match callback e.1 e.2 acc with
    | .ok ((cont, err), acc1) =>
      if !cont || err.isSome then .ok ((cont, err), acc1) else visitPairs callback rest acc1
    | o => o

/-- Specification side, not from the source. The depth of the node at `p`: the number of
`Parent` links from it to a node without parent. -/
def nodeDepth (heap : List MerkleTree) : Nat → Nat → Option Nat
  | 0, _ => none
  | fuel + 1, p =>
    match heap[p]? with
    | none => none
    | some c =>
      match c.Parent with
      | none => some 0
      | some q => (nodeDepth heap fuel q).map (· + 1)

/-- The node and the proof that `EnumerateWithProofs` hands to its callback for a leaf
with the sibling steps `e.2.2` below a node with the steps `ancestors`. -/
def leafProof (H : List Byte → List Byte) (ancestors : List MerkleStep)
    (e : Nat × Stringer × List MerkleStep) : Nat × List MerkleStep :=
  (e.1, { Typ := "Leaf", Hash := H e.2.1.String } :: (e.2.2 ++ ancestors))

/-- The hasher of a digest function `H` with an audit: the state is the bytes written
since the last reset (the accumulator), the bytes written since the last digest was
taken, and whether every digest taken so far was the hash of exactly the bytes written
for it, that is, whether at every `Sum` the accumulator held exactly the bytes written
since the digest before. `Write` never fails. -/
def audited (H : List Byte → List Byte) : HashImpl (List Byte × List Byte × Bool) where
  Write := fun s d => ((s.1 ++ d, s.2.1 ++ d, s.2.2), false)
  Sum := fun s => (H s.1, (s.1, [], s.2.2 && decide (s.1 = s.2.1)))
  Reset := fun s => ([], [], s.2.2)

/-! # Lemmas

## The recursion of `Build` -/

theorem shape_nil : shape [] = .empty := by
  rw [shape]; simp

theorem shape_single (x : Stringer) : shape [x] = .leaf x := by
  rw [shape]; simp

theorem shape_split (leaves : List Stringer) (h : 2 ≤ leaves.length) :
    shape leaves = .node (shape (leaves.take (leaves.length / 2 + leaves.length % 2)))
      (shape (leaves.drop (leaves.length / 2 + leaves.length % 2))) := by
  rw [shape]
  have h0 : ¬ leaves.length = 0 := by omega
  have h1 : ¬ leaves.length = 1 := by omega
  simp only [h0, h1, dite_false]

/-- Induction along the recursion of `Build`. -/
theorem split_induction {P : List Stringer → Prop} (hnil : P [])
    (hone : ∀ x, P [x])
    (hsplit : ∀ leaves : List Stringer, 2 ≤ leaves.length →
      P (leaves.take (leaves.length / 2 + leaves.length % 2)) →
      P (leaves.drop (leaves.length / 2 + leaves.length % 2)) → P leaves) :
    ∀ leaves, P leaves := by
  intro leaves
  generalize h : leaves.length = n
  induction n using Nat.strong_induction_on generalizing leaves with
  | _ n ih =>
    match leaves, h with
    | [], _ => exact hnil
    | [x], _ => exact hone x
    | x :: y :: rest, h =>
      apply hsplit
      · simp
      · apply ih _ _ _ rfl
        simp at h ⊢; omega
      · apply ih _ _ _ rfl
        simp at h ⊢; omega

theorem Shape.size_pos (t : Shape) : 0 < t.size := by
  cases t <;> simp [Shape.size]

theorem Shape.length_body (H : List Byte → List Byte) (useHex : Bool) (separator : Byte)
    (base : Nat) (t : Shape) : (t.body H useHex separator base).length = t.size - 1 := by
  induction t generalizing base with
  | empty => rfl
  | leaf x => rfl
  | node l r ihl ihr =>
    have hl := l.size_pos
    have hr := r.size_pos
    simp [Shape.body, Shape.size, ihl, ihr]
    omega

theorem Shape.length_cells (H : List Byte → List Byte) (useHex : Bool) (separator : Byte)
    (base : Nat) (parent : Option Nat) (t : Shape) :
    (t.cells H useHex separator base parent).length = t.size := by
  have := t.size_pos
  simp [Shape.cells, Shape.length_body]
  omega




theorem getElem?_mid {α : Type} (l : List α) (a : α) (l' : List α) (n : Nat) (h : n = l.length) :
    (l ++ a :: l')[n]? = some a := by
  subst h
  rw [List.getElem?_append_right (le_refl _)]
  simp

theorem set_mid {α : Type} (l : List α) (a b : α) (l' : List α) (n : Nat) (h : n = l.length) :
    (l ++ a :: l').set n b = l ++ b :: l' := by
  subst h
  induction l with
  | nil => rfl
  | cons x xs ih => simp [ih]

theorem Shape.rootCell_setParent (H : List Byte → List Byte) (useHex : Bool) (separator : Byte)
    (base : Nat) (parent parent' : Option Nat) (t : Shape) :
    { t.rootCell H useHex separator base parent with Parent := parent' } =
      t.rootCell H useHex separator base parent' := by
  cases t <;> rfl

theorem Shape.rootCell_Hash (H : List Byte → List Byte) (useHex : Bool) (separator : Byte)
    (base : Nat) (parent : Option Nat) (t : Shape) :
    (t.rootCell H useHex separator base parent).Hash = t.digest H useHex separator := by
  cases t <;> rfl

theorem getElem?_cells_root (H : List Byte → List Byte) (useHex : Bool) (separator : Byte)
    (pre post : List MerkleTree) (base : Nat) (parent : Option Nat) (t : Shape) :
    (pre ++ t.cells H useHex separator base parent ++ post)[pre.length + t.size - 1]? =
      some (t.rootCell H useHex separator base parent) := by
  have hp := t.size_pos
  have : pre ++ t.cells H useHex separator base parent ++ post =
      (pre ++ t.body H useHex separator base) ++ t.rootCell H useHex separator base parent :: post := by
    simp [Shape.cells]
  rw [this]
  apply getElem?_mid
  simp [Shape.length_body]; omega

theorem setParent_cells_root (H : List Byte → List Byte) (useHex : Bool) (separator : Byte)
    (pre post : List MerkleTree) (base : Nat) (parent parent' : Option Nat) (t : Shape) :
    setParent (pre ++ t.cells H useHex separator base parent ++ post) (pre.length + t.size - 1) parent' =
      pre ++ t.cells H useHex separator base parent' ++ post := by
  have hp := t.size_pos
  unfold setParent
  rw [getElem?_cells_root]
  have : pre ++ t.cells H useHex separator base parent ++ post =
      (pre ++ t.body H useHex separator base) ++ t.rootCell H useHex separator base parent :: post := by
    simp [Shape.cells]
  simp only [this]
  rw [set_mid, Shape.rootCell_setParent]
  · simp [Shape.cells]
  · simp [Shape.length_body]; omega

/-- One unfolding of `Build` on two or more leaves, with the hasher of a digest function
in its reset state before and after the two inner calls. -/
theorem Build_split_accumulator (H : List Byte → List Byte) (useHex : Bool) (separator : Byte)
    (leaves : List Stringer) (heap heap1 heap2 : List MerkleTree) (left right : Nat)
    (l r : MerkleTree) (hlen : 2 ≤ leaves.length)
    (hleft : Build (accumulator H) useHex separator
      (leaves.take (leaves.length / 2 + leaves.length % 2)) heap [] = (.ok left, heap1, []))
    (hright : Build (accumulator H) useHex separator
      (leaves.drop (leaves.length / 2 + leaves.length % 2)) heap1 [] = (.ok right, heap2, []))
    (hl : heap2[left]? = some l) (hr : heap2[right]? = some r) :
    Build (accumulator H) useHex separator leaves heap [] =
      (.ok heap2.length,
        setParent (setParent
          (heap2 ++ [{ hex := useHex, separator := separator,
                       Hash := combine H useHex separator l.Hash r.Hash, Leaf := none,
                       Parent := none, Left := some left, Right := some right }])
          left (some heap2.length)) right (some heap2.length), []) := by
  have h0 : ¬ leaves.length = 0 := by omega
  have h1 : ¬ leaves.length = 1 := by omega
  rw [Build]
  simp only [h0, h1, dite_false]
  rw [hleft]
  simp only []
  rw [hright]
  simp only [hl, hr]
  cases useHex <;> simp [writeChained, accumulator, combine, encode]

/-- What `Build` does with the hasher of a digest function, started from the reset
state: it appends the cells of `shape leaves` to the heap and returns the address of
the last one, and the hasher is reset again. -/
theorem Build_accumulator (H : List Byte → List Byte) (useHex : Bool) (separator : Byte) :
    ∀ (leaves : List Stringer) (heap : List MerkleTree),
      Build (accumulator H) useHex separator leaves heap [] =
        (.ok ((shape leaves).root heap.length),
          heap ++ (shape leaves).cells H useHex separator heap.length none, []) := by
  intro leaves
  induction leaves using split_induction with
  | hnil =>
    intro heap
    rw [Build]
    simp [shape_nil, Shape.root, Shape.size, Shape.cells, Shape.body, Shape.rootCell, Shape.digest,
      accumulator]
  | hone x =>
    intro heap
    rw [Build]
    simp [shape_single, Shape.root, Shape.size, Shape.cells, Shape.body, Shape.rootCell,
      Shape.digest, accumulator]
  | hsplit leaves hlen ihl ihr =>
    intro heap
    generalize hsl : shape (leaves.take (leaves.length / 2 + leaves.length % 2)) = tl at ihl
    generalize hsr : shape (leaves.drop (leaves.length / 2 + leaves.length % 2)) = tr at ihr
    have hpl := tl.size_pos
    have hpr := tr.size_pos
    have hl : (heap ++ tl.cells H useHex separator heap.length none ++
        tr.cells H useHex separator (heap ++ tl.cells H useHex separator heap.length none).length
          none)[tl.root heap.length]? = some (tl.rootCell H useHex separator heap.length none) := by
      exact getElem?_cells_root H useHex separator heap _ heap.length none tl
    have hr : (heap ++ tl.cells H useHex separator heap.length none ++
        tr.cells H useHex separator (heap ++ tl.cells H useHex separator heap.length none).length
          none)[tr.root (heap ++ tl.cells H useHex separator heap.length none).length]? =
        some (tr.rootCell H useHex separator
          (heap ++ tl.cells H useHex separator heap.length none).length none) := by
      have := getElem?_cells_root H useHex separator
        (heap ++ tl.cells H useHex separator heap.length none) []
        (heap ++ tl.cells H useHex separator heap.length none).length none tr
      simpa [Shape.root] using this
    rw [Build_split_accumulator H useHex separator leaves heap _ _ _ _ _ _ hlen (ihl heap) (ihr _)
      hl hr]
    rw [shape_split leaves hlen, hsl, hsr]
    have hlen2 : (heap ++ tl.cells H useHex separator heap.length none).length =
        heap.length + tl.size := by
      simp [Shape.length_cells]
    simp only [hlen2, List.length_append, Shape.length_cells, Shape.rootCell_Hash]
    congr 1
    · simp [Shape.root, Shape.size]; omega
    · congr 1
      have e1 := setParent_cells_root H useHex separator heap
        (tr.cells H useHex separator (heap.length + tl.size) none ++
          [{ hex := useHex, separator := separator,
             Hash := combine H useHex separator (tl.digest H useHex separator)
               (tr.digest H useHex separator), Leaf := none,
             Parent := none, Left := some (tl.root heap.length),
             Right := some (tr.root (heap.length + tl.size)) }])
        heap.length none (some (heap.length + tl.size + tr.size)) tl
      have e2 := setParent_cells_root H useHex separator
        (heap ++ tl.cells H useHex separator heap.length (some (heap.length + tl.size + tr.size)))
        [{ hex := useHex, separator := separator,
             Hash := combine H useHex separator (tl.digest H useHex separator)
               (tr.digest H useHex separator), Leaf := none,
             Parent := none, Left := some (tl.root heap.length),
             Right := some (tr.root (heap.length + tl.size)) }]
        (heap.length + tl.size) none (some (heap.length + tl.size + tr.size)) tr
      simp only [List.length_append, Shape.length_cells, List.append_assoc] at e1 e2 ⊢
      rw [show tl.root heap.length = heap.length + tl.size - 1 from rfl,
        show tr.root (heap.length + tl.size) = heap.length + tl.size + tr.size - 1 from rfl] at *
      rw [e1, e2]
      simp [Shape.cells, Shape.body, Shape.rootCell, Shape.digest]

/-! ## Reading the cells of a tree from the heap -/

section Reading

variable {H : List Byte → List Byte} {useHex : Bool} {separator : Byte}

theorem Sits.get_root {heap : List MerkleTree} {base : Nat} {parent : Option Nat} {t : Shape}
    (h : Sits H useHex separator heap base parent t) :
    heap[t.root base]? = some (t.rootCell H useHex separator base parent) := by
  obtain ⟨pre, post, rfl, rfl⟩ := h
  exact getElem?_cells_root H useHex separator pre post _ parent t

theorem Sits.left {heap : List MerkleTree} {base : Nat} {parent : Option Nat} {l r : Shape}
    (h : Sits H useHex separator heap base parent (.node l r)) :
    Sits H useHex separator heap base (some ((Shape.node l r).root base)) l := by
  obtain ⟨pre, post, rfl, rfl⟩ := h
  refine ⟨pre, r.cells H useHex separator (pre.length + l.size) (some ((Shape.node l r).root pre.length))
    ++ [(Shape.node l r).rootCell H useHex separator pre.length parent] ++ post, ?_, rfl⟩
  have hl := l.size_pos
  have hr := r.size_pos
  have e : pre.length + l.size + r.size = pre.length + (l.size + r.size + 1) - 1 := by omega
  simp [Shape.cells, Shape.body, Shape.root, Shape.size, e]

theorem Sits.right {heap : List MerkleTree} {base : Nat} {parent : Option Nat} {l r : Shape}
    (h : Sits H useHex separator heap base parent (.node l r)) :
    Sits H useHex separator heap (base + l.size) (some ((Shape.node l r).root base)) r := by
  obtain ⟨pre, post, rfl, rfl⟩ := h
  refine ⟨pre ++ l.cells H useHex separator pre.length (some ((Shape.node l r).root pre.length)),
    [(Shape.node l r).rootCell H useHex separator pre.length parent] ++ post, ?_, ?_⟩
  · have hl := l.size_pos
    have hr := r.size_pos
    have e : pre.length + l.size + r.size = pre.length + (l.size + r.size + 1) - 1 := by omega
    simp [Shape.cells, Shape.body, Shape.root, Shape.size, e]
  · simp [Shape.length_cells]

theorem Sits.of_append (heap : List MerkleTree) (parent : Option Nat) (t : Shape) :
    Sits H useHex separator (heap ++ t.cells H useHex separator heap.length parent) heap.length
      parent t :=
  ⟨heap, [], by simp, rfl⟩

theorem visitAll_append {τ : Type} (callback : Nat → τ → Outcome (Bool × τ)) (ps qs : List Nat)
    (acc : τ) :
    visitAll callback (ps ++ qs) acc =
      match visitAll callback ps acc with
      | .ok (true, acc1) => visitAll callback qs acc1
      | .ok (false, acc1) => .ok (false, acc1)
      | o => o := by
  induction ps generalizing acc with
  | nil => simp [visitAll]
  | cons p ps ih =>
    simp only [List.cons_append, visitAll]
    cases hcb : callback p acc with
    | ok a =>
      obtain ⟨b, acc1⟩ := a
      cases b <;> simp [ih]
    | error e => simp
    | panic e => simp
    | outOfFuel => simp

theorem visitAll_single {τ : Type} (callback : Nat → τ → Outcome (Bool × τ)) (p : Nat) (acc : τ) :
    visitAll callback [p] acc = callback p acc := by
  simp only [visitAll]
  cases hcb : callback p acc with
  | ok a =>
    obtain ⟨b, acc1⟩ := a
    cases b <;> simp
  | error e => simp
  | panic e => simp
  | outOfFuel => simp

/-- On the cells of a tree `EnumerateLeaves` calls the callback on the leaf nodes from
left to right until it returns false, when the fuel exceeds the height. -/
theorem EnumerateLeaves_sits {τ : Type} (callback : Nat → τ → Outcome (Bool × τ))
    {heap : List MerkleTree} (t : Shape) :
    ∀ {base : Nat} {parent : Option Nat} (fuel : Nat) (acc : τ),
      Sits H useHex separator heap base parent t → t.height < fuel →
      EnumerateLeaves heap callback fuel (t.root base) acc =
        visitAll callback (t.leafPtrs base) acc := by
  induction t with
  | empty =>
    intro base parent fuel acc hs hf
    obtain ⟨fuel, rfl⟩ : ∃ k, fuel = k + 1 := ⟨fuel - 1, by omega⟩
    simp [EnumerateLeaves, hs.get_root, Shape.rootCell, Shape.leafPtrs, visitAll]
  | leaf x =>
    intro base parent fuel acc hs hf
    obtain ⟨fuel, rfl⟩ : ∃ k, fuel = k + 1 := ⟨fuel - 1, by omega⟩
    simp only [EnumerateLeaves, hs.get_root, Shape.rootCell, Shape.leafPtrs, visitAll_single]
    simp [Shape.root, Shape.size]
  | node l r ihl ihr =>
    intro base parent fuel acc hs hf
    obtain ⟨fuel, rfl⟩ : ∃ k, fuel = k + 1 := ⟨fuel - 1, by omega⟩
    simp only [Shape.height] at hf
    have hl := ihl fuel acc hs.left (by omega)
    simp only [EnumerateLeaves, hs.get_root, Shape.rootCell, Shape.leafPtrs, visitAll_append]
    simp only [Shape.root] at hl
    simp only [ne_eq, not_true_eq_false, ite_false, hl]
    cases hv : visitAll callback (l.leafPtrs base) acc with
    | ok a =>
      obtain ⟨b, acc1⟩ := a
      cases b
      · simp
      · have hr := ihr fuel acc1 hs.right (by omega)
        simp only [Shape.root] at hr
        simp only [hr]
        cases hv2 : visitAll callback (r.leafPtrs (base + l.size)) acc1 with
        | ok a2 =>
          obtain ⟨b2, acc2⟩ := a2
          cases b2 <;> simp
        | error e => simp
        | panic e => simp
        | outOfFuel => simp
    | error e => simp
    | panic e => simp
    | outOfFuel => simp

end Reading

/-! ## `FindProofFor` on the cells of a tree -/

section Finding

variable {H : List Byte → List Byte} {useHex : Bool} {separator : Byte}

/-- The callback of `FindProofFor` stops at the first leaf node with the string of `q`. -/
theorem visitAll_findCallback {heap : List MerkleTree} (q : Stringer) (t : Shape) :
    ∀ {base : Nat} {parent : Option Nat}, Sits H useHex separator heap base parent t →
      visitAll (findCallback heap q) (t.leafPtrs base) none =
        .ok (match t.findPath H useHex separator q base with
             | some (p, _) => (false, some p)
             | none => (true, none)) := by
  induction t with
  | empty =>
    intro base parent hs
    simp [Shape.leafPtrs, visitAll, Shape.findPath]
  | leaf x =>
    intro base parent hs
    have hg := hs.get_root
    simp only [Shape.root, Shape.size, Nat.add_sub_cancel] at hg
    simp only [Shape.leafPtrs, visitAll_single, findCallback, hg, Shape.rootCell, Shape.findPath]
    by_cases hx : x.String = q.String <;> simp [hx]
  | node l r ihl ihr =>
    intro base parent hs
    simp only [Shape.leafPtrs, visitAll_append, ihl hs.left, Shape.findPath]
    cases hl : l.findPath H useHex separator q base with
    | some a => simp
    | none =>
      simp only [ihr hs.right]
      cases hr : r.findPath H useHex separator q (base + l.size) with
      | some a => simp
      | none => simp

theorem Shape.rootCell_Parent (base : Nat) (parent : Option Nat) (t : Shape) :
    (t.rootCell H useHex separator base parent).Parent = parent := by
  cases t <;> rfl

theorem Shape.rootCell_node_Left (base : Nat) (parent : Option Nat) (l r : Shape) :
    ((Shape.node l r).rootCell H useHex separator base parent).Left = some (base + l.size - 1) :=
  rfl

theorem Shape.rootCell_node_Right (base : Nat) (parent : Option Nat) (l r : Shape) :
    ((Shape.node l r).rootCell H useHex separator base parent).Right =
      some (base + l.size + r.size - 1) :=
  rfl

/-- The parent walk from the root of a subtree goes on at the root of the tree. -/
theorem walkUp_child {heap : List MerkleTree} {base : Nat} {parent : Option Nat} {l r : Shape}
    (hs : Sits H useHex separator heap base parent (.node l r)) (fuel : Nat) (steps : List MerkleStep) :
    walkUp heap (fuel + 1) (l.root base) steps =
        walkUp heap fuel ((Shape.node l r).root base)
          (steps ++ [{ Typ := "Right", Hash := r.digest H useHex separator }]) ∧
      walkUp heap (fuel + 1) (r.root (base + l.size)) steps =
        walkUp heap fuel ((Shape.node l r).root base)
          (steps ++ [{ Typ := "Left", Hash := l.digest H useHex separator }]) := by
  have hl := l.size_pos
  have hr := r.size_pos
  have g := hs.get_root
  have gl := hs.left.get_root
  have gr := hs.right.get_root
  simp only [Shape.root] at g gl gr ⊢
  have hne : ¬ (base + l.size - 1 = base + l.size + r.size - 1) := by omega
  constructor
  · rw [walkUp]
    simp only [gl, Shape.rootCell_Parent, g, Shape.rootCell_node_Left, Shape.rootCell_node_Right,
      gr, Shape.rootCell_Hash, if_true]
  · rw [walkUp]
    have hne2 : ¬ (some (base + l.size - 1) = some (base + l.size + r.size - 1)) := by
      simpa using hne
    simp only [gl, Shape.rootCell_Parent, g, Shape.rootCell_node_Left, Shape.rootCell_node_Right,
      gr, Shape.rootCell_Hash, hne2, if_false]

/-- The parent walk stops at a node without parent. -/
theorem walkUp_root {heap : List MerkleTree} {base : Nat} {t : Shape}
    (hs : Sits H useHex separator heap base none t) (fuel : Nat) (steps : List MerkleStep) :
    walkUp heap (fuel + 1) (t.root base) steps = .ok (t.root base, steps) := by
  rw [walkUp]
  simp [hs.get_root, Shape.rootCell_Parent]

/-- The parent walk from the leaf node found, up to the root of the tree. -/
theorem walkUp_findPath {heap : List MerkleTree} (q : Stringer) (t : Shape) :
    ∀ {base : Nat} {parent : Option Nat} {p : Nat} {s : List MerkleStep} (fuel : Nat)
      (steps : List MerkleStep), Sits H useHex separator heap base parent t →
      t.findPath H useHex separator q base = some (p, s) →
      walkUp heap (fuel + s.length) p steps = walkUp heap fuel (t.root base) (steps ++ s) := by
  induction t with
  | empty =>
    intro base parent p s fuel steps hs hf
    simp [Shape.findPath] at hf
  | leaf x =>
    intro base parent p s fuel steps hs hf
    simp only [Shape.findPath] at hf
    split at hf
    · simp only [Option.some.injEq, Prod.mk.injEq] at hf
      obtain ⟨rfl, rfl⟩ := hf
      simp [Shape.root, Shape.size]
    · simp at hf
  | node l r ihl ihr =>
    intro base parent p s fuel steps hs hf
    simp only [Shape.findPath] at hf
    cases hl : l.findPath H useHex separator q base with
    | some a =>
      obtain ⟨p1, s1⟩ := a
      simp only [hl, Option.some.injEq, Prod.mk.injEq] at hf
      obtain ⟨rfl, rfl⟩ := hf
      have h1 := ihl (fuel + 1) steps hs.left hl
      have h2 := (walkUp_child hs fuel (steps ++ s1)).1
      simp only [List.length_append, List.length_singleton]
      rw [show fuel + (s1.length + 1) = fuel + 1 + s1.length by omega, h1, h2]
      simp
    | none =>
      simp only [hl] at hf
      cases hr : r.findPath H useHex separator q (base + l.size) with
      | some a =>
        obtain ⟨p1, s1⟩ := a
        simp only [hr, Option.some.injEq, Prod.mk.injEq] at hf
        obtain ⟨rfl, rfl⟩ := hf
        have h1 := ihr (fuel + 1) steps hs.right hr
        have h2 := (walkUp_child hs fuel (steps ++ s1)).2
        simp only [List.length_append, List.length_singleton]
        rw [show fuel + (s1.length + 1) = fuel + 1 + s1.length by omega, h1, h2]
        simp
      | none => simp [hr] at hf

theorem Shape.length_findPath_le (q : Stringer) (t : Shape) :
    ∀ {base : Nat} {p : Nat} {s : List MerkleStep},
      t.findPath H useHex separator q base = some (p, s) → s.length ≤ t.height := by
  induction t with
  | empty =>
    intro base p s hf
    simp [Shape.findPath] at hf
  | leaf x =>
    intro base p s hf
    simp only [Shape.findPath] at hf
    split at hf
    · simp only [Option.some.injEq, Prod.mk.injEq] at hf
      obtain ⟨rfl, rfl⟩ := hf
      simp
    · simp at hf
  | node l r ihl ihr =>
    intro base p s hf
    simp only [Shape.findPath] at hf
    cases hl : l.findPath H useHex separator q base with
    | some a =>
      obtain ⟨p1, s1⟩ := a
      simp only [hl, Option.some.injEq, Prod.mk.injEq] at hf
      obtain ⟨rfl, rfl⟩ := hf
      have := ihl hl
      simp [Shape.height]; omega
    | none =>
      simp only [hl] at hf
      cases hr : r.findPath H useHex separator q (base + l.size) with
      | some a =>
        obtain ⟨p1, s1⟩ := a
        simp only [hr, Option.some.injEq, Prod.mk.injEq] at hf
        obtain ⟨rfl, rfl⟩ := hf
        have := ihr hr
        simp [Shape.height]; omega
      | none => simp [hr] at hf

/-- The result of `FindProofFor` on the cells of a tree, with the hasher of a digest
function in its reset state and fuel above the height. -/
theorem FindProofFor_sits {heap : List MerkleTree} {base : Nat} (q : Stringer) (t : Shape)
    (fuel : Nat) (hs : Sits H useHex separator heap base none t) (hf : t.height < fuel) :
    FindProofFor (accumulator H) fuel heap (t.root base) q [] =
      match t.findPath H useHex separator q base with
      | none => (.error (.unableToFindLeaf q.String), [])
      | some (_, s) =>
        (.ok ([{ Typ := "Leaf", Hash := H q.String }] ++ s ++
          [{ Typ := "Root", Hash := t.digest H useHex separator }]), []) := by
  unfold FindProofFor
  rw [EnumerateLeaves_sits _ t fuel none hs hf, visitAll_findCallback q t hs]
  cases hp : t.findPath H useHex separator q base with
  | none => simp
  | some a =>
    obtain ⟨p, s⟩ := a
    have hle := Shape.length_findPath_le q t hp
    obtain ⟨k, rfl⟩ : ∃ k, fuel = k + 1 + s.length := ⟨fuel - 1 - s.length, by omega⟩
    simp only [accumulator, List.nil_append, Bool.false_eq_true, ite_false]
    rw [walkUp_findPath q t (k + 1) _ hs hp, walkUp_root hs]
    simp [hs.get_root, Shape.rootCell_Hash]

end Finding

/-! ## `CheckProof` as a replay -/

section Checking

variable {H : List Byte → List Byte}

theorem writeChained_accumulator (st data : List Byte) :
    writeChained false (accumulator H) st data = (false, st ++ data) := rfl

theorem accumulator_Sum (st : List Byte) : (accumulator H).Sum st = (H st, st) := rfl

theorem accumulator_Reset (st : List Byte) : (accumulator H).Reset st = [] := rfl

/-- The loop of `CheckProof` from an interior index on, with the hasher of a digest
function in its reset state. -/
theorem checkLoop_interior (tree : MerkleTree) (sl : MerkleStep) (mid : List MerkleStep) :
    ∀ (idx : Nat) (hash : List Byte), 0 < idx →
      checkLoop (accumulator H) tree 0 ((idx + mid.length : Nat) : Int) idx (mid ++ [sl]) hash [] =
        (finalCheck tree (replay H tree.hex tree.separator hash mid) sl, []) := by
  induction mid with
  | nil =>
    intro idx hash hidx
    have h0 : ¬ ((idx : Int) = 0) := by omega
    simp only [List.nil_append, checkLoop, h0, if_false, List.length_nil, Nat.add_zero, if_true,
      replay, List.foldl_nil, finalCheck]
    split <;> [rfl; (split <;> rfl)]
  | cons s mid ih =>
    intro idx hash hidx
    have h0 : ¬ ((idx : Int) = 0) := by omega
    have h1 : ¬ ((idx : Int) = ((idx + (s :: mid).length : Nat) : Int)) := by
      simp; omega
    have e : idx + (s :: mid).length = (idx + 1) + mid.length := by simp; omega
    rw [List.cons_append, checkLoop]
    simp only [h0, h1, if_false]
    rw [e]
    have ih1 := fun hash => ih (idx + 1) hash (Nat.succ_pos idx)
    have hLR : ¬ ("Left" = "Right") := by decide
    have hRL : ¬ ("Right" = "Left") := by decide
    simp only [replay, List.foldl_cons] at ih1 ⊢
    by_cases hL : s.Typ = "Left"
    · by_cases hx : tree.hex = true <;>
        simp only [hx, hL, hLR, if_true, if_false, Bool.false_eq_true, writeChained_accumulator,
          accumulator_Sum, accumulator_Reset, ih1, replayStep, combine, encode, List.nil_append]
    · by_cases hR : s.Typ = "Right"
      · by_cases hx : tree.hex = true <;>
          simp only [hx, hL, hR, hRL, if_true, if_false, Bool.false_eq_true,
            writeChained_accumulator, accumulator_Sum, accumulator_Reset, ih1, replayStep, combine,
            encode, List.nil_append]
      · by_cases hx : tree.hex = true <;>
          simp only [hx, hL, hR, if_true, if_false, Bool.false_eq_true, writeChained_accumulator,
            accumulator_Sum, accumulator_Reset, ih1, replayStep, combine, encode, List.nil_append]

/-- The result of `CheckProof` on a proof with a `Leaf` step first and a `Root` step last. -/
theorem CheckProof_bookends (tree : MerkleTree) (s0 sl : MerkleStep) (mid : List MerkleStep)
    (h0 : s0.Typ = "Leaf") (hl : sl.Typ = "Root") :
    CheckProof (accumulator H) tree (s0 :: (mid ++ [sl])) [] =
      (finalCheck tree (replay H tree.hex tree.separator s0.Hash mid) sl, []) := by
  have hlast : (s0 :: (mid ++ [sl]))[mid.length + 1]? = some sl := by
    simp [List.getElem?_cons_succ]
  have hlen : (s0 :: (mid ++ [sl])).length = mid.length + 1 + 1 := by simp
  have e : ((mid.length + 1 + 1 : Nat) : Int) - 1 = ((mid.length + 1 : Nat) : Int) := by
    push_cast; omega
  unfold CheckProof
  dsimp only
  rw [hlen, e]
  have hneg : ¬ (((mid.length + 1 : Nat) : Int) < 0) := by omega
  simp only [lt_self_iff_false, if_false, Int.toNat_zero, List.getElem?_cons_zero, h0, ne_eq,
    not_true_eq_false, hneg, Int.toNat_ofNat, hlast, hl]
  rw [checkLoop]
  simp only [Nat.cast_zero, if_true]
  have := @checkLoop_interior H tree sl mid 1 s0.Hash (by omega)
  rw [show 1 + mid.length = mid.length + 1 by omega] at this
  exact this

end Checking

/-! ## The proof found replays to the root digest -/

section RoundTrip

variable {H : List Byte → List Byte} {useHex : Bool} {separator : Byte}

theorem replay_append (acc : List Byte) (s1 s2 : List MerkleStep) :
    replay H useHex separator acc (s1 ++ s2) =
      replay H useHex separator (replay H useHex separator acc s1) s2 := by
  simp [replay, List.foldl_append]

theorem replay_right (acc d : List Byte) :
    replay H useHex separator acc [{ Typ := "Right", Hash := d }] =
      combine H useHex separator acc d := by
  have hRL : ¬ ("Right" = "Left") := by decide
  simp [replay, replayStep, hRL]

theorem replay_left (acc d : List Byte) :
    replay H useHex separator acc [{ Typ := "Left", Hash := d }] =
      combine H useHex separator d acc := by
  simp [replay, replayStep]

/-- The steps of the path found are sibling steps, and they replay from the digest of
the query's string to the digest of the tree. -/
theorem Shape.findPath_spec (q : Stringer) (t : Shape) :
    ∀ {base : Nat} {p : Nat} {s : List MerkleStep},
      t.findPath H useHex separator q base = some (p, s) →
      (∀ st ∈ s, st.Typ = "Left" ∨ st.Typ = "Right") ∧
        replay H useHex separator (H q.String) s = t.digest H useHex separator := by
  induction t with
  | empty =>
    intro base p s hf
    simp [Shape.findPath] at hf
  | leaf x =>
    intro base p s hf
    simp only [Shape.findPath] at hf
    split at hf
    · rename_i hx
      simp only [Option.some.injEq, Prod.mk.injEq] at hf
      obtain ⟨rfl, rfl⟩ := hf
      simp [replay, Shape.digest, hx]
    · simp at hf
  | node l r ihl ihr =>
    intro base p s hf
    simp only [Shape.findPath] at hf
    cases hl : l.findPath H useHex separator q base with
    | some a =>
      obtain ⟨p1, s1⟩ := a
      simp only [hl, Option.some.injEq, Prod.mk.injEq] at hf
      obtain ⟨rfl, rfl⟩ := hf
      obtain ⟨h1, h2⟩ := ihl hl
      refine ⟨?_, ?_⟩
      · intro st hst
        rcases List.mem_append.1 hst with h | h
        · exact h1 st h
        · simp only [List.mem_singleton] at h
          subst h
          exact Or.inr rfl
      · rw [replay_append, h2, replay_right, Shape.digest]
    | none =>
      simp only [hl] at hf
      cases hr : r.findPath H useHex separator q (base + l.size) with
      | some a =>
        obtain ⟨p1, s1⟩ := a
        simp only [hr, Option.some.injEq, Prod.mk.injEq] at hf
        obtain ⟨rfl, rfl⟩ := hf
        obtain ⟨h1, h2⟩ := ihr hr
        refine ⟨?_, ?_⟩
        · intro st hst
          rcases List.mem_append.1 hst with h | h
          · exact h1 st h
          · simp only [List.mem_singleton] at h
            subst h
            exact Or.inl rfl
        · rw [replay_append, h2, replay_left, Shape.digest]
      | none => simp [hr] at hf

/-- A path is found exactly when some leaf has the string of the query. -/
theorem Shape.findPath_eq_none_iff (q : Stringer) (t : Shape) :
    ∀ {base : Nat}, t.findPath H useHex separator q base = none ↔
      ∀ x ∈ t.leaves, x.String ≠ q.String := by
  induction t with
  | empty =>
    intro base
    simp [Shape.findPath, Shape.leaves]
  | leaf x =>
    intro base
    by_cases hx : x.String = q.String <;> simp [Shape.findPath, Shape.leaves, hx]
  | node l r ihl ihr =>
    intro base
    simp only [Shape.findPath, Shape.leaves, List.mem_append]
    cases hl : l.findPath H useHex separator q base with
    | some a =>
      have := (not_iff_not.2 (@ihl base)).1 (by simp [hl])
      push_neg at this
      obtain ⟨x, hx, hxq⟩ := this
      simp only [reduceCtorEq, false_iff, not_forall]
      exact ⟨x, Or.inl hx, by simpa using hxq⟩
    | none =>
      have h1 := ihl.1 hl
      cases hr : r.findPath H useHex separator q (base + l.size) with
      | some a =>
        have := (not_iff_not.2 (@ihr (base + l.size))).1 (by simp [hr])
        push_neg at this
        obtain ⟨x, hx, hxq⟩ := this
        simp only [reduceCtorEq, false_iff, not_forall]
        exact ⟨x, Or.inr hx, by simpa using hxq⟩
      | none =>
        have h2 := ihr.1 hr
        simp only [true_iff]
        intro x hx
        rcases hx with h | h
        · exact h1 x h
        · exact h2 x h

theorem leaves_shape : ∀ leaves : List Stringer, (shape leaves).leaves = leaves := by
  intro leaves
  induction leaves using split_induction with
  | hnil => simp [shape_nil, Shape.leaves]
  | hone x => simp [shape_single, Shape.leaves]
  | hsplit leaves hlen ihl ihr =>
    rw [shape_split leaves hlen, Shape.leaves, ihl, ihr, List.take_append_drop]

theorem height_shape_le : ∀ leaves : List Stringer, (shape leaves).height ≤ leaves.length := by
  intro leaves
  induction leaves using split_induction with
  | hnil => simp [shape_nil, Shape.height]
  | hone x => simp [shape_single, Shape.height]
  | hsplit leaves hlen ihl ihr =>
    rw [shape_split leaves hlen, Shape.height]
    simp only [List.length_take, List.length_drop] at ihl ihr
    omega

theorem Shape.rootCell_hex (base : Nat) (parent : Option Nat) (t : Shape) :
    (t.rootCell H useHex separator base parent).hex = useHex := by
  cases t <;> rfl

theorem Shape.rootCell_separator (base : Nat) (parent : Option Nat) (t : Shape) :
    (t.rootCell H useHex separator base parent).separator = separator := by
  cases t <;> rfl

end RoundTrip

/-! # The claims -/

/-- C1. Round trip: on the tree that `Build` makes of a list of leaves, with the hasher of
any digest function (reset when `Build` is called), any hex flag and any separator,
`FindProofFor` returns a proof for every element of the list (also when several leaves
have the same string), and `CheckProof` of the root node accepts that proof. The fuel
only has to exceed the number of leaves. -/
theorem roundtrip (H : List Byte → List Byte) (useHex : Bool) (separator : Byte)
    (leaves : List Stringer) (x : Stringer) (heap : List MerkleTree) (fuel : Nat)
    (hx : x ∈ leaves) (hfuel : leaves.length < fuel) :
    ∃ (root : Nat) (tree : MerkleTree) (heap1 : List MerkleTree) (proof : List MerkleStep),
      Build (accumulator H) useHex separator leaves heap [] = (.ok root, heap1, []) ∧
      heap1[root]? = some tree ∧
      FindProofFor (accumulator H) fuel heap1 root x [] = (.ok proof, []) ∧
      CheckProof (accumulator H) tree proof [] = (.ok (), []) := by
  have hs : Sits H useHex separator (heap ++ (shape leaves).cells H useHex separator heap.length none)
      heap.length none (shape leaves) := Sits.of_append heap none _
  have hh := height_shape_le leaves
  cases hp : (shape leaves).findPath H useHex separator x heap.length with
  | none =>
    have := (Shape.findPath_eq_none_iff x (shape leaves)).1 hp x (by rw [leaves_shape]; exact hx)
    exact absurd rfl this
  | some a =>
    obtain ⟨p, s⟩ := a
    obtain ⟨-, hrep⟩ := Shape.findPath_spec x (shape leaves) hp
    refine ⟨_, _, _, [{ Typ := "Leaf", Hash := H x.String }] ++ s ++
      [{ Typ := "Root", Hash := (shape leaves).digest H useHex separator }],
      Build_accumulator H useHex separator leaves heap, hs.get_root, ?_, ?_⟩
    · rw [FindProofFor_sits x (shape leaves) fuel hs (by omega), hp]
    · rw [List.append_assoc, List.singleton_append,
        CheckProof_bookends _ _ _ _ rfl rfl]
      simp [finalCheck, Shape.rootCell_hex, Shape.rootCell_separator, hrep, Shape.rootCell_Hash]

/-- C1 at three leaves, two of them with the same string. -/
theorem roundtrip_witness :
    (⟨1, [65]⟩ : Stringer) ∈ [(⟨0, [65]⟩ : Stringer), ⟨1, [65]⟩, ⟨2, [66]⟩] ∧
    [(⟨0, [65]⟩ : Stringer), ⟨1, [65]⟩, ⟨2, [66]⟩].length < 4 ∧
    ∃ (root : Nat) (tree : MerkleTree) (heap1 : List MerkleTree) (proof : List MerkleStep),
      Build (accumulator id) false 49 [⟨0, [65]⟩, ⟨1, [65]⟩, ⟨2, [66]⟩] [] [] = (.ok root, heap1, []) ∧
      heap1[root]? = some tree ∧
      FindProofFor (accumulator id) 4 heap1 root ⟨1, [65]⟩ [] = (.ok proof, []) ∧
      CheckProof (accumulator id) tree proof [] = (.ok (), []) :=
  ⟨by decide, by decide,
    roundtrip id false 49 [⟨0, [65]⟩, ⟨1, [65]⟩, ⟨2, [66]⟩] ⟨1, [65]⟩ [] 4 (by decide) (by decide)⟩

theorem replay_eq_specFold (H : List Byte → List Byte) (useHex : Bool) (separator : Byte)
    (steps : List MerkleStep) :
    ∀ acc : List Byte, (∀ s ∈ steps, s.Typ = "Left" ∨ s.Typ = "Right") →
      replay H useHex separator acc steps = specFold H useHex separator acc steps := by
  induction steps with
  | nil => intro acc _; rfl
  | cons s steps ih =>
    intro acc h
    have hs := h s (List.mem_cons_self _ _)
    have ih1 := ih (replayStep H useHex separator acc s)
      (fun s1 h1 => h s1 (List.mem_cons_of_mem _ h1))
    simp only [replay, specFold, List.foldl_cons] at ih1 ⊢
    rw [ih1]
    congr 1
    rcases hs with hs | hs <;> simp [replayStep, combine, hs]

/-- C6. The outcome of `CheckProof` is the replay result: for a proof with a `Leaf` step
first, a `Root` step last and only `Left` and `Right` steps between, let `acc` be the fold
of the interior steps from the first step's digest, with the tree's hex flag and
separator. `CheckProof` returns the proof-mismatch error iff `acc` differs from the last
step's digest, the root-mismatch error iff `acc` is the last step's digest and differs
from the tree's, and no error iff `acc` equals both. -/
theorem checkProof_outcome (H : List Byte → List Byte) (tree : MerkleTree) (s0 sl : MerkleStep)
    (mid : List MerkleStep) (h0 : s0.Typ = "Leaf") (hl : sl.Typ = "Root")
    (hmid : ∀ s ∈ mid, s.Typ = "Left" ∨ s.Typ = "Right") :
    ((CheckProof (accumulator H) tree (s0 :: (mid ++ [sl])) []).1 = .error .proofMismatch ↔
        specFold H tree.hex tree.separator s0.Hash mid ≠ sl.Hash) ∧
      ((CheckProof (accumulator H) tree (s0 :: (mid ++ [sl])) []).1 = .error .rootMismatch ↔
        specFold H tree.hex tree.separator s0.Hash mid = sl.Hash ∧
          specFold H tree.hex tree.separator s0.Hash mid ≠ tree.Hash) ∧
      ((CheckProof (accumulator H) tree (s0 :: (mid ++ [sl])) []).1 = .ok () ↔
        specFold H tree.hex tree.separator s0.Hash mid = sl.Hash ∧
          specFold H tree.hex tree.separator s0.Hash mid = tree.Hash) := by
  rw [CheckProof_bookends tree s0 sl mid h0 hl, replay_eq_specFold _ _ _ _ _ hmid]
  generalize specFold H tree.hex tree.separator s0.Hash mid = acc
  simp only [finalCheck]
  split_ifs with h1 h2 <;> simp_all

/-- C6 at a proof with one interior step, checked against a node with another digest. -/
theorem checkProof_outcome_witness :
    ((CheckProof (accumulator id) ⟨false, 49, [7], none, none, none, none⟩
        (⟨"Leaf", [65]⟩ :: ([⟨"Right", [66]⟩] ++ [⟨"Root", [65, 49, 66]⟩])) []).1 =
          .error .proofMismatch ↔
        specFold id false 49 [65] [⟨"Right", [66]⟩] ≠ [65, 49, 66]) ∧
      ((CheckProof (accumulator id) ⟨false, 49, [7], none, none, none, none⟩
        (⟨"Leaf", [65]⟩ :: ([⟨"Right", [66]⟩] ++ [⟨"Root", [65, 49, 66]⟩])) []).1 =
          .error .rootMismatch ↔
        specFold id false 49 [65] [⟨"Right", [66]⟩] = [65, 49, 66] ∧
          specFold id false 49 [65] [⟨"Right", [66]⟩] ≠ [7]) ∧
      ((CheckProof (accumulator id) ⟨false, 49, [7], none, none, none, none⟩
        (⟨"Leaf", [65]⟩ :: ([⟨"Right", [66]⟩] ++ [⟨"Root", [65, 49, 66]⟩])) []).1 = .ok () ↔
        specFold id false 49 [65] [⟨"Right", [66]⟩] = [65, 49, 66] ∧
          specFold id false 49 [65] [⟨"Right", [66]⟩] = [7]) :=
  checkProof_outcome id ⟨false, 49, [7], none, none, none, none⟩ ⟨"Leaf", [65]⟩
    ⟨"Root", [65, 49, 66]⟩ [⟨"Right", [66]⟩] rfl rfl (by decide)

/-- C7, the failing input. On the empty step sequence `CheckProof` panics at `steps[first]`
with an index out of range; it returns no error value. -/
theorem checkProof_empty_panics {σ : Type} (hasher : HashImpl σ) (tree : MerkleTree) (st : σ) :
    CheckProof hasher tree [] st = (.panic .indexOutOfRange, st) := by
  simp [CheckProof]

/-- On a sequence of one step `CheckProof` returns a malformed-proof error, whatever the
step: its tag cannot be both `Leaf` and `Root`. -/
theorem CheckProof_single {σ : Type} (hasher : HashImpl σ) (tree : MerkleTree) (s : MerkleStep)
    (st : σ) :
    ∃ e, CheckProof hasher tree [s] st = (.error e, st) ∧ e.kind = .MalformedProof := by
  by_cases h : s.Typ = "Leaf"
  · refine ⟨.lastEntryMustBeRoot, ?_, rfl⟩
    have hne : ¬ ("Leaf" = "Root") := by decide
    simp [CheckProof, h, hne]
  · refine ⟨.firstEntryMustBeLeaf, ?_, rfl⟩
    simp [CheckProof, h]

/-- The two tests of `CheckProof` before its loop, on a sequence that is not empty. -/
theorem CheckProof_malformed {σ : Type} (hasher : HashImpl σ) (tree : MerkleTree) (s0 : MerkleStep)
    (rest : List MerkleStep) (st : σ)
    (h : s0.Typ ≠ "Leaf" ∨ ((s0 :: rest).getLast (List.cons_ne_nil s0 rest)).Typ ≠ "Root") :
    ∃ e, CheckProof hasher tree (s0 :: rest) st = (.error e, st) ∧ e.kind = .MalformedProof := by
  by_cases h1 : s0.Typ = "Leaf"
  · have h2 : ((s0 :: rest).getLast (List.cons_ne_nil s0 rest)).Typ ≠ "Root" := by
      rcases h with h | h
      · exact absurd h1 h
      · exact h
    refine ⟨.lastEntryMustBeRoot, ?_, rfl⟩
    have hlast : (s0 :: rest)[rest.length]? =
        some ((s0 :: rest).getLast (List.cons_ne_nil s0 rest)) := by
      rw [List.getLast_eq_getElem]
      simp
    unfold CheckProof
    dsimp only
    have e : (((s0 :: rest).length : Nat) : Int) - 1 = ((rest.length : Nat) : Int) := by
      simp
    rw [e]
    have hneg : ¬ (((rest.length : Nat) : Int) < 0) := by omega
    simp only [lt_self_iff_false, if_false, Int.toNat_zero, List.getElem?_cons_zero, h1, ne_eq,
      not_true_eq_false, hneg, Int.toNat_ofNat, hlast, h2, not_false_eq_true, if_true]
  · refine ⟨.firstEntryMustBeLeaf, ?_, rfl⟩
    simp [CheckProof, h1]

/-- C8. Malformed bookends: on a step sequence that is not empty and whose first step is
not tagged `Leaf` or whose last step is not tagged `Root`, `CheckProof` returns a
malformed-proof error and leaves the hasher's state as it was, for every hasher; a
hasher that records its calls has recorded none: no write, no sum, no reset. -/
theorem checkProof_malformed_bookends {σ : Type} (hasher : HashImpl σ) (tree : MerkleTree)
    (s0 : MerkleStep) (rest : List MerkleStep) (st : σ)
    (h : s0.Typ ≠ "Leaf" ∨ ((s0 :: rest).getLast (List.cons_ne_nil s0 rest)).Typ ≠ "Root") :
    (∃ e, CheckProof hasher tree (s0 :: rest) st = (.error e, st) ∧ e.kind = .MalformedProof) ∧
      (CheckProof (recording hasher) tree (s0 :: rest) (st, [])).2 = (st, []) := by
  refine ⟨CheckProof_malformed hasher tree s0 rest st h, ?_⟩
  obtain ⟨e, he, -⟩ := CheckProof_malformed (recording hasher) tree s0 rest (st, []) h
  rw [he]

/-- C8 at a proof that starts with a `Leaf` step and ends with a `Left` step. -/
theorem checkProof_malformed_bookends_witness :
    ((⟨"Leaf", [65]⟩ : MerkleStep).Typ ≠ "Leaf" ∨
      (((⟨"Leaf", [65]⟩ : MerkleStep) :: [⟨"Right", [66]⟩, ⟨"Left", [67]⟩]).getLast
        (List.cons_ne_nil _ _)).Typ ≠ "Root") ∧
    ((∃ e, CheckProof (accumulator id) ⟨false, 49, [7], none, none, none, none⟩
        (⟨"Leaf", [65]⟩ :: [⟨"Right", [66]⟩, ⟨"Left", [67]⟩]) [1, 2] = (.error e, [1, 2]) ∧
        e.kind = .MalformedProof) ∧
      (CheckProof (recording (accumulator id)) ⟨false, 49, [7], none, none, none, none⟩
        (⟨"Leaf", [65]⟩ :: [⟨"Right", [66]⟩, ⟨"Left", [67]⟩]) ([1, 2], [])).2 = ([1, 2], [])) :=
  ⟨Or.inr (by decide),
    checkProof_malformed_bookends (accumulator id) ⟨false, 49, [7], none, none, none, none⟩
      ⟨"Leaf", [65]⟩ [⟨"Right", [66]⟩, ⟨"Left", [67]⟩] [1, 2] (Or.inr (by decide))⟩

/-! ## The reference digest and the sibling steps of a leaf list -/

section Reference

variable {H : List Byte → List Byte} {useHex : Bool} {separator : Byte}

theorem refDigest_nil : refDigest H useHex separator [] = H [] := by
  rw [refDigest]; simp

theorem refDigest_single (x : Stringer) : refDigest H useHex separator [x] = H x.String := by
  rw [refDigest]; simp

theorem refDigest_split (leaves : List Stringer) (h : 2 ≤ leaves.length) :
    refDigest H useHex separator leaves =
      H (encode useHex (refDigest H useHex separator
            (leaves.take (leaves.length / 2 + leaves.length % 2))) ++ [separator] ++
          encode useHex (refDigest H useHex separator
            (leaves.drop (leaves.length / 2 + leaves.length % 2)))) := by
  rw [refDigest]
  have h0 : ¬ leaves.length = 0 := by omega
  have h1 : ¬ leaves.length = 1 := by omega
  simp only [h0, h1, dite_false]

theorem digest_shape : ∀ leaves : List Stringer,
    (shape leaves).digest H useHex separator = refDigest H useHex separator leaves := by
  intro leaves
  induction leaves using split_induction with
  | hnil => simp [shape_nil, Shape.digest, refDigest_nil]
  | hone x => simp [shape_single, Shape.digest, refDigest_single]
  | hsplit leaves hlen ihl ihr =>
    rw [shape_split leaves hlen, Shape.digest, ihl, ihr, refDigest_split leaves hlen, combine]

theorem siblingSteps_short (leaves : List Stringer) (i : Nat) (h : leaves.length ≤ 1) :
    siblingSteps H useHex separator leaves i = [] := by
  rw [siblingSteps]; simp [h]

theorem siblingSteps_left (leaves : List Stringer) (i : Nat) (h : 2 ≤ leaves.length)
    (hi : i < leaves.length / 2 + leaves.length % 2) :
    siblingSteps H useHex separator leaves i =
      siblingSteps H useHex separator (leaves.take (leaves.length / 2 + leaves.length % 2)) i ++
        [{ Typ := "Right", Hash := refDigest H useHex separator
            (leaves.drop (leaves.length / 2 + leaves.length % 2)) }] := by
  rw [siblingSteps]
  have h0 : ¬ leaves.length ≤ 1 := by omega
  simp only [h0, dite_false, hi, if_true]

theorem siblingSteps_right (leaves : List Stringer) (i : Nat) (h : 2 ≤ leaves.length)
    (hi : ¬ i < leaves.length / 2 + leaves.length % 2) :
    siblingSteps H useHex separator leaves i =
      siblingSteps H useHex separator (leaves.drop (leaves.length / 2 + leaves.length % 2))
          (i - (leaves.length / 2 + leaves.length % 2)) ++
        [{ Typ := "Left", Hash := refDigest H useHex separator
            (leaves.take (leaves.length / 2 + leaves.length % 2)) }] := by
  rw [siblingSteps]
  have h0 : ¬ leaves.length ≤ 1 := by omega
  simp only [h0, dite_false, hi, if_false]

theorem findIdx?_lt {α : Type} (p : α → Bool) (xs : List α) (i : Nat)
    (h : xs.findIdx? p = some i) : i < xs.length := by
  obtain ⟨hlt, -⟩ := List.findIdx?_eq_some_iff_getElem.1 h
  exact hlt

/-- The steps of the path found in `shape leaves` are the sibling steps of the first
leaf with the string of the query. -/
theorem findPath_shape (q : Stringer) : ∀ (leaves : List Stringer) (base : Nat),
    Option.map Prod.snd ((shape leaves).findPath H useHex separator q base) =
      Option.map (siblingSteps H useHex separator leaves)
        (leaves.findIdx? (fun x => decide (x.String = q.String))) := by
  intro leaves
  induction leaves using split_induction with
  | hnil => intro base; simp [shape_nil, Shape.findPath]
  | hone x =>
    intro base
    by_cases hx : x.String = q.String <;>
      simp [shape_single, Shape.findPath, hx, siblingSteps_short]
  | hsplit leaves hlen ihl ihr =>
    intro base
    have hsplit : leaves = leaves.take (leaves.length / 2 + leaves.length % 2) ++
        leaves.drop (leaves.length / 2 + leaves.length % 2) :=
      (List.take_append_drop _ _).symm
    have hlt : (leaves.take (leaves.length / 2 + leaves.length % 2)).length =
        leaves.length / 2 + leaves.length % 2 := by
      rw [List.length_take]; omega
    have ihl1 := ihl base
    have ihr1 := ihr (base + (shape (leaves.take (leaves.length / 2 + leaves.length % 2))).size)
    rw [shape_split leaves hlen, Shape.findPath]
    conv_rhs => rw [hsplit, List.findIdx?_append, hlt]
    simp only [digest_shape]
    cases hfl : (leaves.take (leaves.length / 2 + leaves.length % 2)).findIdx?
        (fun x => decide (x.String = q.String)) with
    | some i =>
      have hi := findIdx?_lt _ _ _ hfl
      rw [hlt] at hi
      rw [hfl] at ihl1
      cases hpl : (shape (leaves.take (leaves.length / 2 + leaves.length % 2))).findPath H useHex
          separator q base with
      | none => simp [hpl] at ihl1
      | some a =>
        obtain ⟨p, s⟩ := a
        simp only [hpl, Option.map_some', Option.some.injEq] at ihl1
        simp only [Option.map_some', Option.or_some, ihl1, ← hsplit]
        rw [siblingSteps_left leaves i hlen hi]
    | none =>
      rw [hfl] at ihl1
      cases hpl : (shape (leaves.take (leaves.length / 2 + leaves.length % 2))).findPath H useHex
          separator q base with
      | some a => simp [hpl] at ihl1
      | none =>
        simp only [Option.none_or]
        cases hfr : (leaves.drop (leaves.length / 2 + leaves.length % 2)).findIdx?
            (fun x => decide (x.String = q.String)) with
        | some j =>
          rw [hfr] at ihr1
          cases hpr : (shape (leaves.drop (leaves.length / 2 + leaves.length % 2))).findPath H
              useHex separator q
              (base + (shape (leaves.take (leaves.length / 2 + leaves.length % 2))).size) with
          | none => simp [hpr] at ihr1
          | some a =>
            obtain ⟨p, s⟩ := a
            simp only [hpr, Option.map_some', Option.some.injEq] at ihr1
            simp only [Option.map_some', ihr1, ← hsplit]
            rw [siblingSteps_right leaves _ hlen (by omega)]
            simp
        | none =>
          rw [hfr] at ihr1
          cases hpr : (shape (leaves.drop (leaves.length / 2 + leaves.length % 2))).findPath H
              useHex separator q
              (base + (shape (leaves.take (leaves.length / 2 + leaves.length % 2))).size) with
          | some a => simp [hpr] at ihr1
          | none => simp

end Reference

/-! ## Every cell of a tree is the root of a subtree -/

section Cells

variable {H : List Byte → List Byte} {useHex : Bool} {separator : Byte}

theorem Shape.Sub.trans {a b c : Shape} (h1 : Shape.Sub a b) (h2 : Shape.Sub b c) :
    Shape.Sub a c := by
  induction h2 with
  | refl => exact h1
  | left r _ ih => exact Shape.Sub.left r ih
  | right l _ ih => exact Shape.Sub.right l ih

/-- Every address in the range of a tree is the root of one of its subtrees. -/
theorem Sits.subtree_at {heap : List MerkleTree} (t : Shape) :
    ∀ {base : Nat} {parent : Option Nat} (p : Nat), Sits H useHex separator heap base parent t →
      base ≤ p → p < base + t.size →
      ∃ (b : Nat) (par : Option Nat) (s : Shape),
        Sits H useHex separator heap b par s ∧ s.root b = p ∧ Shape.Sub s t := by
  induction t with
  | empty =>
    intro base parent p hs h1 h2
    simp only [Shape.size] at h2
    exact ⟨base, parent, .empty, hs, by simp [Shape.root, Shape.size]; omega, Shape.Sub.refl _⟩
  | leaf x =>
    intro base parent p hs h1 h2
    simp only [Shape.size] at h2
    exact ⟨base, parent, .leaf x, hs, by simp [Shape.root, Shape.size]; omega, Shape.Sub.refl _⟩
  | node l r ihl ihr =>
    intro base parent p hs h1 h2
    simp only [Shape.size] at h2
    by_cases hl : p < base + l.size
    · obtain ⟨b, par, s, h3, h4, h5⟩ := ihl p hs.left h1 hl
      exact ⟨b, par, s, h3, h4, Shape.Sub.left r h5⟩
    · by_cases hr : p < base + l.size + r.size
      · obtain ⟨b, par, s, h3, h4, h5⟩ := ihr p hs.right (by omega) hr
        exact ⟨b, par, s, h3, h4, Shape.Sub.right l h5⟩
      · exact ⟨base, parent, .node l r, hs, by simp [Shape.root, Shape.size]; omega,
          Shape.Sub.refl _⟩

/-- An interior cell of a tree on the heap and its two children. -/
theorem Sits.interior {heap : List MerkleTree} {base : Nat} {parent : Option Nat} {t : Shape}
    (hs : Sits H useHex separator heap base parent t) {l r : Nat}
    (hl : (t.rootCell H useHex separator base parent).Left = some l)
    (_hr : (t.rootCell H useHex separator base parent).Right = some r) :
    ∃ tl tr, t = .node tl tr := by
  cases t with
  | empty => simp [Shape.rootCell] at hl
  | leaf x => simp [Shape.rootCell] at hl
  | node tl tr => exact ⟨tl, tr, rfl⟩

end Cells

/-- C4. `Build` computes the reference digest: the `Hash` of the root that `Build` returns
is `refDigest` of the leaf list, for every digest function, hex flag, separator and leaf
list; and every node that `Build` made with two children has the digest
`H(enc(left.Hash) ++ [s] ++ enc(right.Hash))` of its children's `Hash` fields. -/
theorem build_reference_digest (H : List Byte → List Byte) (useHex : Bool) (separator : Byte)
    (leaves : List Stringer) (heap : List MerkleTree) :
    ∃ (root : Nat) (tree : MerkleTree) (heap1 : List MerkleTree),
      Build (accumulator H) useHex separator leaves heap [] = (.ok root, heap1, []) ∧
      heap1[root]? = some tree ∧
      tree.Hash = refDigest H useHex separator leaves ∧
      ∀ (p : Nat) (node : MerkleTree) (l r : Nat), heap.length ≤ p → heap1[p]? = some node →
        node.Left = some l → node.Right = some r →
        ∃ ln rn, heap1[l]? = some ln ∧ heap1[r]? = some rn ∧
          node.Hash = H (encode useHex ln.Hash ++ [separator] ++ encode useHex rn.Hash) := by
  have hs : Sits H useHex separator (heap ++ (shape leaves).cells H useHex separator heap.length none)
      heap.length none (shape leaves) := Sits.of_append heap none _
  refine ⟨_, _, _, Build_accumulator H useHex separator leaves heap, hs.get_root, ?_, ?_⟩
  · rw [Shape.rootCell_Hash, digest_shape]
  · intro p node l r hp hnode hl hr
    have hlt : p < heap.length + (shape leaves).size := by
      have := (List.getElem?_eq_some_iff.1 hnode).1
      simpa [Shape.length_cells] using this
    obtain ⟨b, par, s, h1, h2, -⟩ := hs.subtree_at (shape leaves) p hp hlt
    have hg := h1.get_root
    rw [h2, hnode, Option.some.injEq] at hg
    subst hg
    obtain ⟨tl, tr, rfl⟩ := h1.interior hl hr
    have gl := h1.left.get_root
    have gr := h1.right.get_root
    simp only [Shape.rootCell_node_Left, Shape.rootCell_node_Right, Option.some.injEq] at hl hr
    simp only [Shape.root] at gl gr
    rw [hl] at gl
    rw [hr] at gr
    exact ⟨_, _, gl, gr, by simp [Shape.rootCell_Hash, Shape.digest, combine]⟩

/-- C9. Shape of a generated proof: when `i` is the index of the first leaf of the list
with the string of the query `q`, `FindProofFor` on the tree built from the list returns
the `Leaf` step with the digest of `q`'s string, then the sibling steps of leaf `i` from
the leaf's level upward (a `Right` step with the right child's digest where the path goes
through the left child, a `Left` step with the left child's digest where it goes through
the right child), then the `Root` step with the root digest. -/
theorem findProofFor_shape (H : List Byte → List Byte) (useHex : Bool) (separator : Byte)
    (leaves : List Stringer) (q : Stringer) (i : Nat) (heap : List MerkleTree) (fuel : Nat)
    (hi : leaves.findIdx? (fun x => decide (x.String = q.String)) = some i)
    (hfuel : leaves.length < fuel) :
    ∃ (root : Nat) (heap1 : List MerkleTree),
      Build (accumulator H) useHex separator leaves heap [] = (.ok root, heap1, []) ∧
      FindProofFor (accumulator H) fuel heap1 root q [] =
        (.ok ([{ Typ := "Leaf", Hash := H q.String }] ++
            siblingSteps H useHex separator leaves i ++
            [{ Typ := "Root", Hash := refDigest H useHex separator leaves }]), []) := by
  have hs : Sits H useHex separator (heap ++ (shape leaves).cells H useHex separator heap.length none)
      heap.length none (shape leaves) := Sits.of_append heap none _
  have hh := height_shape_le leaves
  refine ⟨_, _, Build_accumulator H useHex separator leaves heap, ?_⟩
  rw [FindProofFor_sits q (shape leaves) fuel hs (by omega)]
  have key := @findPath_shape H useHex separator q leaves heap.length
  rw [hi] at key
  cases hp : (shape leaves).findPath H useHex separator q heap.length with
  | none => simp [hp] at key
  | some a =>
    obtain ⟨p, s⟩ := a
    simp only [hp, Option.map_some', Option.some.injEq] at key
    simp only [key, digest_shape]

/-- C9 at the seven leaves `A` to `G` and the query `D`, raw digests, separator `0x31`. -/
theorem findProofFor_shape_witness :
    [(⟨0, [65]⟩ : Stringer), ⟨1, [66]⟩, ⟨2, [67]⟩, ⟨3, [68]⟩, ⟨4, [69]⟩, ⟨5, [70]⟩,
        ⟨6, [71]⟩].findIdx? (fun x => decide (x.String = (⟨9, [68]⟩ : Stringer).String)) = some 3 ∧
    [(⟨0, [65]⟩ : Stringer), ⟨1, [66]⟩, ⟨2, [67]⟩, ⟨3, [68]⟩, ⟨4, [69]⟩, ⟨5, [70]⟩,
        ⟨6, [71]⟩].length < 8 ∧
    ∃ (root : Nat) (heap1 : List MerkleTree),
      Build (accumulator id) false 49 [⟨0, [65]⟩, ⟨1, [66]⟩, ⟨2, [67]⟩, ⟨3, [68]⟩, ⟨4, [69]⟩,
        ⟨5, [70]⟩, ⟨6, [71]⟩] [] [] = (.ok root, heap1, []) ∧
      FindProofFor (accumulator id) 8 heap1 root ⟨9, [68]⟩ [] =
        (.ok ([{ Typ := "Leaf", Hash := id (⟨9, [68]⟩ : Stringer).String }] ++
            siblingSteps id false 49 [⟨0, [65]⟩, ⟨1, [66]⟩, ⟨2, [67]⟩, ⟨3, [68]⟩, ⟨4, [69]⟩,
              ⟨5, [70]⟩, ⟨6, [71]⟩] 3 ++
            [{ Typ := "Root", Hash := refDigest id false 49 [⟨0, [65]⟩, ⟨1, [66]⟩, ⟨2, [67]⟩,
              ⟨3, [68]⟩, ⟨4, [69]⟩, ⟨5, [70]⟩, ⟨6, [71]⟩] }]), []) :=
  ⟨by decide, by decide,
    findProofFor_shape id false 49 [⟨0, [65]⟩, ⟨1, [66]⟩, ⟨2, [67]⟩, ⟨3, [68]⟩, ⟨4, [69]⟩,
      ⟨5, [70]⟩, ⟨6, [71]⟩] ⟨9, [68]⟩ 3 [] 8 (by decide) (by decide)⟩

/-- C10. `FindProofFor` fails exactly when the leaf is absent: on the tree built from a
leaf list it returns the leaf-not-found error if and only if no element of the list has
the string of the query, and a proof if some element has (the hasher of a digest
function never fails to write). -/
theorem findProofFor_fails_iff (H : List Byte → List Byte) (useHex : Bool) (separator : Byte)
    (leaves : List Stringer) (q : Stringer) (heap : List MerkleTree) (fuel : Nat)
    (hfuel : leaves.length < fuel) :
    ∃ (root : Nat) (heap1 : List MerkleTree),
      Build (accumulator H) useHex separator leaves heap [] = (.ok root, heap1, []) ∧
      ((∃ e, (FindProofFor (accumulator H) fuel heap1 root q []).1 = .error e ∧
          e.kind = .LeafNotFound) ↔ ∀ x ∈ leaves, x.String ≠ q.String) ∧
      ((∃ x ∈ leaves, x.String = q.String) →
        ∃ proof, (FindProofFor (accumulator H) fuel heap1 root q []).1 = .ok proof) := by
  have hs : Sits H useHex separator (heap ++ (shape leaves).cells H useHex separator heap.length none)
      heap.length none (shape leaves) := Sits.of_append heap none _
  have hh := height_shape_le leaves
  refine ⟨_, _, Build_accumulator H useHex separator leaves heap, ?_⟩
  rw [FindProofFor_sits q (shape leaves) fuel hs (by omega)]
  have key := @Shape.findPath_eq_none_iff H useHex separator q (shape leaves) heap.length
  rw [leaves_shape] at key
  cases hp : (shape leaves).findPath H useHex separator q heap.length with
  | none =>
    have hno := key.1 hp
    refine ⟨⟨fun _ => hno, fun _ => ⟨_, rfl, rfl⟩⟩, ?_⟩
    rintro ⟨x, hx, hxq⟩
    exact absurd hxq (hno x hx)
  | some a =>
    obtain ⟨p, s⟩ := a
    have hsome : ¬ ∀ x ∈ leaves, x.String ≠ q.String := by
      intro h
      rw [key.2 h] at hp
      cases hp
    refine ⟨⟨?_, fun h => absurd h hsome⟩, fun _ => ⟨_, rfl⟩⟩
    rintro ⟨e, he, -⟩
    cases he

/-- C10 at the leaves `A`, `B` and a query with the string `B`. -/
theorem findProofFor_fails_iff_witness :
    [(⟨0, [65]⟩ : Stringer), ⟨1, [66]⟩].length < 3 ∧
    ∃ (root : Nat) (heap1 : List MerkleTree),
      Build (accumulator id) false 49 [⟨0, [65]⟩, ⟨1, [66]⟩] [] [] = (.ok root, heap1, []) ∧
      ((∃ e, (FindProofFor (accumulator id) 3 heap1 root ⟨7, [66]⟩ []).1 = .error e ∧
          e.kind = .LeafNotFound) ↔
        ∀ x ∈ [(⟨0, [65]⟩ : Stringer), ⟨1, [66]⟩], x.String ≠ (⟨7, [66]⟩ : Stringer).String) ∧
      ((∃ x ∈ [(⟨0, [65]⟩ : Stringer), ⟨1, [66]⟩], x.String = (⟨7, [66]⟩ : Stringer).String) →
        ∃ proof, (FindProofFor (accumulator id) 3 heap1 root ⟨7, [66]⟩ []).1 = .ok proof) :=
  ⟨by decide, findProofFor_fails_iff id false 49 [⟨0, [65]⟩, ⟨1, [66]⟩] ⟨7, [66]⟩ [] 3 (by decide)⟩

/-! ## The leaves that a node covers -/

section Covering

variable {H : List Byte → List Byte} {useHex : Bool} {separator : Byte}

theorem Sits.leavesUnder {heap : List MerkleTree} (t : Shape) :
    ∀ {base : Nat} {parent : Option Nat}, Sits H useHex separator heap base parent t →
      LeavesUnder heap (t.root base) t.leaves := by
  induction t with
  | empty =>
    intro base parent hs
    exact LeavesUnder.empty _ _ hs.get_root rfl rfl rfl
  | leaf x =>
    intro base parent hs
    exact LeavesUnder.leaf _ _ x hs.get_root rfl
  | node l r ihl ihr =>
    intro base parent hs
    exact LeavesUnder.node _ _ _ _ _ _ hs.get_root rfl rfl rfl (ihl hs.left) (ihr hs.right)

theorem Sits.leavesUnder_unique {heap : List MerkleTree} (t : Shape) :
    ∀ {base : Nat} {parent : Option Nat} {xs : List Stringer},
      Sits H useHex separator heap base parent t → LeavesUnder heap (t.root base) xs →
      xs = t.leaves := by
  induction t with
  | empty =>
    intro base parent xs hs hu
    have hg := hs.get_root
    cases hu with
    | empty _ node h1 h2 h3 h4 => rfl
    | leaf _ node x h1 h2 =>
      rw [hg, Option.some.injEq] at h1
      subst h1
      simp [Shape.rootCell] at h2
    | node _ node l r xs ys h1 h2 h3 h4 h5 h6 =>
      rw [hg, Option.some.injEq] at h1
      subst h1
      simp [Shape.rootCell] at h3
  | leaf x =>
    intro base parent xs hs hu
    have hg := hs.get_root
    cases hu with
    | empty _ node h1 h2 h3 h4 =>
      rw [hg, Option.some.injEq] at h1
      subst h1
      simp [Shape.rootCell] at h2
    | leaf _ node y h1 h2 =>
      rw [hg, Option.some.injEq] at h1
      subst h1
      simp only [Shape.rootCell, Option.some.injEq] at h2
      subst h2
      rfl
    | node _ node l r xs ys h1 h2 h3 h4 h5 h6 =>
      rw [hg, Option.some.injEq] at h1
      subst h1
      simp [Shape.rootCell] at h3
  | node l r ihl ihr =>
    intro base parent xs hs hu
    have hg := hs.get_root
    cases hu with
    | empty _ node h1 h2 h3 h4 =>
      rw [hg, Option.some.injEq] at h1
      subst h1
      simp [Shape.rootCell] at h3
    | leaf _ node y h1 h2 =>
      rw [hg, Option.some.injEq] at h1
      subst h1
      simp [Shape.rootCell] at h2
    | node _ node l1 r1 xs ys h1 h2 h3 h4 h5 h6 =>
      rw [hg, Option.some.injEq] at h1
      subst h1
      simp only [Shape.rootCell_node_Left, Shape.rootCell_node_Right, Option.some.injEq] at h3 h4
      subst h3
      subst h4
      rw [Shape.leaves, ihl hs.left h5, ihr hs.right h6]

theorem Shape.Sub.leaves {s t : Shape} (h : Shape.Sub s t) :
    ∃ pre post, t.leaves = pre ++ s.leaves ++ post := by
  induction h with
  | refl => exact ⟨[], [], by simp⟩
  | left r _ ih =>
    obtain ⟨pre, post, h⟩ := ih
    exact ⟨pre, post ++ r.leaves, by simp [Shape.leaves, h]⟩
  | right l _ ih =>
    obtain ⟨pre, post, h⟩ := ih
    exact ⟨l.leaves ++ pre, post, by simp [Shape.leaves, h]⟩

/-- Every subtree of the tree of a leaf list is the tree of its own leaves. -/
theorem Sub_shape : ∀ (leaves : List Stringer) (s : Shape), Shape.Sub s (shape leaves) →
    s = shape s.leaves := by
  intro leaves
  induction leaves using split_induction with
  | hnil =>
    intro s hs
    rw [shape_nil] at hs
    cases hs
    simp [Shape.leaves, shape_nil]
  | hone x =>
    intro s hs
    rw [shape_single] at hs
    cases hs
    simp [Shape.leaves, shape_single]
  | hsplit leaves hlen ihl ihr =>
    intro s hs
    generalize hg : shape leaves = g at hs
    cases hs with
    | refl => rw [← hg, leaves_shape]
    | left r h =>
      rw [shape_split leaves hlen, Shape.node.injEq] at hg
      rw [← hg.1] at h
      exact ihl s h
    | right l h =>
      rw [shape_split leaves hlen, Shape.node.injEq] at hg
      rw [← hg.2] at h
      exact ihr s h

theorem slice_of_append (xs pre mid post : List Stringer) (h : xs = pre ++ mid ++ post) :
    pre.length + mid.length ≤ xs.length ∧ (xs.drop pre.length).take mid.length = mid := by
  subst h
  simp

end Covering

/-- C5. Split invariant: in the tree built from a leaf list the root covers the whole
list; every node with two children covers a range `[a, a+k)` of the list, and whenever it
covers the `k` leaves of a range `[a, a+k)` then `k ≥ 2`, its left child covers
`[a, a + (k/2 + k%2))` and its right child covers the rest `[a + (k/2 + k%2), a+k)`; over
`n ≥ 2` leaves the left child of the root covers the first `(n+1)/2` leaves and the right
child the other `n/2 ≥ 1`. -/
theorem split_invariant (H : List Byte → List Byte) (useHex : Bool) (separator : Byte)
    (leaves : List Stringer) (heap : List MerkleTree) :
    ∃ (root : Nat) (heap1 : List MerkleTree),
      Build (accumulator H) useHex separator leaves heap [] = (.ok root, heap1, []) ∧
      LeavesUnder heap1 root leaves ∧
      (∀ (p : Nat) (node : MerkleTree) (l r : Nat), heap.length ≤ p → heap1[p]? = some node →
        node.Left = some l → node.Right = some r →
        (∃ a k, a + k ≤ leaves.length ∧ LeavesUnder heap1 p ((leaves.drop a).take k)) ∧
        ∀ a k, a + k ≤ leaves.length → LeavesUnder heap1 p ((leaves.drop a).take k) →
          2 ≤ k ∧ LeavesUnder heap1 l ((leaves.drop a).take (k / 2 + k % 2)) ∧
            LeavesUnder heap1 r ((leaves.drop (a + (k / 2 + k % 2))).take (k - (k / 2 + k % 2)))) ∧
      (2 ≤ leaves.length → ∃ (node : MerkleTree) (l r : Nat),
        heap1[root]? = some node ∧ node.Left = some l ∧ node.Right = some r ∧
        LeavesUnder heap1 l (leaves.take (leaves.length / 2 + leaves.length % 2)) ∧
        LeavesUnder heap1 r (leaves.drop (leaves.length / 2 + leaves.length % 2)) ∧
        (leaves.take (leaves.length / 2 + leaves.length % 2)).length = (leaves.length + 1) / 2 ∧
        (leaves.drop (leaves.length / 2 + leaves.length % 2)).length = leaves.length / 2 ∧
        1 ≤ leaves.length / 2) := by
  have hs : Sits H useHex separator (heap ++ (shape leaves).cells H useHex separator heap.length none)
      heap.length none (shape leaves) := Sits.of_append heap none _
  refine ⟨_, _, Build_accumulator H useHex separator leaves heap, ?_, ?_, ?_⟩
  · have := hs.leavesUnder (shape leaves)
    rwa [leaves_shape] at this
  · intro p node l r hp hnode hl hr
    have hlt : p < heap.length + (shape leaves).size := by
      have := (List.getElem?_eq_some_iff.1 hnode).1
      simpa [Shape.length_cells] using this
    obtain ⟨b, par, s, h1, h2, h3⟩ := hs.subtree_at (shape leaves) p hp hlt
    have hg := h1.get_root
    rw [h2, hnode, Option.some.injEq] at hg
    subst hg
    obtain ⟨tl, tr, rfl⟩ := h1.interior hl hr
    simp only [Shape.rootCell_node_Left, Shape.rootCell_node_Right, Option.some.injEq] at hl hr
    have hcover := h1.leavesUnder (Shape.node tl tr)
    rw [h2] at hcover
    have hcl := h1.left.leavesUnder tl
    have hcr := h1.right.leavesUnder tr
    simp only [Shape.root] at hcl hcr
    rw [hl] at hcl
    rw [hr] at hcr
    constructor
    · obtain ⟨pre, post, hpp⟩ := h3.leaves
      rw [leaves_shape] at hpp
      obtain ⟨h4, h5⟩ := slice_of_append leaves pre _ post hpp
      exact ⟨pre.length, (Shape.node tl tr).leaves.length, h4, by rw [h5]; exact hcover⟩
    · intro a k hak hu
      rw [← h2] at hu
      have hM := h1.leavesUnder_unique (Shape.node tl tr) hu
      have hk : ((leaves.drop a).take k).length = k := by
        rw [List.length_take, List.length_drop]; omega
      have hcanon := Sub_shape leaves _ h3
      rw [← hM] at hcanon
      have h2k : 2 ≤ k := by
        by_contra hcon
        have hk1 : k = 0 ∨ k = 1 := by omega
        rcases hk1 with hk0 | hk1
        · have : (leaves.drop a).take k = [] := List.eq_nil_of_length_eq_zero (by omega)
          rw [this, shape_nil] at hcanon
          cases hcanon
        · obtain ⟨x, hx⟩ := List.length_eq_one.1 (hk.trans hk1)
          rw [hx, shape_single] at hcanon
          cases hcanon
      rw [shape_split _ (by omega), Shape.node.injEq, hk] at hcanon
      obtain ⟨e1, e2⟩ := hcanon
      have el := congrArg Shape.leaves e1
      have er := congrArg Shape.leaves e2
      rw [leaves_shape] at el er
      refine ⟨h2k, ?_, ?_⟩
      · rw [el, List.take_take, Nat.min_eq_left (by omega)] at hcl
        exact hcl
      · rw [er, List.drop_take, List.drop_drop] at hcr
        exact hcr
  · intro hlen
    have hroot := hs.get_root
    rw [shape_split leaves hlen] at hroot hs
    have hcl := hs.left.leavesUnder _
    have hcr := hs.right.leavesUnder _
    rw [leaves_shape] at hcl hcr
    rw [shape_split leaves hlen]
    refine ⟨_, _, _, hroot, rfl, rfl, hcl, hcr, ?_, ?_, ?_⟩
    · rw [List.length_take]; omega
    · rw [List.length_drop]; omega
    · omega

/-! ## Injectivity of the encoding and of the combination -/

section Injective

theorem hexdigit_injective : ∀ i j : Fin 16, hexdigit i.val = hexdigit j.val → i = j := by
  decide

theorem hexdigit_eq {i j : Nat} (hi : i < 16) (hj : j < 16) (h : hexdigit i = hexdigit j) :
    i = j := by
  have := hexdigit_injective ⟨i, hi⟩ ⟨j, hj⟩ h
  exact congrArg Fin.val this

theorem length_EncodeToString (d : List Byte) : (EncodeToString d).length = 2 * d.length := by
  induction d with
  | nil => rfl
  | cons v rest ih => simp [EncodeToString, ih]; omega

theorem EncodeToString_injective : Function.Injective EncodeToString := by
  intro a
  induction a with
  | nil =>
    intro b h
    cases b with
    | nil => rfl
    | cons v rest => simp [EncodeToString] at h
  | cons u as ih =>
    intro b h
    cases b with
    | nil => simp [EncodeToString] at h
    | cons v bs =>
      simp only [EncodeToString, List.cons.injEq] at h
      obtain ⟨h1, h2, h3⟩ := h
      have e1 := hexdigit_eq (by omega) (by omega) h1
      have e2 := hexdigit_eq (Nat.mod_lt _ (by decide)) (Nat.mod_lt _ (by decide)) h2
      have : u = v := by
        apply Fin.ext
        omega
      rw [this, ih h3]

theorem encode_injective (useHex : Bool) : Function.Injective (encode useHex) := by
  intro a b h
  cases useHex
  · simpa [encode] using h
  · exact EncodeToString_injective (by simpa [encode] using h)

theorem length_encode (useHex : Bool) (d : List Byte) :
    (encode useHex d).length = if useHex then 2 * d.length else d.length := by
  cases useHex <;> simp [encode, length_EncodeToString]

theorem length_encode_eq_iff (useHex : Bool) (a b : List Byte) :
    (encode useHex a).length = (encode useHex b).length ↔ a.length = b.length := by
  cases useHex <;> simp [encode, length_EncodeToString]

/-- With an injective digest function, two combinations with the same digest have the
same operands, when the left operands or the right operands have the same length. -/
theorem combine_injective {H : List Byte → List Byte} (hH : Function.Injective H) (useHex : Bool)
    (separator : Byte) (a b a1 b1 : List Byte)
    (hlen : a.length = a1.length ∨ b.length = b1.length)
    (h : combine H useHex separator a b = combine H useHex separator a1 b1) :
    a = a1 ∧ b = b1 := by
  have h1 := hH h
  have hl : (encode useHex a).length = (encode useHex a1).length := by
    rcases hlen with hlen | hlen
    · exact (length_encode_eq_iff useHex a a1).2 hlen
    · have h2 := congrArg List.length h1
      have h3 := (length_encode_eq_iff useHex b b1).2 hlen
      simp only [List.length_append, List.length_singleton] at h2
      omega
  rw [List.append_assoc, List.append_assoc] at h1
  obtain ⟨e1, e2⟩ := List.append_inj h1 hl
  simp only [List.singleton_append, List.cons.injEq, true_and] at e2
  exact ⟨encode_injective useHex e1, encode_injective useHex e2⟩

variable {H : List Byte → List Byte} {useHex : Bool} {separator : Byte}

/-- Two different accumulated hashes stay different under `Left` and `Right` steps. -/
theorem replay_ne (hH : Function.Injective H) (steps : List MerkleStep) :
    ∀ (a b : List Byte), (∀ s ∈ steps, s.Typ = "Left" ∨ s.Typ = "Right") → a ≠ b →
      replay H useHex separator a steps ≠ replay H useHex separator b steps := by
  induction steps with
  | nil => intro a b _ hab; simpa [replay] using hab
  | cons s steps ih =>
    intro a b hs hab
    have hs0 := hs s (List.mem_cons_self _ _)
    simp only [replay, List.foldl_cons]
    apply ih _ _ (fun s1 h1 => hs s1 (List.mem_cons_of_mem _ h1))
    have hRL : ¬ ("Right" = "Left") := by decide
    rcases hs0 with h | h
    · simp only [replayStep, h, if_true]
      intro hc
      exact hab (combine_injective hH useHex separator _ _ _ _ (Or.inl rfl) hc).2
    · simp only [replayStep, h, hRL, if_true, if_false]
      intro hc
      exact hab (combine_injective hH useHex separator _ _ _ _ (Or.inr rfl) hc).1

/-- Replacing the digest of one `Left` or `Right` step by another of the same length
changes the result of the replay. -/
theorem replay_set_ne (hH : Function.Injective H) (steps : List MerkleStep) :
    ∀ (acc : List Byte) (j : Nat) (s : MerkleStep) (d : List Byte),
      (∀ s ∈ steps, s.Typ = "Left" ∨ s.Typ = "Right") → steps[j]? = some s →
      d.length = s.Hash.length → d ≠ s.Hash →
      replay H useHex separator acc (steps.set j { s with Hash := d }) ≠
        replay H useHex separator acc steps := by
  induction steps with
  | nil => intro acc j s d _ hj; simp at hj
  | cons s0 steps ih =>
    intro acc j s d hs hj hlen hne
    cases j with
    | zero =>
      simp only [List.getElem?_cons_zero, Option.some.injEq] at hj
      subst hj
      simp only [List.set_cons_zero, replay, List.foldl_cons]
      apply replay_ne hH steps _ _ (fun s1 h1 => hs s1 (List.mem_cons_of_mem _ h1))
      have hs0 := hs s0 (List.mem_cons_self _ _)
      have hRL : ¬ ("Right" = "Left") := by decide
      rcases hs0 with h | h
      · simp only [replayStep, h, if_true]
        intro hc
        exact hne (combine_injective hH useHex separator _ _ _ _ (Or.inl hlen) hc).1
      · simp only [replayStep, h, hRL, if_true, if_false]
        intro hc
        exact hne (combine_injective hH useHex separator _ _ _ _ (Or.inr hlen) hc).2
    | succ j =>
      simp only [List.getElem?_cons_succ] at hj
      simp only [List.set_cons_succ, replay, List.foldl_cons]
      exact ih _ j s d (fun s1 h1 => hs s1 (List.mem_cons_of_mem _ h1)) hj hlen hne

end Injective

theorem Shape.findPath_node_length {H : List Byte → List Byte} {useHex : Bool} {separator : Byte}
    (q : Stringer) (l r : Shape) {base p : Nat} {s : List MerkleStep}
    (h : (Shape.node l r).findPath H useHex separator q base = some (p, s)) : 1 ≤ s.length := by
  simp only [Shape.findPath] at h
  cases hl : l.findPath H useHex separator q base with
  | some a =>
    simp only [hl, Option.some.injEq, Prod.mk.injEq] at h
    rw [← h.2]
    simp
  | none =>
    simp only [hl] at h
    cases hr : r.findPath H useHex separator q (base + l.size) with
    | some a =>
      simp only [hr, Option.some.injEq, Prod.mk.injEq] at h
      rw [← h.2]
      simp
    | none => simp [hr] at h

/-- C3. Tamper sensitivity: with an injective digest function, on the tree built from two
or more leaves, the proof that `FindProofFor` returns for a leaf of the list has an
interior step, and replacing the digest of any interior step by a different digest of the
same length makes `CheckProof` return the proof-mismatch or the root-mismatch error. -/
theorem tamper_sensitivity (H : List Byte → List Byte) (useHex : Bool) (separator : Byte)
    (leaves : List Stringer) (x : Stringer) (heap : List MerkleTree) (fuel : Nat)
    (hH : Function.Injective H) (hlen : 2 ≤ leaves.length) (hx : x ∈ leaves)
    (hfuel : leaves.length < fuel) :
    ∃ (root : Nat) (tree : MerkleTree) (heap1 : List MerkleTree) (proof : List MerkleStep),
      Build (accumulator H) useHex separator leaves heap [] = (.ok root, heap1, []) ∧
      heap1[root]? = some tree ∧
      FindProofFor (accumulator H) fuel heap1 root x [] = (.ok proof, []) ∧
      3 ≤ proof.length ∧
      ∀ (i : Nat) (s : MerkleStep) (d : List Byte), 0 < i → i + 1 < proof.length →
        proof[i]? = some s → d.length = s.Hash.length → d ≠ s.Hash →
        (CheckProof (accumulator H) tree (proof.set i { s with Hash := d }) []).1 =
            .error .proofMismatch ∨
          (CheckProof (accumulator H) tree (proof.set i { s with Hash := d }) []).1 =
            .error .rootMismatch := by
  have hs : Sits H useHex separator (heap ++ (shape leaves).cells H useHex separator heap.length none)
      heap.length none (shape leaves) := Sits.of_append heap none _
  have hh := height_shape_le leaves
  cases hp : (shape leaves).findPath H useHex separator x heap.length with
  | none =>
    have := (Shape.findPath_eq_none_iff x (shape leaves)).1 hp x (by rw [leaves_shape]; exact hx)
    exact absurd rfl this
  | some a =>
    obtain ⟨p, S⟩ := a
    obtain ⟨htags, hrep⟩ := Shape.findPath_spec x (shape leaves) hp
    have hS : 1 ≤ S.length := by
      rw [shape_split leaves hlen] at hp
      exact Shape.findPath_node_length x _ _ hp
    refine ⟨_, _, _, { Typ := "Leaf", Hash := H x.String } :: (S ++
      [{ Typ := "Root", Hash := (shape leaves).digest H useHex separator }]),
      Build_accumulator H useHex separator leaves heap, hs.get_root, ?_, ?_, ?_⟩
    · rw [FindProofFor_sits x (shape leaves) fuel hs (by omega), hp]
      simp
    · simp only [List.length_cons, List.length_append, List.length_singleton, List.length_nil]
      omega
    · intro i s d hi0 hi1 hget hdlen hdne
      obtain ⟨j, rfl⟩ : ∃ j, i = j + 1 := ⟨i - 1, by omega⟩
      simp only [List.length_cons, List.length_append, List.length_singleton, List.length_nil] at hi1
      have hj : j < S.length := by omega
      rw [List.getElem?_cons_succ, List.getElem?_append_left hj] at hget
      rw [List.set_cons_succ, List.set_append_left _ _ hj,
        CheckProof_bookends _ _ _ _ rfl rfl]
      left
      have hne := @replay_set_ne H useHex separator hH S (H x.String) j s d htags hget hdlen hdne
      rw [hrep] at hne
      simp [finalCheck, Shape.rootCell_hex, Shape.rootCell_separator, hne]

/-- C3 at the leaves `A`, `B` and the proof for `A`, with the identity as digest function. -/
theorem tamper_sensitivity_witness :
    Function.Injective (id : List Byte → List Byte) ∧
    2 ≤ [(⟨0, [65]⟩ : Stringer), ⟨1, [66]⟩].length ∧
    (⟨0, [65]⟩ : Stringer) ∈ [(⟨0, [65]⟩ : Stringer), ⟨1, [66]⟩] ∧
    [(⟨0, [65]⟩ : Stringer), ⟨1, [66]⟩].length < 3 ∧
    ∃ (root : Nat) (tree : MerkleTree) (heap1 : List MerkleTree) (proof : List MerkleStep),
      Build (accumulator id) false 49 [⟨0, [65]⟩, ⟨1, [66]⟩] [] [] = (.ok root, heap1, []) ∧
      heap1[root]? = some tree ∧
      FindProofFor (accumulator id) 3 heap1 root ⟨0, [65]⟩ [] = (.ok proof, []) ∧
      3 ≤ proof.length ∧
      ∀ (i : Nat) (s : MerkleStep) (d : List Byte), 0 < i → i + 1 < proof.length →
        proof[i]? = some s → d.length = s.Hash.length → d ≠ s.Hash →
        (CheckProof (accumulator id) tree (proof.set i { s with Hash := d }) []).1 =
            .error .proofMismatch ∨
          (CheckProof (accumulator id) tree (proof.set i { s with Hash := d }) []).1 =
            .error .rootMismatch :=
  ⟨Function.injective_id, by decide, by decide, by decide,
    tamper_sensitivity id false 49 [⟨0, [65]⟩, ⟨1, [66]⟩] ⟨0, [65]⟩ [] 3 Function.injective_id
      (by decide) (by decide) (by decide)⟩

/-! ## What an accepted proof shows -/

section Soundness

variable {H : List Byte → List Byte} {useHex : Bool} {separator : Byte}

theorem Sits.sub {heap : List MerkleTree} {s t : Shape} (h : Shape.Sub s t) :
    ∀ {base : Nat} {parent : Option Nat}, Sits H useHex separator heap base parent t →
      ∃ (b : Nat) (par : Option Nat), base ≤ b ∧ Sits H useHex separator heap b par s := by
  induction h with
  | refl => intro base parent hs; exact ⟨base, parent, le_refl _, hs⟩
  | left r _ ih =>
    intro base parent hs
    exact ih hs.left
  | right l _ ih =>
    intro base parent hs
    obtain ⟨b, par, h1, h2⟩ := ih hs.right
    exact ⟨b, par, by omega, h2⟩

/-- With an injective digest function, digests of one length `w` at the children of every
node and at the steps, and no leaf's string of the form that is hashed for an interior
node with a child digest of length `w`: steps tagged `Left` or `Right` that replay to the
digest of a tree start from the digest of one of its subtrees. -/
theorem replay_sound (hH : Function.Injective H) (w : Nat) (mid : List MerkleStep) :
    ∀ (t : Shape) (acc : List Byte),
      (∀ x ∈ t.leaves, ∀ a b : List Byte, a.length = w ∨ b.length = w →
        x.String ≠ encode useHex a ++ [separator] ++ encode useHex b) →
      (∀ l r, Shape.Sub (.node l r) t →
        (l.digest H useHex separator).length = w ∧ (r.digest H useHex separator).length = w) →
      (∀ s ∈ mid, (s.Typ = "Left" ∨ s.Typ = "Right") ∧ s.Hash.length = w) →
      replay H useHex separator acc mid = t.digest H useHex separator →
      ∃ s, Shape.Sub s t ∧ s.digest H useHex separator = acc := by
  induction mid using List.reverseRecOn with
  | nil =>
    intro t acc _ _ _ h
    exact ⟨t, Shape.Sub.refl t, h.symm⟩
  | append_singleton mid st ih =>
    intro t acc hsep hw hmid h
    have hst := hmid st (by simp)
    have hmid1 : ∀ s ∈ mid, (s.Typ = "Left" ∨ s.Typ = "Right") ∧ s.Hash.length = w :=
      fun s hs => hmid s (by simp [hs])
    have hRL : ¬ ("Right" = "Left") := by decide
    rw [replay_append] at h
    simp only [replay, List.foldl_cons, List.foldl_nil] at h
    have hcomb : ∃ a b, (a.length = w ∨ b.length = w) ∧
        replayStep H useHex separator (List.foldl (replayStep H useHex separator) acc mid) st =
          combine H useHex separator a b := by
      rcases hst.1 with hl | hr
      · refine ⟨st.Hash, List.foldl (replayStep H useHex separator) acc mid, Or.inl hst.2, ?_⟩
        simp only [replayStep, hl, if_true]
      · refine ⟨List.foldl (replayStep H useHex separator) acc mid, st.Hash, Or.inr hst.2, ?_⟩
        simp only [replayStep, hr, hRL, if_true, if_false]
    cases t with
    | empty =>
      obtain ⟨a, b, -, hab⟩ := hcomb
      rw [hab, Shape.digest, combine] at h
      have := congrArg List.length (hH h)
      simp at this
    | leaf x =>
      obtain ⟨a, b, hlen, hab⟩ := hcomb
      rw [hab, Shape.digest, combine] at h
      exact absurd (hH h).symm (hsep x (by simp [Shape.leaves]) a b hlen)
    | node l r =>
      obtain ⟨hwl, hwr⟩ := hw l r (Shape.Sub.refl _)
      rw [Shape.digest] at h
      rcases hst.1 with hl | hr
      · simp only [replayStep, hl, if_true] at h
        obtain ⟨-, e2⟩ := combine_injective hH useHex separator _ _ _ _
          (Or.inl (hst.2.trans hwl.symm)) h
        obtain ⟨s, hs1, hs2⟩ := ih r acc
          (fun x hx => hsep x (by simp [Shape.leaves, hx]))
          (fun l1 r1 hsub => hw l1 r1 (Shape.Sub.right l hsub)) hmid1 e2
        exact ⟨s, Shape.Sub.right l hs1, hs2⟩
      · simp only [replayStep, hr, hRL, if_true, if_false] at h
        obtain ⟨e1, -⟩ := combine_injective hH useHex separator _ _ _ _
          (Or.inr (hst.2.trans hwr.symm)) h
        obtain ⟨s, hs1, hs2⟩ := ih l acc
          (fun x hx => hsep x (by simp [Shape.leaves, hx]))
          (fun l1 r1 hsub => hw l1 r1 (Shape.Sub.left r hsub)) hmid1 e1
        exact ⟨s, Shape.Sub.left r hs1, hs2⟩

/-- A proof that `CheckProof` accepts has a `Leaf` step first and a `Root` step last. -/
theorem CheckProof_ok_bookends (tree : MerkleTree) (p : List MerkleStep)
    (hok : (CheckProof (accumulator H) tree p []).1 = .ok ()) :
    ∃ s0 mid sl, p = s0 :: (mid ++ [sl]) ∧ s0.Typ = "Leaf" ∧ sl.Typ = "Root" := by
  match p, hok with
  | [], hok => simp [CheckProof] at hok
  | [s], hok =>
    obtain ⟨e, he, -⟩ := CheckProof_single (accumulator H) tree s []
    rw [he] at hok
    cases hok
  | s0 :: s1 :: rest, hok =>
    have hne : s1 :: rest ≠ [] := List.cons_ne_nil _ _
    by_cases h : s0.Typ ≠ "Leaf" ∨
        ((s0 :: s1 :: rest).getLast (List.cons_ne_nil s0 (s1 :: rest))).Typ ≠ "Root"
    · obtain ⟨e, he, -⟩ := CheckProof_malformed (accumulator H) tree s0 (s1 :: rest) [] h
      rw [he] at hok
      cases hok
    · push_neg at h
      refine ⟨s0, (s1 :: rest).dropLast, (s1 :: rest).getLast hne, ?_, h.1, ?_⟩
      · rw [List.dropLast_append_getLast hne]
      · rw [← h.2, List.getLast_cons hne]

end Soundness

/-- C2, counterexample. With the identity as (injective) digest function, `CheckProof` on
the tree built from the leaves `A`, `B` accepts the two-step proof whose `Leaf` step
carries the digest of the root, and that digest is the digest of no leaf's string. -/
theorem inclusion_soundness_counterexample :
    Function.Injective (id : List Byte → List Byte) ∧
    ∃ (root : Nat) (tree : MerkleTree) (heap1 : List MerkleTree),
      Build (accumulator id) false 49 [⟨0, [65]⟩, ⟨1, [66]⟩] [] [] = (.ok root, heap1, []) ∧
      heap1[root]? = some tree ∧
      CheckProof (accumulator id) tree
        [{ Typ := "Leaf", Hash := [65, 49, 66] }, { Typ := "Root", Hash := [65, 49, 66] }] [] =
          (.ok (), []) ∧
      ¬ ∃ x ∈ [(⟨0, [65]⟩ : Stringer), ⟨1, [66]⟩], ([65, 49, 66] : List Byte) = id x.String := by
  refine ⟨Function.injective_id, 2,
    { hex := false, separator := 49, Hash := [65, 49, 66], Leaf := none, Parent := none,
      Left := some 0, Right := some 1 },
    [{ hex := false, separator := 49, Hash := [65], Leaf := some ⟨0, [65]⟩, Parent := some 2,
       Left := none, Right := none },
     { hex := false, separator := 49, Hash := [66], Leaf := some ⟨1, [66]⟩, Parent := some 2,
       Left := none, Right := none },
     { hex := false, separator := 49, Hash := [65, 49, 66], Leaf := none, Parent := none,
       Left := some 0, Right := some 1 }], ?_, rfl, by decide, by decide⟩
  simp [Build, accumulator, writeChained, setParent]

/-- Why the amended C2 asks for digests of one length: with the identity as digest function
and the leaves `A`, `B`, `C` (root digest `A1B1C`), `CheckProof` accepts the proof
`Leaf B1C`, `Left A`, `Root A1B1C`, and `B1C` is the `Hash` of no node of the tree. -/
theorem inclusion_needs_equal_lengths :
    ∃ (root : Nat) (tree : MerkleTree) (heap1 : List MerkleTree),
      Build (accumulator id) false 49 [⟨0, [65]⟩, ⟨1, [66]⟩, ⟨2, [67]⟩] [] [] =
        (.ok root, heap1, []) ∧
      heap1[root]? = some tree ∧
      CheckProof (accumulator id) tree
        [{ Typ := "Leaf", Hash := [66, 49, 67] }, { Typ := "Left", Hash := [65] },
          { Typ := "Root", Hash := [65, 49, 66, 49, 67] }] [] = (.ok (), []) ∧
      ∀ node ∈ heap1, node.Hash ≠ [66, 49, 67] := by
  refine ⟨4,
    { hex := false, separator := 49, Hash := [65, 49, 66, 49, 67], Leaf := none, Parent := none,
      Left := some 2, Right := some 3 },
    [{ hex := false, separator := 49, Hash := [65], Leaf := some ⟨0, [65]⟩, Parent := some 2,
       Left := none, Right := none },
     { hex := false, separator := 49, Hash := [66], Leaf := some ⟨1, [66]⟩, Parent := some 2,
       Left := none, Right := none },
     { hex := false, separator := 49, Hash := [65, 49, 66], Leaf := none, Parent := some 4,
       Left := some 0, Right := some 1 },
     { hex := false, separator := 49, Hash := [67], Leaf := some ⟨2, [67]⟩, Parent := some 4,
       Left := none, Right := none },
     { hex := false, separator := 49, Hash := [65, 49, 66, 49, 67], Leaf := none, Parent := none,
       Left := some 2, Right := some 3 }], ?_, rfl, by decide, by decide⟩
  simp [Build, accumulator, writeChained, setParent]

/-- Why the amended C2 asks that no leaf's string has the form hashed for an interior
node with a child digest of the common length: with the identity as digest function and
the one leaf `A1B`, `CheckProof` accepts the proof `Leaf B`, `Left A`, `Root A1B` (interior
digest `A` of length 1), and `B` is the `Hash` of no node of the tree. -/
theorem inclusion_needs_leaf_separation :
    ∃ (root : Nat) (tree : MerkleTree) (heap1 : List MerkleTree),
      Build (accumulator id) false 49 [⟨0, [65, 49, 66]⟩] [] [] = (.ok root, heap1, []) ∧
      heap1[root]? = some tree ∧
      CheckProof (accumulator id) tree
        [{ Typ := "Leaf", Hash := [66] }, { Typ := "Left", Hash := [65] },
          { Typ := "Root", Hash := [65, 49, 66] }] [] = (.ok (), []) ∧
      ∀ node ∈ heap1, node.Hash ≠ [66] := by
  refine ⟨0,
    { hex := false, separator := 49, Hash := [65, 49, 66], Leaf := some ⟨0, [65, 49, 66]⟩,
      Parent := none, Left := none, Right := none },
    [{ hex := false, separator := 49, Hash := [65, 49, 66], Leaf := some ⟨0, [65, 49, 66]⟩,
       Parent := none, Left := none, Right := none }], ?_, rfl, by decide, by decide⟩
  simp [Build, accumulator]

/-- The leaf condition of the amended C2 cannot be dropped for any leaf it excludes: on the
tree built from one leaf whose string is `enc(a) ++ [sep] ++ enc(b)`, for every digest
function, `CheckProof` accepts the proof `Leaf b`, `Left a`, `Root` and the proof `Leaf a`,
`Right b`, `Root`, and the tree has one node, with the digest of the leaf's string. -/
theorem interior_form_leaf_accepted (H : List Byte → List Byte) (useHex : Bool)
    (separator : Byte) (x : Stringer) (a b : List Byte)
    (hx : x.String = encode useHex a ++ [separator] ++ encode useHex b) :
    ∃ (tree : MerkleTree),
      Build (accumulator H) useHex separator [x] [] [] = (.ok 0, [tree], []) ∧
      tree.Hash = H x.String ∧
      CheckProof (accumulator H) tree
        [{ Typ := "Leaf", Hash := b }, { Typ := "Left", Hash := a },
          { Typ := "Root", Hash := H x.String }] [] = (.ok (), []) ∧
      CheckProof (accumulator H) tree
        [{ Typ := "Leaf", Hash := a }, { Typ := "Right", Hash := b },
          { Typ := "Root", Hash := H x.String }] [] = (.ok (), []) := by
  refine ⟨⟨useHex, separator, H x.String, some x, none, none, none⟩, ?_, rfl, ?_, ?_⟩
  · simp [Build, accumulator]
  · cases useHex <;>
      simp [CheckProof, checkLoop, accumulator, writeChained, hx, encode]
  · cases useHex <;>
      simp [CheckProof, checkLoop, accumulator, writeChained, hx, encode]

/-- C2, amended. With an injective digest function, when the digests of all nodes of the
built tree that have a parent and of all interior steps of the proof have one length `w`,
no leaf's string has the form `enc(a) ++ [sep] ++ enc(b)` with `a` or `b` of length `w`
(what is hashed for an interior node with a child digest of that length; other leaf
strings, also such with the separator byte in them, are allowed), and every interior
step is tagged `Left` or `Right`: if `CheckProof` of the root accepts the proof, then the
digest of its first step is the `Hash` of a node of the tree, and if that node is a leaf
node, its leaf is an element of the list and the digest is the digest of its string. -/
theorem inclusion_soundness (H : List Byte → List Byte) (useHex : Bool) (separator : Byte)
    (leaves : List Stringer) (heap heap1 : List MerkleTree) (root : Nat) (tree : MerkleTree)
    (p : List MerkleStep) (w : Nat) (hH : Function.Injective H)
    (hB : Build (accumulator H) useHex separator leaves heap [] = (.ok root, heap1, []))
    (hroot : heap1[root]? = some tree)
    (hsep : ∀ x ∈ leaves, ∀ a b : List Byte, a.length = w ∨ b.length = w →
      x.String ≠ encode useHex a ++ [separator] ++ encode useHex b)
    (hw : ∀ (a : Nat) (node : MerkleTree), heap.length ≤ a → heap1[a]? = some node →
      node.Parent ≠ none → node.Hash.length = w)
    (hint : ∀ s ∈ p.tail.dropLast, (s.Typ = "Left" ∨ s.Typ = "Right") ∧ s.Hash.length = w)
    (hok : (CheckProof (accumulator H) tree p []).1 = .ok ()) :
    ∃ (s0 : MerkleStep) (a : Nat) (node : MerkleTree),
      p.head? = some s0 ∧ heap.length ≤ a ∧ heap1[a]? = some node ∧ node.Hash = s0.Hash ∧
      ∀ x, node.Leaf = some x → x ∈ leaves ∧ s0.Hash = H x.String := by
  rw [Build_accumulator, Prod.mk.injEq, Prod.mk.injEq, Outcome.ok.injEq] at hB
  obtain ⟨rfl, rfl, -⟩ := hB
  have hs : Sits H useHex separator (heap ++ (shape leaves).cells H useHex separator heap.length none)
      heap.length none (shape leaves) := Sits.of_append heap none _
  rw [hs.get_root, Option.some.injEq] at hroot
  subst hroot
  obtain ⟨s0, mid, sl, rfl, h0, hl⟩ := CheckProof_ok_bookends _ p hok
  rw [CheckProof_bookends _ _ _ _ h0 hl] at hok
  simp only [List.tail_cons, List.dropLast_concat] at hint
  simp only [finalCheck, Shape.rootCell_hex, Shape.rootCell_separator, Shape.rootCell_Hash] at hok
  have hrep : replay H useHex separator s0.Hash mid = (shape leaves).digest H useHex separator := by
    by_contra hne
    split_ifs at hok
  have hw1 : ∀ l r, Shape.Sub (.node l r) (shape leaves) →
      (l.digest H useHex separator).length = w ∧ (r.digest H useHex separator).length = w := by
    intro l r hsub
    obtain ⟨b, par, hb, hsn⟩ := hs.sub hsub
    have hl1 := l.size_pos
    have hr1 := r.size_pos
    have gl := hsn.left.get_root
    have gr := hsn.right.get_root
    have h1 := hw _ _ (by simp only [Shape.root]; omega) gl (by simp [Shape.rootCell_Parent])
    have h2 := hw _ _ (by simp only [Shape.root]; omega) gr (by simp [Shape.rootCell_Parent])
    rw [Shape.rootCell_Hash] at h1 h2
    exact ⟨h1, h2⟩
  obtain ⟨s, hsub, hdig⟩ := replay_sound hH w mid (shape leaves) s0.Hash
    (by rw [leaves_shape]; exact hsep) hw1 hint hrep
  obtain ⟨b, par, hb, hss⟩ := hs.sub hsub
  have hpos := s.size_pos
  refine ⟨s0, s.root b, _, rfl, by simp only [Shape.root]; omega, hss.get_root,
    by rw [Shape.rootCell_Hash, hdig], ?_⟩
  intro x hx
  cases s with
  | empty => simp [Shape.rootCell] at hx
  | node l r => simp [Shape.rootCell] at hx
  | leaf y =>
    simp only [Shape.rootCell, Option.some.injEq] at hx
    subst hx
    obtain ⟨pre, post, hpp⟩ := hsub.leaves
    rw [leaves_shape] at hpp
    refine ⟨by rw [hpp]; simp [Shape.leaves], ?_⟩
    rw [← hdig, Shape.digest]

/-- C2, amended, at the leaves `1`, `B` with the separator `1` and the identity as digest
function (the first leaf's string is the separator byte): the proof `Leaf 1`, `Right B`,
`Root 11B` is accepted, and `1` is the digest of a node. -/
theorem inclusion_soundness_witness :
    Function.Injective (id : List Byte → List Byte) ∧
    (∀ x ∈ [(⟨0, [49]⟩ : Stringer), ⟨1, [66]⟩], ∀ a b : List Byte,
      a.length = 1 ∨ b.length = 1 → x.String ≠ encode false a ++ [49] ++ encode false b) ∧
    (CheckProof (accumulator id)
      { hex := false, separator := 49, Hash := [49, 49, 66], Leaf := none, Parent := none,
        Left := some 0, Right := some 1 }
      [{ Typ := "Leaf", Hash := [49] }, { Typ := "Right", Hash := [66] },
        { Typ := "Root", Hash := [49, 49, 66] }] []).1 = .ok () ∧
    ∃ (s0 : MerkleStep) (a : Nat) (node : MerkleTree),
      [({ Typ := "Leaf", Hash := [49] } : MerkleStep), { Typ := "Right", Hash := [66] },
        { Typ := "Root", Hash := [49, 49, 66] }].head? = some s0 ∧
      ([] : List MerkleTree).length ≤ a ∧
      [({ hex := false, separator := 49, Hash := [49], Leaf := some ⟨0, [49]⟩, Parent := some 2,
          Left := none, Right := none } : MerkleTree),
        { hex := false, separator := 49, Hash := [66], Leaf := some ⟨1, [66]⟩, Parent := some 2,
          Left := none, Right := none },
        { hex := false, separator := 49, Hash := [49, 49, 66], Leaf := none, Parent := none,
          Left := some 0, Right := some 1 }][a]? = some node ∧
      node.Hash = s0.Hash ∧
      ∀ x, node.Leaf = some x →
        x ∈ [(⟨0, [49]⟩ : Stringer), ⟨1, [66]⟩] ∧ s0.Hash = id x.String :=
  have hsep : ∀ x ∈ [(⟨0, [49]⟩ : Stringer), ⟨1, [66]⟩], ∀ a b : List Byte,
      a.length = 1 ∨ b.length = 1 →
        x.String ≠ encode false a ++ [49] ++ encode false b := by
    intro x hx a b hab h
    have hlen := congrArg List.length h
    simp only [encode, Bool.false_eq_true, if_false, List.length_append,
      List.length_singleton] at hlen
    simp only [List.mem_cons, List.mem_singleton, List.not_mem_nil, or_false] at hx
    rcases hx with rfl | rfl
    · have h1 : ([49] : List Byte).length = 1 := rfl
      rw [h1] at hlen
      omega
    · have h1 : ([66] : List Byte).length = 1 := rfl
      rw [h1] at hlen
      omega
  ⟨Function.injective_id, hsep, by decide,
    inclusion_soundness id false 49 [⟨0, [49]⟩, ⟨1, [66]⟩] []
      [{ hex := false, separator := 49, Hash := [49], Leaf := some ⟨0, [49]⟩, Parent := some 2,
         Left := none, Right := none },
       { hex := false, separator := 49, Hash := [66], Leaf := some ⟨1, [66]⟩, Parent := some 2,
         Left := none, Right := none },
       { hex := false, separator := 49, Hash := [49, 49, 66], Leaf := none, Parent := none,
         Left := some 0, Right := some 1 }]
      2
      { hex := false, separator := 49, Hash := [49, 49, 66], Leaf := none, Parent := none,
        Left := some 0, Right := some 1 }
      [{ Typ := "Leaf", Hash := [49] }, { Typ := "Right", Hash := [66] },
        { Typ := "Root", Hash := [49, 49, 66] }]
      1 Function.injective_id
      (by simp [Build, accumulator, writeChained, setParent])
      rfl
      hsep
      (by
        intro a node _ ha hp
        match a, ha with
        | 0, ha =>
          simp only [List.getElem?_cons_zero, Option.some.injEq] at ha
          subst ha
          rfl
        | 1, ha =>
          simp only [List.getElem?_cons_succ, List.getElem?_cons_zero, Option.some.injEq] at ha
          subst ha
          rfl
        | 2, ha =>
          simp only [List.getElem?_cons_succ, List.getElem?_cons_zero, Option.some.injEq] at ha
          subst ha
          exact absurd rfl hp
        | a + 3, ha => simp at ha)
      (by decide)
      (by decide)⟩

/-! ## `EnumerateWithProofs` on the cells of a tree -/

section Bulk

variable {H : List Byte → List Byte} {useHex : Bool} {separator : Byte}

theorem visitPairs_append {τ ε : Type}
    (callback : Nat → List MerkleStep → τ → Outcome ((Bool × Option ε) × τ))
    (ps qs : List (Nat × List MerkleStep)) (acc : τ) :
    visitPairs callback (ps ++ qs) acc =
      match visitPairs callback ps acc with
      | .ok ((cont, err), acc1) =>
        if !cont || err.isSome then .ok ((cont, err), acc1) else visitPairs callback qs acc1
      | o => o := by
  induction ps generalizing acc with
  | nil => simp [visitPairs]
  | cons e ps ih =>
    rw [List.cons_append, visitPairs, visitPairs]
    cases hcb : callback e.1 e.2 acc with
    | ok a =>
      obtain ⟨⟨cont, err⟩, acc1⟩ := a
      by_cases hstop : (!cont || err.isSome) = true
      · simp [hstop]
      · simp only [hstop, if_false, Bool.false_eq_true]
        exact ih acc1
    | error e => simp
    | panic e => simp
    | outOfFuel => simp

theorem visitPairs_single {τ ε : Type}
    (callback : Nat → List MerkleStep → τ → Outcome ((Bool × Option ε) × τ))
    (e : Nat × List MerkleStep) (acc : τ) :
    visitPairs callback [e] acc = callback e.1 e.2 acc := by
  simp only [visitPairs]
  cases hcb : callback e.1 e.2 acc with
  | ok a =>
    obtain ⟨⟨cont, err⟩, acc1⟩ := a
    cases cont <;> cases err <;> simp
  | error e => simp
  | panic e => simp
  | outOfFuel => simp

theorem map_leafProof_snoc (ancestors : List MerkleStep) (st : MerkleStep)
    (ps : List (Nat × Stringer × List MerkleStep)) :
    (ps.map (fun e => (e.1, e.2.1, e.2.2 ++ [st]))).map (leafProof H ancestors) =
      ps.map (leafProof H (st :: ancestors)) := by
  rw [List.map_map]
  apply List.map_congr_left
  intro e _
  simp [leafProof]

/-- The pairs that `EnumerateWithProofs` hands to its callback below a node, given the
steps of the ancestors. -/
theorem enumerateWithProofs_sits {τ ε : Type}
    (callback : Nat → List MerkleStep → τ → Outcome ((Bool × Option ε) × τ))
    {heap : List MerkleTree} (t : Shape) :
    ∀ {base : Nat} {parent : Option Nat} (fuel : Nat) (ancestors : List MerkleStep) (acc : τ),
      t.Proper → Sits H useHex separator heap base parent t → t.height < fuel →
      _enumerateWithProofs heap callback fuel (some (t.root base)) ancestors acc =
        visitPairs callback ((t.paths H useHex separator base).map (leafProof H ancestors))
          acc := by
  induction t with
  | empty =>
    intro base parent fuel ancestors acc hp hs hf
    exact absurd hp (by simp [Shape.Proper])
  | leaf x =>
    intro base parent fuel ancestors acc hp hs hf
    obtain ⟨fuel, rfl⟩ : ∃ k, fuel = k + 1 := ⟨fuel - 1, by omega⟩
    simp only [_enumerateWithProofs, hs.get_root, Shape.paths, List.map_cons, List.map_nil,
      visitPairs_single]
    simp [Shape.rootCell, Shape.digest, Shape.root, Shape.size, leafProof]
  | node l r ihl ihr =>
    intro base parent fuel ancestors acc hp hs hf
    obtain ⟨fuel, rfl⟩ : ∃ k, fuel = k + 1 := ⟨fuel - 1, by omega⟩
    simp only [Shape.height] at hf
    simp only [Shape.Proper] at hp
    have gl := hs.left.get_root
    have gr := hs.right.get_root
    simp only [Shape.root] at gl gr
    have hl := ihl fuel ({ Typ := "Right", Hash := r.digest H useHex separator } :: ancestors) acc
      hp.1 hs.left (by omega)
    simp only [Shape.root] at hl
    have hleaf : ((Shape.node l r).rootCell H useHex separator base parent).Leaf = none := rfl
    simp only [_enumerateWithProofs, hs.get_root, Shape.rootCell_node_Left,
      Shape.rootCell_node_Right, gl, gr, Shape.rootCell_Hash, hl, Shape.paths, List.map_append,
      map_leafProof_snoc, visitPairs_append, hleaf, ne_eq, not_true_eq_false, if_false]
    cases hv : visitPairs callback (List.map
        (leafProof H ({ Typ := "Right", Hash := r.digest H useHex separator } :: ancestors))
        (l.paths H useHex separator base)) acc with
    | ok a =>
      obtain ⟨⟨cont, err⟩, acc1⟩ := a
      by_cases hstop : (!cont || err.isSome) = true
      · simp [hstop]
      · have hr := ihr fuel ({ Typ := "Left", Hash := l.digest H useHex separator } :: ancestors)
          acc1 hp.2 hs.right (by omega)
        simp only [Shape.root] at hr
        simp only [hstop, if_false, Bool.false_eq_true, hr]
    | error e => simp
    | panic e => simp
    | outOfFuel => simp

end Bulk

/-! ## The leaves of a tree with their nodes and sibling steps -/

section Paths

variable {H : List Byte → List Byte} {useHex : Bool} {separator : Byte}

theorem Shape.mem_paths_node {base : Nat} {l r : Shape} {e : Nat × Stringer × List MerkleStep} :
    e ∈ (Shape.node l r).paths H useHex separator base ↔
      (∃ e1 ∈ l.paths H useHex separator base,
        e = (e1.1, e1.2.1, e1.2.2 ++ [{ Typ := "Right", Hash := r.digest H useHex separator }])) ∨
      (∃ e1 ∈ r.paths H useHex separator (base + l.size),
        e = (e1.1, e1.2.1, e1.2.2 ++ [{ Typ := "Left", Hash := l.digest H useHex separator }])) := by
  simp only [Shape.paths, List.mem_append, List.mem_map]
  constructor
  · rintro (⟨e1, h1, rfl⟩ | ⟨e1, h1, rfl⟩)
    · exact Or.inl ⟨e1, h1, rfl⟩
    · exact Or.inr ⟨e1, h1, rfl⟩
  · rintro (⟨e1, h1, rfl⟩ | ⟨e1, h1, rfl⟩)
    · exact Or.inl ⟨e1, h1, rfl⟩
    · exact Or.inr ⟨e1, h1, rfl⟩

/-- The node of a leaf in `paths` is a leaf node with that leaf and the digest of its
string. -/
theorem Shape.paths_cell {heap : List MerkleTree} (t : Shape) :
    ∀ {base : Nat} {parent : Option Nat} {e : Nat × Stringer × List MerkleStep},
      Sits H useHex separator heap base parent t → e ∈ t.paths H useHex separator base →
      ∃ c, heap[e.1]? = some c ∧ c.Leaf = some e.2.1 ∧ c.Hash = H e.2.1.String ∧
        c.Left = none ∧ c.Right = none ∧ c.hex = useHex ∧ c.separator = separator := by
  induction t with
  | empty => intro base parent e hs he; simp [Shape.paths] at he
  | leaf x =>
    intro base parent e hs he
    simp only [Shape.paths, List.mem_singleton] at he
    subst he
    have hg := hs.get_root
    simp only [Shape.root, Shape.size, Nat.add_sub_cancel] at hg
    exact ⟨_, hg, rfl, rfl, rfl, rfl, rfl, rfl⟩
  | node l r ihl ihr =>
    intro base parent e hs he
    rcases Shape.mem_paths_node.1 he with ⟨e1, h1, rfl⟩ | ⟨e1, h1, rfl⟩
    · exact @ihl base _ e1 hs.left h1
    · exact @ihr (base + l.size) _ e1 hs.right h1

/-- The parent walk from the node of a leaf in `paths` collects its sibling steps. -/
theorem Shape.paths_walkUp {heap : List MerkleTree} (t : Shape) :
    ∀ {base : Nat} {parent : Option Nat} {e : Nat × Stringer × List MerkleStep} (fuel : Nat)
      (steps : List MerkleStep),
      Sits H useHex separator heap base parent t → e ∈ t.paths H useHex separator base →
      walkUp heap (fuel + e.2.2.length) e.1 steps =
        walkUp heap fuel (t.root base) (steps ++ e.2.2) := by
  induction t with
  | empty => intro base parent e fuel steps hs he; simp [Shape.paths] at he
  | leaf x =>
    intro base parent e fuel steps hs he
    simp only [Shape.paths, List.mem_singleton] at he
    subst he
    simp [Shape.root, Shape.size]
  | node l r ihl ihr =>
    intro base parent e fuel steps hs he
    rcases Shape.mem_paths_node.1 he with ⟨e1, h1, rfl⟩ | ⟨e1, h1, rfl⟩
    · have h2 := ihl (fuel + 1) steps hs.left h1
      have h3 := (walkUp_child hs fuel (steps ++ e1.2.2)).1
      simp only [List.length_append, List.length_singleton]
      rw [show fuel + (e1.2.2.length + 1) = fuel + 1 + e1.2.2.length by omega, h2, h3]
      simp
    · have h2 := ihr (fuel + 1) steps hs.right h1
      have h3 := (walkUp_child hs fuel (steps ++ e1.2.2)).2
      simp only [List.length_append, List.length_singleton]
      rw [show fuel + (e1.2.2.length + 1) = fuel + 1 + e1.2.2.length by omega, h2, h3]
      simp

theorem nodeDepth_child {heap : List MerkleTree} {base : Nat} {parent : Option Nat} {l r : Shape}
    (hs : Sits H useHex separator heap base parent (.node l r)) (fuel : Nat) :
    nodeDepth heap (fuel + 1) (l.root base) =
        (nodeDepth heap fuel ((Shape.node l r).root base)).map (· + 1) ∧
      nodeDepth heap (fuel + 1) (r.root (base + l.size)) =
        (nodeDepth heap fuel ((Shape.node l r).root base)).map (· + 1) := by
  have gl := hs.left.get_root
  have gr := hs.right.get_root
  constructor
  · rw [nodeDepth]
    simp only [gl, Shape.rootCell_Parent]
  · rw [nodeDepth]
    simp only [gr, Shape.rootCell_Parent]

theorem nodeDepth_root {heap : List MerkleTree} {base : Nat} {t : Shape}
    (hs : Sits H useHex separator heap base none t) (fuel : Nat) :
    nodeDepth heap (fuel + 1) (t.root base) = some 0 := by
  rw [nodeDepth]
  simp [hs.get_root, Shape.rootCell_Parent]

/-- The depth of the node of a leaf in `paths` below the root of the tree is the number
of its sibling steps. -/
theorem Shape.paths_nodeDepth {heap : List MerkleTree} (t : Shape) :
    ∀ {base : Nat} {parent : Option Nat} {e : Nat × Stringer × List MerkleStep} (fuel : Nat),
      Sits H useHex separator heap base parent t → e ∈ t.paths H useHex separator base →
      nodeDepth heap (fuel + e.2.2.length) e.1 =
        (nodeDepth heap fuel (t.root base)).map (· + e.2.2.length) := by
  induction t with
  | empty => intro base parent e fuel hs he; simp [Shape.paths] at he
  | leaf x =>
    intro base parent e fuel hs he
    simp only [Shape.paths, List.mem_singleton] at he
    subst he
    simp [Shape.root, Shape.size]
  | node l r ihl ihr =>
    intro base parent e fuel hs he
    rcases Shape.mem_paths_node.1 he with ⟨e1, h1, rfl⟩ | ⟨e1, h1, rfl⟩
    · have h2 := ihl (fuel + 1) hs.left h1
      have h3 := (nodeDepth_child hs fuel).1
      simp only [List.length_append, List.length_singleton]
      rw [show fuel + (e1.2.2.length + 1) = fuel + 1 + e1.2.2.length by omega, h2, h3,
        Option.map_map]
      congr 1
      funext n
      simp only [Function.comp_apply]
      omega
    · have h2 := ihr (fuel + 1) hs.right h1
      have h3 := (nodeDepth_child hs fuel).2
      simp only [List.length_append, List.length_singleton]
      rw [show fuel + (e1.2.2.length + 1) = fuel + 1 + e1.2.2.length by omega, h2, h3,
        Option.map_map]
      congr 1
      funext n
      simp only [Function.comp_apply]
      omega

/-- The sibling steps of a leaf in `paths` are tagged `Left` or `Right`, are no more than
the height, and replay from the digest of the leaf's string to the digest of the tree. -/
theorem Shape.paths_replay (t : Shape) :
    ∀ {base : Nat} {e : Nat × Stringer × List MerkleStep},
      e ∈ t.paths H useHex separator base →
      (∀ st ∈ e.2.2, st.Typ = "Left" ∨ st.Typ = "Right") ∧ e.2.2.length ≤ t.height ∧
        replay H useHex separator (H e.2.1.String) e.2.2 = t.digest H useHex separator := by
  induction t with
  | empty => intro base e he; simp [Shape.paths] at he
  | leaf x =>
    intro base e he
    simp only [Shape.paths, List.mem_singleton] at he
    subst he
    simp [replay, Shape.digest]
  | node l r ihl ihr =>
    intro base e he
    rcases Shape.mem_paths_node.1 he with ⟨e1, h1, rfl⟩ | ⟨e1, h1, rfl⟩
    · obtain ⟨h2, h3, h4⟩ := ihl h1
      refine ⟨?_, ?_, ?_⟩
      · intro st hst
        rcases List.mem_append.1 hst with h | h
        · exact h2 st h
        · simp only [List.mem_singleton] at h
          subst h
          exact Or.inr rfl
      · simp only [List.length_append, List.length_singleton, Shape.height]
        omega
      · simp only []
        rw [replay_append, h4, replay_right, Shape.digest]
    · obtain ⟨h2, h3, h4⟩ := ihr h1
      refine ⟨?_, ?_, ?_⟩
      · intro st hst
        rcases List.mem_append.1 hst with h | h
        · exact h2 st h
        · simp only [List.mem_singleton] at h
          subst h
          exact Or.inl rfl
      · simp only [List.length_append, List.length_singleton, Shape.height]
        omega
      · simp only []
        rw [replay_append, h4, replay_left, Shape.digest]

theorem Shape.paths_leafPtrs (t : Shape) : ∀ (base : Nat),
    (t.paths H useHex separator base).map (fun e => e.1) = t.leafPtrs base := by
  induction t with
  | empty => intro base; rfl
  | leaf x => intro base; rfl
  | node l r ihl ihr =>
    intro base
    simp only [Shape.paths, Shape.leafPtrs, List.map_append, List.map_map, ← ihl, ← ihr]
    rfl

theorem Shape.paths_leaves (t : Shape) : ∀ (base : Nat),
    (t.paths H useHex separator base).map (fun e => e.2.1) = t.leaves := by
  induction t with
  | empty => intro base; rfl
  | leaf x => intro base; rfl
  | node l r ihl ihr =>
    intro base
    simp only [Shape.paths, Shape.leaves, List.map_append, List.map_map, ← ihl base,
      ← ihr (base + l.size)]
    rfl

/-- The path that `FindProofFor` takes is the first one in `paths` whose leaf has the
string of the query. -/
theorem Shape.findPath_eq_find (q : Stringer) (t : Shape) : ∀ (base : Nat),
    t.findPath H useHex separator q base =
      ((t.paths H useHex separator base).find? (fun e => decide (e.2.1.String = q.String))).map
        (fun e => (e.1, e.2.2)) := by
  induction t with
  | empty => intro base; rfl
  | leaf x =>
    intro base
    by_cases hx : x.String = q.String <;> simp [Shape.findPath, Shape.paths, hx]
  | node l r ihl ihr =>
    intro base
    simp only [Shape.findPath, Shape.paths, List.find?_append, ihl base, ihr (base + l.size),
      List.find?_map]
    cases hl : (l.paths H useHex separator base).find?
        ((fun e : Nat × Stringer × List MerkleStep => decide (e.2.1.String = q.String)) ∘
          fun e => (e.1, e.2.1, e.2.2 ++
            [{ Typ := "Right", Hash := r.digest H useHex separator }])) with
    | some a =>
      have hl1 : (l.paths H useHex separator base).find?
          (fun e => decide (e.2.1.String = q.String)) = some a := hl
      simp [hl1]
    | none =>
      have hl1 : (l.paths H useHex separator base).find?
          (fun e => decide (e.2.1.String = q.String)) = none := hl
      simp only [hl1, Option.map_none', Option.none_or]
      cases hr : (r.paths H useHex separator (base + l.size)).find?
          ((fun e : Nat × Stringer × List MerkleStep => decide (e.2.1.String = q.String)) ∘
            fun e => (e.1, e.2.1, e.2.2 ++
              [{ Typ := "Left", Hash := l.digest H useHex separator }])) with
      | some a =>
        have hr1 : (r.paths H useHex separator (base + l.size)).find?
            (fun e => decide (e.2.1.String = q.String)) = some a := hr
        simp [hr1]
      | none =>
        have hr1 : (r.paths H useHex separator (base + l.size)).find?
            (fun e => decide (e.2.1.String = q.String)) = none := hr
        simp [hr1]

end Paths

/-! ## Leaf enumeration on the built tree -/

section Enumeration

variable {H : List Byte → List Byte} {useHex : Bool} {separator : Byte}

theorem visitAll_continue {τ : Type} (f : Nat → τ → τ) (ptrs : List Nat) :
    ∀ a : τ, visitAll (fun p acc => Outcome.ok (true, f p acc)) ptrs a =
      .ok (true, ptrs.foldl (fun acc p => f p acc) a) := by
  induction ptrs with
  | nil => intro a; rfl
  | cons p ptrs ih => intro a; simp only [visitAll, List.foldl_cons, ih]

theorem visitAll_record (v : Nat → Bool) (ptrs : List Nat) :
    ∀ seen : List Nat,
      visitAll (fun p acc => Outcome.ok (v p, acc ++ [p])) ptrs seen =
        match ptrs.findIdx? (fun p => !v p) with
        | some j => .ok (false, seen ++ ptrs.take (j + 1))
        | none => .ok (true, seen ++ ptrs) := by
  induction ptrs with
  | nil => intro seen; simp [visitAll]
  | cons p ptrs ih =>
    intro seen
    simp only [visitAll, List.findIdx?_cons, Nat.zero_add, List.findIdx?_start_succ]
    cases hv : v p
    · simp
    · simp only [Bool.not_true, Bool.false_eq_true, if_false, ih]
      cases hf : ptrs.findIdx? (fun p => !v p) with
      | some j => simp
      | none => simp

/-- The leaf nodes of a tree on the heap carry its leaves, from left to right. -/
theorem Sits.leafPtrs_leaves {heap : List MerkleTree} {base : Nat} {parent : Option Nat}
    {t : Shape} (hs : Sits H useHex separator heap base parent t) :
    (t.leafPtrs base).map (fun p => (heap[p]?).bind (fun node => node.Leaf)) =
      t.leaves.map some := by
  rw [← Shape.paths_leafPtrs t base, ← Shape.paths_leaves t base, List.map_map, List.map_map]
  apply List.map_congr_left
  intro e he
  obtain ⟨c, h1, h2, -⟩ := Shape.paths_cell t hs he
  simp [h1, h2]

end Enumeration

/-- C12. Leaf enumeration order: on the tree built from a leaf list there are leaf nodes
`ptrs`, as many as leaves, the `i`-th with the `i`-th leaf of the list as its `Leaf`, such
that `EnumerateLeaves` with a visitor that always returns true calls the visitor on
exactly these nodes in this order (on none for the empty list) and returns true. -/
theorem enumerateLeaves_order (H : List Byte → List Byte) (useHex : Bool) (separator : Byte)
    (leaves : List Stringer) (heap : List MerkleTree) (fuel : Nat)
    (hfuel : leaves.length < fuel) :
    ∃ (root : Nat) (heap1 : List MerkleTree) (ptrs : List Nat),
      Build (accumulator H) useHex separator leaves heap [] = (.ok root, heap1, []) ∧
      ptrs.map (fun p => (heap1[p]?).bind (fun node => node.Leaf)) = leaves.map some ∧
      ∀ (τ : Type) (f : Nat → τ → τ) (a : τ),
        EnumerateLeaves heap1 (fun p acc => .ok (true, f p acc)) fuel root a =
          .ok (true, ptrs.foldl (fun acc p => f p acc) a) := by
  have hs : Sits H useHex separator (heap ++ (shape leaves).cells H useHex separator heap.length none)
      heap.length none (shape leaves) := Sits.of_append heap none _
  have hh := height_shape_le leaves
  refine ⟨_, _, (shape leaves).leafPtrs heap.length,
    Build_accumulator H useHex separator leaves heap, ?_, ?_⟩
  · rw [hs.leafPtrs_leaves, leaves_shape]
  · intro τ f a
    rw [EnumerateLeaves_sits _ (shape leaves) fuel a hs (by omega), visitAll_continue]

/-- C12 at the leaves `A`, `B`, `C`. -/
theorem enumerateLeaves_order_witness :
    [(⟨0, [65]⟩ : Stringer), ⟨1, [66]⟩, ⟨2, [67]⟩].length < 4 ∧
    ∃ (root : Nat) (heap1 : List MerkleTree) (ptrs : List Nat),
      Build (accumulator id) false 49 [⟨0, [65]⟩, ⟨1, [66]⟩, ⟨2, [67]⟩] [] [] =
        (.ok root, heap1, []) ∧
      ptrs.map (fun p => (heap1[p]?).bind (fun node => node.Leaf)) =
        [(⟨0, [65]⟩ : Stringer), ⟨1, [66]⟩, ⟨2, [67]⟩].map some ∧
      ∀ (τ : Type) (f : Nat → τ → τ) (a : τ),
        EnumerateLeaves heap1 (fun p acc => .ok (true, f p acc)) 4 root a =
          .ok (true, ptrs.foldl (fun acc p => f p acc) a) :=
  ⟨by decide,
    enumerateLeaves_order id false 49 [⟨0, [65]⟩, ⟨1, [66]⟩, ⟨2, [67]⟩] [] 4 (by decide)⟩

/-- C13. Early termination of leaf enumeration: with `ptrs` the leaf nodes of the built
tree in the order of the list and a visitor that returns `v p` on the node `p` and
records the nodes it is called on, `EnumerateLeaves` returns false iff `v` is false on
some leaf node; if `j` is the first index with `v` false, the visitor is called on
exactly the nodes `0..j` in order, otherwise on all nodes and the call returns true. -/
theorem enumerateLeaves_early_stop (H : List Byte → List Byte) (useHex : Bool) (separator : Byte)
    (leaves : List Stringer) (heap : List MerkleTree) (fuel : Nat)
    (hfuel : leaves.length < fuel) :
    ∃ (root : Nat) (heap1 : List MerkleTree) (ptrs : List Nat),
      Build (accumulator H) useHex separator leaves heap [] = (.ok root, heap1, []) ∧
      ptrs.map (fun p => (heap1[p]?).bind (fun node => node.Leaf)) = leaves.map some ∧
      ∀ (v : Nat → Bool),
        ((∃ seen, EnumerateLeaves heap1 (fun p acc => .ok (v p, acc ++ [p])) fuel root [] =
            .ok (false, seen)) ↔ ∃ p ∈ ptrs, v p = false) ∧
        (∀ j, ptrs.findIdx? (fun p => !v p) = some j →
          EnumerateLeaves heap1 (fun p acc => .ok (v p, acc ++ [p])) fuel root [] =
            .ok (false, ptrs.take (j + 1))) ∧
        (ptrs.findIdx? (fun p => !v p) = none →
          EnumerateLeaves heap1 (fun p acc => .ok (v p, acc ++ [p])) fuel root [] =
            .ok (true, ptrs)) := by
  have hs : Sits H useHex separator (heap ++ (shape leaves).cells H useHex separator heap.length none)
      heap.length none (shape leaves) := Sits.of_append heap none _
  have hh := height_shape_le leaves
  refine ⟨_, _, (shape leaves).leafPtrs heap.length,
    Build_accumulator H useHex separator leaves heap, ?_, ?_⟩
  · rw [hs.leafPtrs_leaves, leaves_shape]
  · intro v
    rw [EnumerateLeaves_sits _ (shape leaves) fuel [] hs (by omega), visitAll_record]
    cases hf : ((shape leaves).leafPtrs heap.length).findIdx? (fun p => !v p) with
    | some j =>
      refine ⟨⟨fun _ => ?_, fun _ => ⟨_, rfl⟩⟩, fun j1 hj1 => ?_, fun h => (by cases h)⟩
      · have h1 := List.findIdx?_of_eq_some hf
        cases hg : ((shape leaves).leafPtrs heap.length)[j]? with
        | none => simp [hg] at h1
        | some p =>
          simp only [hg, Bool.not_eq_true'] at h1
          exact ⟨p, List.getElem?_mem hg, h1⟩
      · cases hj1
        simp
    | none =>
      have hall := List.findIdx?_eq_none_iff.1 hf
      refine ⟨⟨?_, ?_⟩, fun j1 hj1 => (by cases hj1), fun _ => (by simp)⟩
      · rintro ⟨seen, hseen⟩
        simp at hseen
      · rintro ⟨p, hp, hvp⟩
        have := hall p hp
        simp [hvp] at this

/-- C13 at the leaves `A`, `B`, `C`. -/
theorem enumerateLeaves_early_stop_witness :
    [(⟨0, [65]⟩ : Stringer), ⟨1, [66]⟩, ⟨2, [67]⟩].length < 4 ∧
    ∃ (root : Nat) (heap1 : List MerkleTree) (ptrs : List Nat),
      Build (accumulator id) false 49 [⟨0, [65]⟩, ⟨1, [66]⟩, ⟨2, [67]⟩] [] [] =
        (.ok root, heap1, []) ∧
      ptrs.map (fun p => (heap1[p]?).bind (fun node => node.Leaf)) =
        [(⟨0, [65]⟩ : Stringer), ⟨1, [66]⟩, ⟨2, [67]⟩].map some ∧
      ∀ (v : Nat → Bool),
        ((∃ seen, EnumerateLeaves heap1 (fun p acc => .ok (v p, acc ++ [p])) 4 root [] =
            .ok (false, seen)) ↔ ∃ p ∈ ptrs, v p = false) ∧
        (∀ j, ptrs.findIdx? (fun p => !v p) = some j →
          EnumerateLeaves heap1 (fun p acc => .ok (v p, acc ++ [p])) 4 root [] =
            .ok (false, ptrs.take (j + 1))) ∧
        (ptrs.findIdx? (fun p => !v p) = none →
          EnumerateLeaves heap1 (fun p acc => .ok (v p, acc ++ [p])) 4 root [] =
            .ok (true, ptrs)) :=
  ⟨by decide,
    enumerateLeaves_early_stop id false 49 [⟨0, [65]⟩, ⟨1, [66]⟩, ⟨2, [67]⟩] [] 4 (by decide)⟩

/-! ## The kinds of node -/

section Kinds

variable {H : List Byte → List Byte} {useHex : Bool} {separator : Byte}

/-- The node of no leaves is no part of the tree of a list that is not empty. -/
theorem Sub_empty_shape : ∀ leaves : List Stringer, Shape.Sub .empty (shape leaves) →
    leaves = [] := by
  intro leaves
  induction leaves using split_induction with
  | hnil => intro _; rfl
  | hone x =>
    intro h
    rw [shape_single] at h
    cases h
  | hsplit leaves hlen ihl ihr =>
    intro h
    generalize hg : shape leaves = g at h
    rw [shape_split leaves hlen] at hg
    cases h with
    | refl => cases hg
    | left r h =>
      rw [Shape.node.injEq] at hg
      rw [← hg.1] at h
      have := congrArg List.length (ihl h)
      simp only [List.length_take, List.length_nil] at this
      omega
    | right l h =>
      rw [Shape.node.injEq] at hg
      rw [← hg.2] at h
      have := congrArg List.length (ihr h)
      simp only [List.length_drop, List.length_nil] at this
      omega

theorem Proper_of_no_empty (t : Shape) (h : ¬ Shape.Sub .empty t) : t.Proper := by
  induction t with
  | empty => exact absurd (Shape.Sub.refl _) h
  | leaf x => trivial
  | node l r ihl ihr =>
    exact ⟨ihl (fun hs => h (Shape.Sub.left r hs)), ihr (fun hs => h (Shape.Sub.right l hs))⟩

theorem Proper_shape (leaves : List Stringer) (h : leaves ≠ []) : (shape leaves).Proper :=
  Proper_of_no_empty _ (fun hs => h (Sub_empty_shape leaves hs))

end Kinds

/-- C16. Node-kind invariant: every node that `Build` made is exactly one of: the empty
root (no leaf value, no children), which occurs only as the root, without parent, of the
tree of the empty list; a leaf (leaf value, no children); an interior node (no leaf
value, both children). No node has exactly one child. -/
theorem node_kinds (H : List Byte → List Byte) (useHex : Bool) (separator : Byte)
    (leaves : List Stringer) (heap : List MerkleTree) :
    ∃ (root : Nat) (heap1 : List MerkleTree),
      Build (accumulator H) useHex separator leaves heap [] = (.ok root, heap1, []) ∧
      ∀ (p : Nat) (node : MerkleTree), heap.length ≤ p → heap1[p]? = some node →
        (node.Leaf = none ∧ node.Left = none ∧ node.Right = none ∧ leaves = [] ∧ p = root ∧
            node.Parent = none) ∨
          (∃ x, node.Leaf = some x ∧ node.Left = none ∧ node.Right = none) ∨
          (node.Leaf = none ∧ ∃ l r, node.Left = some l ∧ node.Right = some r) := by
  have hs : Sits H useHex separator (heap ++ (shape leaves).cells H useHex separator heap.length none)
      heap.length none (shape leaves) := Sits.of_append heap none _
  refine ⟨_, _, Build_accumulator H useHex separator leaves heap, ?_⟩
  intro p node hp hnode
  have hlt : p < heap.length + (shape leaves).size := by
    have := (List.getElem?_eq_some_iff.1 hnode).1
    simpa [Shape.length_cells] using this
  obtain ⟨b, par, s, h1, h2, h3⟩ := hs.subtree_at (shape leaves) p hp hlt
  have hg := h1.get_root
  rw [h2, hnode, Option.some.injEq] at hg
  subst hg
  cases s with
  | empty =>
    left
    have hnil := Sub_empty_shape leaves h3
    subst hnil
    rw [shape_nil] at hlt hnode ⊢
    simp only [Shape.size] at hlt
    have hp1 : p = heap.length := by omega
    subst hp1
    have hroot := hs.get_root
    rw [shape_nil] at hroot
    simp only [Shape.root, Shape.size, Nat.add_sub_cancel] at hroot
    rw [hroot, Option.some.injEq] at hnode
    rw [← hnode]
    exact ⟨rfl, rfl, rfl, rfl, by simp [Shape.root, Shape.size], rfl⟩
  | leaf x => exact Or.inr (Or.inl ⟨x, rfl, rfl, rfl⟩)
  | node l r => exact Or.inr (Or.inr ⟨rfl, _, _, rfl, rfl⟩)

/-- The loop of `CheckProof` reads only `Hash`, `hex` and `separator` of the node. -/
theorem checkLoop_congr {σ : Type} (hasher : HashImpl σ) (t1 t2 : MerkleTree) (first last : Int)
    (hH : t1.Hash = t2.Hash) (hx : t1.hex = t2.hex) (hs : t1.separator = t2.separator)
    (rest : List MerkleStep) :
    ∀ (idx : Nat) (hash : List Byte) (st : σ),
      checkLoop hasher t1 first last idx rest hash st =
        checkLoop hasher t2 first last idx rest hash st := by
  induction rest with
  | nil => intro idx hash st; rfl
  | cons step rest ih =>
    intro idx hash st
    simp only [checkLoop, hH, hx, hs, ih]

/-- C18. Verification needs only the root digest: on two nodes with the same `Hash`, hex
flag and separator (and the same hasher), whatever their other fields, `CheckProof`
returns the same result and leaves the hasher in the same state, for every step sequence
and every hasher. -/
theorem checkProof_root_only {σ : Type} (hasher : HashImpl σ) (t1 t2 : MerkleTree)
    (p : List MerkleStep) (st : σ) (hH : t1.Hash = t2.Hash) (hx : t1.hex = t2.hex)
    (hs : t1.separator = t2.separator) :
    CheckProof hasher t1 p st = CheckProof hasher t2 p st := by
  simp only [CheckProof, checkLoop_congr hasher t1 t2 _ _ hH hx hs]

/-- C18 at a root node with children and a standalone node with the same digest. -/
theorem checkProof_root_only_witness :
    CheckProof (accumulator id)
        { hex := false, separator := 49, Hash := [65, 49, 66], Leaf := none, Parent := none,
          Left := some 0, Right := some 1 }
        [{ Typ := "Leaf", Hash := [65] }, { Typ := "Right", Hash := [66] },
          { Typ := "Root", Hash := [65, 49, 66] }] [] =
      CheckProof (accumulator id)
        { hex := false, separator := 49, Hash := [65, 49, 66], Leaf := none, Parent := none,
          Left := none, Right := none }
        [{ Typ := "Leaf", Hash := [65] }, { Typ := "Right", Hash := [66] },
          { Typ := "Root", Hash := [65, 49, 66] }] [] :=
  checkProof_root_only (accumulator id) _ _ _ [] rfl rfl rfl

/-- C15, the failing input. On the tree that `Build` makes of the empty list,
`EnumerateWithProofs` panics with a nil dereference at `tree.Right.Hash`, whatever the
callback, while `EnumerateLeaves` returns true without calling its callback. -/
theorem enumerateWithProofs_empty_panics (H : List Byte → List Byte) (useHex : Bool)
    (separator : Byte) (heap : List MerkleTree) :
    ∃ (root : Nat) (heap1 : List MerkleTree),
      Build (accumulator H) useHex separator [] heap [] = (.ok root, heap1, []) ∧
      (∀ (τ ε : Type) (callback : Nat → List MerkleStep → τ → Outcome ((Bool × Option ε) × τ))
        (fuel : Nat) (acc : τ),
        EnumerateWithProofs heap1 callback (fuel + 1) root acc = .panic .nilDereference) ∧
      ∀ (τ : Type) (callback : Nat → τ → Outcome (Bool × τ)) (fuel : Nat) (acc : τ),
        EnumerateLeaves heap1 callback (fuel + 1) root acc = .ok (true, acc) := by
  have hs : Sits H useHex separator (heap ++ (shape []).cells H useHex separator heap.length none)
      heap.length none (shape []) := Sits.of_append heap none _
  have hg := hs.get_root
  refine ⟨_, _, Build_accumulator H useHex separator [] heap, ?_, ?_⟩
  · intro τ ε callback fuel acc
    rw [shape_nil] at hg ⊢
    simp [EnumerateWithProofs, _enumerateWithProofs, hg, Shape.rootCell]
  · intro τ callback fuel acc
    rw [shape_nil] at hg ⊢
    simp [EnumerateLeaves, hg, Shape.rootCell]

/-- C20. Interior steps with an unknown tag are not rejected: in a proof with a `Leaf` step
first and a `Root` step last, an interior step tagged neither `Left` nor `Right` makes
`CheckProof` go on with `H(empty)` as accumulated hash, so the result is that of the proof
with the `Leaf` digest `H(empty)` and only the later interior steps; for that step the
hasher gets a `Sum` and a `Reset` and no `Write`; and on the tree built from the empty
list every proof `Leaf x`, `T y`, `Root H(empty)` with such a tag `T` is accepted. -/
theorem unknown_tag_not_rejected (H : List Byte → List Byte) (useHex : Bool) (separator : Byte)
    (heap : List MerkleTree) (tree : MerkleTree) (s0 st sl : MerkleStep)
    (pre post : List MerkleStep) (h0 : s0.Typ = "Leaf") (hl : sl.Typ = "Root")
    (hL : st.Typ ≠ "Left") (hR : st.Typ ≠ "Right") :
    CheckProof (accumulator H) tree (s0 :: ((pre ++ st :: post) ++ [sl])) [] =
        CheckProof (accumulator H) tree ({ Typ := "Leaf", Hash := H [] } :: (post ++ [sl])) [] ∧
      (CheckProof (recording (accumulator H)) tree [s0, st, sl] ([], [])).2 =
        ([], [HashCall.Reset, HashCall.Sum]) ∧
      ∃ (root : Nat) (heap1 : List MerkleTree) (empty : MerkleTree),
        Build (accumulator H) useHex separator [] heap [] = (.ok root, heap1, []) ∧
        heap1[root]? = some empty ∧
        ∀ (x y : List Byte) (T : String), T ≠ "Left" → T ≠ "Right" →
          CheckProof (accumulator H) empty
            [{ Typ := "Leaf", Hash := x }, { Typ := T, Hash := y },
              { Typ := "Root", Hash := H [] }] [] = (.ok (), []) := by
  have hLR : ("Leaf" : String) ≠ "Root" := by decide
  refine ⟨?_, ?_, ?_⟩
  · rw [CheckProof_bookends tree s0 sl _ h0 hl, CheckProof_bookends tree _ sl post rfl hl,
      replay_append]
    simp only [replay, List.foldl_cons, replayStep, hL, hR, if_false]
  · have h1 : ¬ ((1 : Int) = 0) := by decide
    have h2 : ¬ ((1 : Int) = 2) := by decide
    simp only [CheckProof, checkLoop, List.length_cons, List.length_nil, h0, hl, hL, hR,
      recording, accumulator, writeChained]
    by_cases hx : tree.hex = true <;> simp [hx] <;> split_ifs <;> rfl
  · have hs : Sits H useHex separator (heap ++ (shape []).cells H useHex separator heap.length none)
        heap.length none (shape []) := Sits.of_append heap none _
    refine ⟨_, _, _, Build_accumulator H useHex separator [] heap, hs.get_root, ?_⟩
    intro x y T hT1 hT2
    rw [show [({ Typ := "Leaf", Hash := x } : MerkleStep), { Typ := T, Hash := y },
        { Typ := "Root", Hash := H [] }] =
        { Typ := "Leaf", Hash := x } :: ([{ Typ := T, Hash := y }] ++
          [{ Typ := "Root", Hash := H [] }]) from rfl,
      CheckProof_bookends _ _ _ _ rfl rfl]
    simp [finalCheck, replay, replayStep, hT1, hT2, Shape.rootCell_Hash, shape_nil, Shape.digest]

/-- C20 at the proof `Leaf A`, `Right B`, `Up C`, `Root ...` on a node without children. -/
theorem unknown_tag_not_rejected_witness :
    CheckProof (accumulator id) ⟨false, 49, [], none, none, none, none⟩
        (⟨"Leaf", [65]⟩ :: (([⟨"Right", [66]⟩] ++ ⟨"Up", [67]⟩ :: []) ++ [⟨"Root", []⟩])) [] =
        CheckProof (accumulator id) ⟨false, 49, [], none, none, none, none⟩
          ({ Typ := "Leaf", Hash := id [] } :: ([] ++ [⟨"Root", []⟩])) [] ∧
      (CheckProof (recording (accumulator id)) ⟨false, 49, [], none, none, none, none⟩
          [⟨"Leaf", [65]⟩, ⟨"Up", [67]⟩, ⟨"Root", []⟩] ([], [])).2 =
        ([], [HashCall.Reset, HashCall.Sum]) ∧
      ∃ (root : Nat) (heap1 : List MerkleTree) (empty : MerkleTree),
        Build (accumulator id) false 49 [] [] [] = (.ok root, heap1, []) ∧
        heap1[root]? = some empty ∧
        ∀ (x y : List Byte) (T : String), T ≠ "Left" → T ≠ "Right" →
          CheckProof (accumulator id) empty
            [{ Typ := "Leaf", Hash := x }, { Typ := T, Hash := y },
              { Typ := "Root", Hash := id [] }] [] = (.ok (), []) :=
  unknown_tag_not_rejected id false 49 [] ⟨false, 49, [], none, none, none, none⟩
    ⟨"Leaf", [65]⟩ ⟨"Up", [67]⟩ ⟨"Root", []⟩ [⟨"Right", [66]⟩] [] rfl rfl (by decide) (by decide)

/-! ## The pairs of the bulk form -/

section BulkPairs

variable {H : List Byte → List Byte} {useHex : Bool} {separator : Byte}

theorem visitPairs_record {ε : Type} (pairs : List (Nat × List MerkleStep)) :
    ∀ seen : List (Nat × List MerkleStep),
      visitPairs (fun p pr acc => Outcome.ok ((true, (none : Option ε)), acc ++ [(p, pr)]))
        pairs seen = .ok ((true, none), seen ++ pairs) := by
  induction pairs with
  | nil => intro seen; simp [visitPairs]
  | cons e pairs ih =>
    intro seen
    simp only [visitPairs, Bool.not_true, Option.isSome_none, Bool.or_self, Bool.false_eq_true,
      if_false, ih]
    simp

/-- `EnumerateWithProofs` on a tree without empty node whose root has no parent. -/
theorem EnumerateWithProofs_sits {τ ε : Type}
    (callback : Nat → List MerkleStep → τ → Outcome ((Bool × Option ε) × τ))
    {heap : List MerkleTree} {base : Nat} (t : Shape) (fuel : Nat) (acc : τ)
    (hp : t.Proper) (hs : Sits H useHex separator heap base none t) (hf : t.height < fuel) :
    EnumerateWithProofs heap callback fuel (t.root base) acc =
      visitPairs callback ((t.paths H useHex separator base).map
        (leafProof H [{ Typ := "Root", Hash := t.digest H useHex separator }])) acc := by
  unfold EnumerateWithProofs
  simp only [hs.get_root, Shape.rootCell_Hash]
  exact enumerateWithProofs_sits callback t fuel _ acc hp hs hf

/-- What holds of every pair of the bulk form: the node is a leaf node, the proof starts
with the digest of the leaf's string, goes on with `Left` and `Right` steps, as many as
the node is deep, ends with the root digest, and `CheckProof` accepts it. -/
theorem leafProof_spec {heap : List MerkleTree} {base : Nat} (t : Shape) (fuel : Nat)
    (hs : Sits H useHex separator heap base none t) (hf : t.height < fuel)
    {e : Nat × Stringer × List MerkleStep} (he : e ∈ t.paths H useHex separator base) :
    ∃ node,
      heap[e.1]? = some node ∧ node.Leaf = some e.2.1 ∧
      (leafProof H [{ Typ := "Root", Hash := t.digest H useHex separator }] e).2 =
        { Typ := "Leaf", Hash := H e.2.1.String } ::
          (e.2.2 ++ [{ Typ := "Root", Hash := t.digest H useHex separator }]) ∧
      (∀ s ∈ e.2.2, s.Typ = "Left" ∨ s.Typ = "Right") ∧
      nodeDepth heap fuel e.1 = some e.2.2.length ∧
      CheckProof (accumulator H) (t.rootCell H useHex separator base none)
        (leafProof H [{ Typ := "Root", Hash := t.digest H useHex separator }] e).2 [] =
          (.ok (), []) := by
  obtain ⟨c, h1, h2, -⟩ := Shape.paths_cell t hs he
  obtain ⟨h3, h4, h5⟩ := Shape.paths_replay t he
  refine ⟨c, h1, h2, rfl, h3, ?_, ?_⟩
  · obtain ⟨k, rfl⟩ : ∃ k, fuel = k + 1 + e.2.2.length := ⟨fuel - 1 - e.2.2.length, by omega⟩
    rw [Shape.paths_nodeDepth t (k + 1) hs he, nodeDepth_root hs]
    simp
  · simp only [leafProof]
    rw [CheckProof_bookends _ _ _ _ rfl rfl]
    simp [finalCheck, Shape.rootCell_hex, Shape.rootCell_separator, h5, Shape.rootCell_Hash]

end BulkPairs

/-- C19. Every bulk proof verifies: on the tree built from a leaf list that is not empty
(duplicate strings allowed), `EnumerateWithProofs` hands its visitor the pairs `pairs` in
order (all of them to a visitor that always continues), and for every pair the node is a
leaf node, the proof starts with the `Leaf` step of the digest of the node's leaf string,
ends with the `Root` step of the tree's digest, has only `Left` and `Right` steps
between, has depth of the node plus 2 steps, and `CheckProof` of the root accepts it. -/
theorem bulk_proofs_verify (H : List Byte → List Byte) (useHex : Bool) (separator : Byte)
    (leaves : List Stringer) (heap : List MerkleTree) (fuel : Nat) (hne : leaves ≠ [])
    (hfuel : leaves.length < fuel) :
    ∃ (root : Nat) (tree : MerkleTree) (heap1 : List MerkleTree)
      (pairs : List (Nat × List MerkleStep)),
      Build (accumulator H) useHex separator leaves heap [] = (.ok root, heap1, []) ∧
      heap1[root]? = some tree ∧
      EnumerateWithProofs heap1
          (fun p pr acc => .ok ((true, (none : Option Empty)), acc ++ [(p, pr)])) fuel root [] =
        .ok ((true, none), pairs) ∧
      (∀ (τ ε : Type) (callback : Nat → List MerkleStep → τ → Outcome ((Bool × Option ε) × τ))
        (acc : τ), EnumerateWithProofs heap1 callback fuel root acc =
          visitPairs callback pairs acc) ∧
      ∀ e ∈ pairs, ∃ (node : MerkleTree) (x : Stringer) (mid : List MerkleStep) (d : Nat),
        heap1[e.1]? = some node ∧ node.Leaf = some x ∧
        e.2 = { Typ := "Leaf", Hash := H x.String } ::
          (mid ++ [{ Typ := "Root", Hash := tree.Hash }]) ∧
        (∀ s ∈ mid, s.Typ = "Left" ∨ s.Typ = "Right") ∧
        nodeDepth heap1 fuel e.1 = some d ∧ e.2.length = d + 2 ∧
        CheckProof (accumulator H) tree e.2 [] = (.ok (), []) := by
  have hs : Sits H useHex separator (heap ++ (shape leaves).cells H useHex separator heap.length none)
      heap.length none (shape leaves) := Sits.of_append heap none _
  have hh := height_shape_le leaves
  have hp := Proper_shape leaves hne
  refine ⟨_, _, _, ((shape leaves).paths H useHex separator heap.length).map
      (leafProof H [{ Typ := "Root", Hash := (shape leaves).digest H useHex separator }]),
    Build_accumulator H useHex separator leaves heap, hs.get_root, ?_, ?_, ?_⟩
  · rw [EnumerateWithProofs_sits _ (shape leaves) fuel [] hp hs (by omega), visitPairs_record]
    rfl
  · intro τ ε callback acc
    exact EnumerateWithProofs_sits _ (shape leaves) fuel acc hp hs (by omega)
  · intro e he
    obtain ⟨e1, he1, rfl⟩ := List.mem_map.1 he
    obtain ⟨node, h1, h2, h3, h4, h5, h6⟩ :=
      @leafProof_spec H useHex separator _ _ (shape leaves) fuel hs (by omega) e1 he1
    refine ⟨node, e1.2.1, e1.2.2, e1.2.2.length, h1, h2, ?_, h4, h5, ?_, h6⟩
    · rw [h3, Shape.rootCell_Hash]
    · rw [h3]
      simp

/-- C19 at three leaves, two of them with the same string. -/
theorem bulk_proofs_verify_witness :
    [(⟨0, [65]⟩ : Stringer), ⟨1, [65]⟩, ⟨2, [66]⟩] ≠ [] ∧
    [(⟨0, [65]⟩ : Stringer), ⟨1, [65]⟩, ⟨2, [66]⟩].length < 4 ∧
    ∃ (root : Nat) (tree : MerkleTree) (heap1 : List MerkleTree)
      (pairs : List (Nat × List MerkleStep)),
      Build (accumulator id) false 49 [⟨0, [65]⟩, ⟨1, [65]⟩, ⟨2, [66]⟩] [] [] =
        (.ok root, heap1, []) ∧
      heap1[root]? = some tree ∧
      EnumerateWithProofs heap1
          (fun p pr acc => .ok ((true, (none : Option Empty)), acc ++ [(p, pr)])) 4 root [] =
        .ok ((true, none), pairs) ∧
      (∀ (τ ε : Type) (callback : Nat → List MerkleStep → τ → Outcome ((Bool × Option ε) × τ))
        (acc : τ), EnumerateWithProofs heap1 callback 4 root acc =
          visitPairs callback pairs acc) ∧
      ∀ e ∈ pairs, ∃ (node : MerkleTree) (x : Stringer) (mid : List MerkleStep) (d : Nat),
        heap1[e.1]? = some node ∧ node.Leaf = some x ∧
        e.2 = { Typ := "Leaf", Hash := id x.String } ::
          (mid ++ [{ Typ := "Root", Hash := tree.Hash }]) ∧
        (∀ s ∈ mid, s.Typ = "Left" ∨ s.Typ = "Right") ∧
        nodeDepth heap1 4 e.1 = some d ∧ e.2.length = d + 2 ∧
        CheckProof (accumulator id) tree e.2 [] = (.ok (), []) :=
  ⟨by decide, by decide,
    bulk_proofs_verify id false 49 [⟨0, [65]⟩, ⟨1, [65]⟩, ⟨2, [66]⟩] [] 4 (by decide)
      (by decide)⟩

theorem find?_eq_getElem?_of_findIdx? {α β : Type} (f : α → β) (p : β → Bool) (ps : List α) :
    ∀ i, (ps.map f).findIdx? p = some i → ps.find? (fun a => p (f a)) = ps[i]? := by
  induction ps with
  | nil => intro i h; simp at h
  | cons a ps ih =>
    intro i h
    simp only [List.map_cons, List.findIdx?_cons, Nat.zero_add, List.findIdx?_start_succ] at h
    by_cases hp : p (f a) = true
    · simp only [hp, if_true, Option.some.injEq] at h
      subst h
      simp [List.find?_cons, hp]
    · simp only [hp, Bool.false_eq_true, if_false, Option.map_eq_some'] at h
      obtain ⟨j, hj, rfl⟩ := h
      have := ih j hj
      simp only [Bool.not_eq_true] at hp
      simp [List.find?_cons, hp, this]

/-- C11, counterexample. On the tree built from two leaves with the same string the bulk
form hands its visitor, for the second leaf, the proof of the second leaf node (a `Left`
step), while `FindProofFor` of the second leaf returns the proof of the first leaf node
with that string (a `Right` step). -/
theorem bulk_equals_single_counterexample :
    ∃ (root : Nat) (heap1 : List MerkleTree) (pairs : List (Nat × List MerkleStep))
      (proof : List MerkleStep),
      Build (accumulator id) false 49 [⟨0, [65]⟩, ⟨1, [65]⟩] [] [] = (.ok root, heap1, []) ∧
      EnumerateWithProofs heap1
          (fun p pr acc => .ok ((true, (none : Option Empty)), acc ++ [(p, pr)])) 3 root [] =
        .ok ((true, none), pairs) ∧
      FindProofFor (accumulator id) 3 heap1 root ⟨1, [65]⟩ [] = (.ok proof, []) ∧
      (pairs.map (fun e => e.2))[1]? ≠ some proof := by
  refine ⟨2,
    [{ hex := false, separator := 49, Hash := [65], Leaf := some ⟨0, [65]⟩, Parent := some 2,
       Left := none, Right := none },
     { hex := false, separator := 49, Hash := [65], Leaf := some ⟨1, [65]⟩, Parent := some 2,
       Left := none, Right := none },
     { hex := false, separator := 49, Hash := [65, 49, 65], Leaf := none, Parent := none,
       Left := some 0, Right := some 1 }],
    [(0, [{ Typ := "Leaf", Hash := [65] }, { Typ := "Right", Hash := [65] },
          { Typ := "Root", Hash := [65, 49, 65] }]),
     (1, [{ Typ := "Leaf", Hash := [65] }, { Typ := "Left", Hash := [65] },
          { Typ := "Root", Hash := [65, 49, 65] }])],
    [{ Typ := "Leaf", Hash := [65] }, { Typ := "Right", Hash := [65] },
      { Typ := "Root", Hash := [65, 49, 65] }], ?_, rfl, rfl, by decide⟩
  simp [Build, accumulator, writeChained, setParent]

/-- C11, amended. On the tree built from a leaf list that is not empty, the bulk form
hands an always-continuing visitor one pair per leaf, in the order of the list, the node
of pair `i` carrying the leaf `i`; and for every `i` such that no earlier leaf has the
string of leaf `i` (for every `i` when the strings are pairwise different), the proof of
pair `i` is, step for step, the proof that `FindProofFor` returns for leaf `i`. -/
theorem bulk_equals_single (H : List Byte → List Byte) (useHex : Bool) (separator : Byte)
    (leaves : List Stringer) (heap : List MerkleTree) (fuel : Nat) (hne : leaves ≠ [])
    (hfuel : leaves.length < fuel) :
    ∃ (root : Nat) (heap1 : List MerkleTree) (pairs : List (Nat × List MerkleStep)),
      Build (accumulator H) useHex separator leaves heap [] = (.ok root, heap1, []) ∧
      EnumerateWithProofs heap1
          (fun p pr acc => .ok ((true, (none : Option Empty)), acc ++ [(p, pr)])) fuel root [] =
        .ok ((true, none), pairs) ∧
      pairs.map (fun e => (heap1[e.1]?).bind (fun node => node.Leaf)) = leaves.map some ∧
      ∀ (i : Nat) (x : Stringer), leaves[i]? = some x →
        leaves.findIdx? (fun y => decide (y.String = x.String)) = some i →
        ∃ e, pairs[i]? = some e ∧
          FindProofFor (accumulator H) fuel heap1 root x [] = (.ok e.2, []) := by
  have hs : Sits H useHex separator (heap ++ (shape leaves).cells H useHex separator heap.length none)
      heap.length none (shape leaves) := Sits.of_append heap none _
  have hh := height_shape_le leaves
  have hp := Proper_shape leaves hne
  refine ⟨_, _, ((shape leaves).paths H useHex separator heap.length).map
      (leafProof H [{ Typ := "Root", Hash := (shape leaves).digest H useHex separator }]),
    Build_accumulator H useHex separator leaves heap, ?_, ?_, ?_⟩
  · rw [EnumerateWithProofs_sits _ (shape leaves) fuel [] hp hs (by omega), visitPairs_record]
    rfl
  · have hl := @Shape.paths_leaves H useHex separator (shape leaves) heap.length
    rw [leaves_shape] at hl
    conv_rhs => rw [← hl]
    rw [List.map_map, List.map_map]
    apply List.map_congr_left
    intro e he
    obtain ⟨c, h1, h2, -⟩ := Shape.paths_cell (shape leaves) hs he
    simp [leafProof, h1, h2]
  · intro i x hix hfirst
    have hl := @Shape.paths_leaves H useHex separator (shape leaves) heap.length
    rw [leaves_shape] at hl
    rw [← hl] at hfirst hix
    have hfind := find?_eq_getElem?_of_findIdx? (fun e : Nat × Stringer × List MerkleStep => e.2.1)
      (fun y => decide (y.String = x.String)) _ i hfirst
    rw [List.getElem?_map] at hix
    cases hg : ((shape leaves).paths H useHex separator heap.length)[i]? with
    | none => simp [hg] at hix
    | some e =>
      simp only [hg, Option.map_some', Option.some.injEq] at hix
      refine ⟨leafProof H [{ Typ := "Root", Hash := (shape leaves).digest H useHex separator }] e,
        by simp [List.getElem?_map, hg], ?_⟩
      rw [FindProofFor_sits x (shape leaves) fuel hs (by omega), Shape.findPath_eq_find, hfind, hg]
      simp [leafProof, hix]

/-- C11, amended, at three leaves, two of them with the same string. -/
theorem bulk_equals_single_witness :
    [(⟨0, [65]⟩ : Stringer), ⟨1, [65]⟩, ⟨2, [66]⟩] ≠ [] ∧
    [(⟨0, [65]⟩ : Stringer), ⟨1, [65]⟩, ⟨2, [66]⟩].length < 4 ∧
    ∃ (root : Nat) (heap1 : List MerkleTree) (pairs : List (Nat × List MerkleStep)),
      Build (accumulator id) false 49 [⟨0, [65]⟩, ⟨1, [65]⟩, ⟨2, [66]⟩] [] [] =
        (.ok root, heap1, []) ∧
      EnumerateWithProofs heap1
          (fun p pr acc => .ok ((true, (none : Option Empty)), acc ++ [(p, pr)])) 4 root [] =
        .ok ((true, none), pairs) ∧
      pairs.map (fun e => (heap1[e.1]?).bind (fun node => node.Leaf)) =
        [(⟨0, [65]⟩ : Stringer), ⟨1, [65]⟩, ⟨2, [66]⟩].map some ∧
      ∀ (i : Nat) (x : Stringer), [(⟨0, [65]⟩ : Stringer), ⟨1, [65]⟩, ⟨2, [66]⟩][i]? = some x →
        [(⟨0, [65]⟩ : Stringer), ⟨1, [65]⟩, ⟨2, [66]⟩].findIdx?
          (fun y => decide (y.String = x.String)) = some i →
        ∃ e, pairs[i]? = some e ∧
          FindProofFor (accumulator id) 4 heap1 root x [] = (.ok e.2, []) :=
  ⟨by decide, by decide,
    bulk_equals_single id false 49 [⟨0, [65]⟩, ⟨1, [65]⟩, ⟨2, [66]⟩] [] 4 (by decide)
      (by decide)⟩

/-! ## The length of a proof -/

section Length

variable {H : List Byte → List Byte} {useHex : Bool} {separator : Byte}

/-- In the tree of `n` leaves every leaf has between `log2 n` (rounded down) and `log2 n`
(rounded up) sibling steps. -/
theorem paths_length_bounds : ∀ (leaves : List Stringer) (base : Nat)
    (e : Nat × Stringer × List MerkleStep), e ∈ (shape leaves).paths H useHex separator base →
    Nat.log 2 leaves.length ≤ e.2.2.length ∧ e.2.2.length ≤ Nat.clog 2 leaves.length := by
  intro leaves
  induction leaves using split_induction with
  | hnil => intro base e he; simp [shape_nil, Shape.paths] at he
  | hone x =>
    intro base e he
    simp only [shape_single, Shape.paths, List.mem_singleton] at he
    subst he
    simp
  | hsplit leaves hlen ihl ihr =>
    intro base e he
    rw [shape_split leaves hlen] at he
    have hlog : Nat.log 2 leaves.length = Nat.log 2 (leaves.length / 2) + 1 :=
      Nat.log_of_one_lt_of_le (by decide) hlen
    have hclog : Nat.clog 2 leaves.length = Nat.clog 2 ((leaves.length + 2 - 1) / 2) + 1 :=
      Nat.clog_of_two_le (by decide) hlen
    have hmid : leaves.length / 2 + leaves.length % 2 = (leaves.length + 2 - 1) / 2 := by omega
    rcases Shape.mem_paths_node.1 he with ⟨e1, h1, rfl⟩ | ⟨e1, h1, rfl⟩
    · obtain ⟨h2, h3⟩ := ihl _ e1 h1
      have hl : (leaves.take (leaves.length / 2 + leaves.length % 2)).length =
          leaves.length / 2 + leaves.length % 2 := by
        rw [List.length_take]; omega
      rw [hl] at h2 h3
      have hm : Nat.log 2 (leaves.length / 2) ≤
          Nat.log 2 (leaves.length / 2 + leaves.length % 2) :=
        Nat.log_mono_right (by omega)
      rw [hmid] at h3
      simp only [List.length_append, List.length_singleton]
      omega
    · obtain ⟨h2, h3⟩ := ihr _ e1 h1
      have hl : (leaves.drop (leaves.length / 2 + leaves.length % 2)).length =
          leaves.length / 2 := by
        rw [List.length_drop]; omega
      rw [hl] at h2 h3
      have hm : Nat.clog 2 (leaves.length / 2) ≤ Nat.clog 2 ((leaves.length + 2 - 1) / 2) :=
        Nat.clog_mono_right 2 (by omega)
      simp only [List.length_append, List.length_singleton]
      omega

/-- The node found and the number of steps do not depend on the digest function, the
hex flag and the separator. -/
theorem Shape.findPath_length_indep (H2 : List Byte → List Byte) (useHex2 : Bool)
    (separator2 : Byte) (q : Stringer) (t : Shape) : ∀ (base : Nat),
    (t.findPath H useHex separator q base).map (fun r => (r.1, r.2.length)) =
      (t.findPath H2 useHex2 separator2 q base).map (fun r => (r.1, r.2.length)) := by
  induction t with
  | empty => intro base; rfl
  | leaf x => intro base; simp [Shape.findPath]
  | node l r ihl ihr =>
    intro base
    have h1 := ihl base
    have h2 := ihr (base + l.size)
    simp only [Shape.findPath]
    cases hl : l.findPath H useHex separator q base with
    | some a =>
      cases hl2 : l.findPath H2 useHex2 separator2 q base with
      | some a2 =>
        simp only [hl, hl2, Option.map_some', Option.some.injEq, Prod.mk.injEq] at h1 ⊢
        simp [h1.1, h1.2]
      | none => simp [hl, hl2] at h1
    | none =>
      cases hl2 : l.findPath H2 useHex2 separator2 q base with
      | some a2 => simp [hl, hl2] at h1
      | none =>
        cases hr : r.findPath H useHex separator q (base + l.size) with
        | some a =>
          cases hr2 : r.findPath H2 useHex2 separator2 q (base + l.size) with
          | some a2 =>
            simp only [hr, hr2, Option.map_some', Option.some.injEq, Prod.mk.injEq] at h2 ⊢
            simp [h2.1, h2.2]
          | none => simp [hr, hr2] at h2
        | none =>
          cases hr2 : r.findPath H2 useHex2 separator2 q (base + l.size) with
          | some a2 => simp [hr, hr2] at h2
          | none => simp

end Length

/-- The proof that `FindProofFor` returns on the cells of `shape leaves` for a query whose
string first occurs at index `i`. -/
theorem FindProofFor_first_index (H : List Byte → List Byte) (useHex : Bool) (separator : Byte)
    (leaves : List Stringer) (q : Stringer) (i : Nat) (heap : List MerkleTree) (fuel : Nat)
    (hi : leaves.findIdx? (fun x => decide (x.String = q.String)) = some i)
    (hfuel : leaves.length < fuel) :
    FindProofFor (accumulator H) fuel
        (heap ++ (shape leaves).cells H useHex separator heap.length none)
        ((shape leaves).root heap.length) q [] =
      (.ok ([{ Typ := "Leaf", Hash := H q.String }] ++ siblingSteps H useHex separator leaves i ++
        [{ Typ := "Root", Hash := refDigest H useHex separator leaves }]), []) := by
  have hs : Sits H useHex separator (heap ++ (shape leaves).cells H useHex separator heap.length none)
      heap.length none (shape leaves) := Sits.of_append heap none _
  have hh := height_shape_le leaves
  rw [FindProofFor_sits q (shape leaves) fuel hs (by omega)]
  have key := @findPath_shape H useHex separator q leaves heap.length
  rw [hi] at key
  cases hp : (shape leaves).findPath H useHex separator q heap.length with
  | none => simp [hp] at key
  | some a =>
    obtain ⟨p, s⟩ := a
    simp only [hp, Option.map_some', Option.some.injEq] at key
    simp only [key, digest_shape]

/-- C14. Proof length: on the tree built from a leaf list, for a leaf `x` of the list, the
proof that `FindProofFor` returns has `d + 2` steps, where `d` is the depth of the first
leaf node with the string of `x` (the node at which the search of `FindProofFor` stops);
`d` lies between `log2 n` rounded down and `log2 n` rounded up, so the proof has at most
`ceil(log2 n) + 2` steps; the length is the same with any other digest function, hex flag
and separator; and for the leaf `D` among the seven leaves `A` to `G` it is 5. -/
theorem proof_length (H H2 : List Byte → List Byte) (useHex useHex2 : Bool)
    (separator separator2 : Byte) (leaves : List Stringer) (x : Stringer)
    (heap : List MerkleTree) (fuel : Nat) (hx : x ∈ leaves) (hfuel : leaves.length < fuel) :
    (∃ (root : Nat) (heap1 : List MerkleTree) (proof : List MerkleStep) (p d : Nat),
      Build (accumulator H) useHex separator leaves heap [] = (.ok root, heap1, []) ∧
      FindProofFor (accumulator H) fuel heap1 root x [] = (.ok proof, []) ∧
      EnumerateLeaves heap1 (findCallback heap1 x) fuel root none = .ok (false, some p) ∧
      nodeDepth heap1 fuel p = some d ∧
      proof.length = d + 2 ∧
      Nat.log 2 leaves.length ≤ d ∧ d ≤ Nat.clog 2 leaves.length ∧
      proof.length ≤ Nat.clog 2 leaves.length + 2 ∧
      ∃ (root2 : Nat) (heap2 : List MerkleTree) (proof2 : List MerkleStep),
        Build (accumulator H2) useHex2 separator2 leaves heap [] = (.ok root2, heap2, []) ∧
        FindProofFor (accumulator H2) fuel heap2 root2 x [] = (.ok proof2, []) ∧
        proof2.length = proof.length) ∧
    ∃ (root : Nat) (heap1 : List MerkleTree) (proof : List MerkleStep),
      Build (accumulator H) useHex separator
        [⟨0, [65]⟩, ⟨1, [66]⟩, ⟨2, [67]⟩, ⟨3, [68]⟩, ⟨4, [69]⟩, ⟨5, [70]⟩, ⟨6, [71]⟩] heap [] =
          (.ok root, heap1, []) ∧
      FindProofFor (accumulator H) 8 heap1 root ⟨3, [68]⟩ [] = (.ok proof, []) ∧
      proof.length = 5 := by
  constructor
  · have hs : Sits H useHex separator
        (heap ++ (shape leaves).cells H useHex separator heap.length none)
        heap.length none (shape leaves) := Sits.of_append heap none _
    have hs2 : Sits H2 useHex2 separator2
        (heap ++ (shape leaves).cells H2 useHex2 separator2 heap.length none)
        heap.length none (shape leaves) := Sits.of_append heap none _
    have hh := height_shape_le leaves
    have hfind := @Shape.findPath_eq_find H useHex separator x (shape leaves) heap.length
    have hind := @Shape.findPath_length_indep H useHex separator H2 useHex2 separator2 x
      (shape leaves) heap.length
    cases hp : (shape leaves).findPath H useHex separator x heap.length with
    | none =>
      have := (Shape.findPath_eq_none_iff x (shape leaves)).1 hp x (by rw [leaves_shape]; exact hx)
      exact absurd rfl this
    | some a =>
      obtain ⟨p, s⟩ := a
      rw [hp] at hfind hind
      cases hf : ((shape leaves).paths H useHex separator heap.length).find?
          (fun e => decide (e.2.1.String = x.String)) with
      | none => simp [hf] at hfind
      | some e =>
        simp only [hf, Option.map_some', Option.some.injEq, Prod.mk.injEq] at hfind
        obtain ⟨hp1, hs1⟩ := hfind
        have he := List.mem_of_find?_eq_some hf
        obtain ⟨hb1, hb2⟩ := paths_length_bounds leaves heap.length e he
        have hlen := (Shape.paths_replay (shape leaves) he).2.1
        have hdepth : nodeDepth (heap ++ (shape leaves).cells H useHex separator heap.length none)
            fuel p = some s.length := by
          obtain ⟨k, hk⟩ : ∃ k, fuel = k + 1 + e.2.2.length :=
            ⟨fuel - 1 - e.2.2.length, by omega⟩
          rw [hp1, hs1, hk, Shape.paths_nodeDepth (shape leaves) (k + 1) hs he, nodeDepth_root hs]
          simp
        cases hp2 : (shape leaves).findPath H2 useHex2 separator2 x heap.length with
        | none => simp [hp2] at hind
        | some a2 =>
          obtain ⟨p2, s2⟩ := a2
          simp only [hp2, Option.map_some', Option.some.injEq, Prod.mk.injEq] at hind
          refine ⟨_, _, [{ Typ := "Leaf", Hash := H x.String }] ++ s ++
              [{ Typ := "Root", Hash := (shape leaves).digest H useHex separator }], p, s.length,
            Build_accumulator H useHex separator leaves heap, ?_, ?_, hdepth, ?_, ?_, ?_, ?_,
            _, _, [{ Typ := "Leaf", Hash := H2 x.String }] ++ s2 ++
              [{ Typ := "Root", Hash := (shape leaves).digest H2 useHex2 separator2 }],
            Build_accumulator H2 useHex2 separator2 leaves heap, ?_, ?_⟩
          · rw [FindProofFor_sits x (shape leaves) fuel hs (by omega), hp]
          · rw [EnumerateLeaves_sits _ (shape leaves) fuel none hs (by omega),
              visitAll_findCallback x (shape leaves) hs, hp]
          · simp only [List.length_append, List.length_singleton]
            omega
          · rw [hs1]; exact hb1
          · rw [hs1]; exact hb2
          · rw [hs1]
            simp only [List.length_append, List.length_singleton]
            omega
          · rw [FindProofFor_sits x (shape leaves) fuel hs2 (by omega), hp2]
          · simp [hind.2]
  · refine ⟨_, _, _, Build_accumulator H useHex separator _ heap,
      FindProofFor_first_index H useHex separator _ ⟨3, [68]⟩ 3 heap 8 (by decide) (by decide), ?_⟩
    simp [siblingSteps]

/-- C14 at three leaves and the second of them, with two digest functions. -/
theorem proof_length_witness :
    (⟨1, [66]⟩ : Stringer) ∈ [(⟨0, [65]⟩ : Stringer), ⟨1, [66]⟩, ⟨2, [67]⟩] ∧
    [(⟨0, [65]⟩ : Stringer), ⟨1, [66]⟩, ⟨2, [67]⟩].length < 4 ∧
    (∃ (root : Nat) (heap1 : List MerkleTree) (proof : List MerkleStep) (p d : Nat),
      Build (accumulator id) false 49 [⟨0, [65]⟩, ⟨1, [66]⟩, ⟨2, [67]⟩] [] [] =
        (.ok root, heap1, []) ∧
      FindProofFor (accumulator id) 4 heap1 root ⟨1, [66]⟩ [] = (.ok proof, []) ∧
      EnumerateLeaves heap1 (findCallback heap1 ⟨1, [66]⟩) 4 root none = .ok (false, some p) ∧
      nodeDepth heap1 4 p = some d ∧
      proof.length = d + 2 ∧
      Nat.log 2 [(⟨0, [65]⟩ : Stringer), ⟨1, [66]⟩, ⟨2, [67]⟩].length ≤ d ∧
      d ≤ Nat.clog 2 [(⟨0, [65]⟩ : Stringer), ⟨1, [66]⟩, ⟨2, [67]⟩].length ∧
      proof.length ≤ Nat.clog 2 [(⟨0, [65]⟩ : Stringer), ⟨1, [66]⟩, ⟨2, [67]⟩].length + 2 ∧
      ∃ (root2 : Nat) (heap2 : List MerkleTree) (proof2 : List MerkleStep),
        Build (accumulator (fun b => b ++ b)) true 58 [⟨0, [65]⟩, ⟨1, [66]⟩, ⟨2, [67]⟩] [] [] =
          (.ok root2, heap2, []) ∧
        FindProofFor (accumulator (fun b => b ++ b)) 4 heap2 root2 ⟨1, [66]⟩ [] =
          (.ok proof2, []) ∧
        proof2.length = proof.length) ∧
    ∃ (root : Nat) (heap1 : List MerkleTree) (proof : List MerkleStep),
      Build (accumulator id) false 49
        [⟨0, [65]⟩, ⟨1, [66]⟩, ⟨2, [67]⟩, ⟨3, [68]⟩, ⟨4, [69]⟩, ⟨5, [70]⟩, ⟨6, [71]⟩] [] [] =
          (.ok root, heap1, []) ∧
      FindProofFor (accumulator id) 8 heap1 root ⟨3, [68]⟩ [] = (.ok proof, []) ∧
      proof.length = 5 :=
  ⟨by decide, by decide,
    proof_length id (fun b => b ++ b) false true 49 58 [⟨0, [65]⟩, ⟨1, [66]⟩, ⟨2, [67]⟩]
      ⟨1, [66]⟩ [] 4 (by decide) (by decide)⟩

/-! ## The hasher between the digests -/

/-- One unfolding of `Build` on two or more leaves, with the audited hasher in its reset
state before and after the two inner calls. -/
theorem Build_split_audited (H : List Byte → List Byte) (useHex : Bool) (separator : Byte)
    (leaves : List Stringer) (heap heap1 heap2 : List MerkleTree) (left right : Nat)
    (l r : MerkleTree) (hlen : 2 ≤ leaves.length)
    (hleft : Build (audited H) useHex separator
      (leaves.take (leaves.length / 2 + leaves.length % 2)) heap ([], [], true) =
        (.ok left, heap1, ([], [], true)))
    (hright : Build (audited H) useHex separator
      (leaves.drop (leaves.length / 2 + leaves.length % 2)) heap1 ([], [], true) =
        (.ok right, heap2, ([], [], true)))
    (hl : heap2[left]? = some l) (hr : heap2[right]? = some r) :
    Build (audited H) useHex separator leaves heap ([], [], true) =
      (.ok heap2.length,
        setParent (setParent
          (heap2 ++ [{ hex := useHex, separator := separator,
                       Hash := combine H useHex separator l.Hash r.Hash, Leaf := none,
                       Parent := none, Left := some left, Right := some right }])
          left (some heap2.length)) right (some heap2.length), ([], [], true)) := by
  have h0 : ¬ leaves.length = 0 := by omega
  have h1 : ¬ leaves.length = 1 := by omega
  rw [Build]
  simp only [h0, h1, dite_false]
  rw [hleft]
  simp only []
  rw [hright]
  simp only [hl, hr]
  cases useHex <;> simp [writeChained, audited, combine, encode]

/-- What `Build` does with the audited hasher, started from the reset state: the same as
with the plain hasher, and the audit has found every digest to be the hash of exactly
the bytes written for it. -/
theorem Build_audited (H : List Byte → List Byte) (useHex : Bool) (separator : Byte) :
    ∀ (leaves : List Stringer) (heap : List MerkleTree),
      Build (audited H) useHex separator leaves heap ([], [], true) =
        (.ok ((shape leaves).root heap.length),
          heap ++ (shape leaves).cells H useHex separator heap.length none, ([], [], true)) := by
  intro leaves
  induction leaves using split_induction with
  | hnil =>
    intro heap
    rw [Build]
    simp [shape_nil, Shape.root, Shape.size, Shape.cells, Shape.body, Shape.rootCell, Shape.digest,
      audited]
  | hone x =>
    intro heap
    rw [Build]
    simp [shape_single, Shape.root, Shape.size, Shape.cells, Shape.body, Shape.rootCell,
      Shape.digest, audited]
  | hsplit leaves hlen ihl ihr =>
    intro heap
    generalize hsl : shape (leaves.take (leaves.length / 2 + leaves.length % 2)) = tl at ihl
    generalize hsr : shape (leaves.drop (leaves.length / 2 + leaves.length % 2)) = tr at ihr
    have hpl := tl.size_pos
    have hpr := tr.size_pos
    have hl : (heap ++ tl.cells H useHex separator heap.length none ++
        tr.cells H useHex separator (heap ++ tl.cells H useHex separator heap.length none).length
          none)[tl.root heap.length]? = some (tl.rootCell H useHex separator heap.length none) := by
      exact getElem?_cells_root H useHex separator heap _ heap.length none tl
    have hr : (heap ++ tl.cells H useHex separator heap.length none ++
        tr.cells H useHex separator (heap ++ tl.cells H useHex separator heap.length none).length
          none)[tr.root (heap ++ tl.cells H useHex separator heap.length none).length]? =
        some (tr.rootCell H useHex separator
          (heap ++ tl.cells H useHex separator heap.length none).length none) := by
      have := getElem?_cells_root H useHex separator
        (heap ++ tl.cells H useHex separator heap.length none) []
        (heap ++ tl.cells H useHex separator heap.length none).length none tr
      simpa [Shape.root] using this
    rw [Build_split_audited H useHex separator leaves heap _ _ _ _ _ _ hlen (ihl heap) (ihr _)
      hl hr]
    rw [shape_split leaves hlen, hsl, hsr]
    have hlen2 : (heap ++ tl.cells H useHex separator heap.length none).length =
        heap.length + tl.size := by
      simp [Shape.length_cells]
    simp only [hlen2, List.length_append, Shape.length_cells, Shape.rootCell_Hash]
    congr 1
    · simp [Shape.root, Shape.size]; omega
    · congr 1
      have e1 := setParent_cells_root H useHex separator heap
        (tr.cells H useHex separator (heap.length + tl.size) none ++
          [{ hex := useHex, separator := separator,
             Hash := combine H useHex separator (tl.digest H useHex separator)
               (tr.digest H useHex separator), Leaf := none,
             Parent := none, Left := some (tl.root heap.length),
             Right := some (tr.root (heap.length + tl.size)) }])
        heap.length none (some (heap.length + tl.size + tr.size)) tl
      have e2 := setParent_cells_root H useHex separator
        (heap ++ tl.cells H useHex separator heap.length (some (heap.length + tl.size + tr.size)))
        [{ hex := useHex, separator := separator,
             Hash := combine H useHex separator (tl.digest H useHex separator)
               (tr.digest H useHex separator), Leaf := none,
             Parent := none, Left := some (tl.root heap.length),
             Right := some (tr.root (heap.length + tl.size)) }]
        (heap.length + tl.size) none (some (heap.length + tl.size + tr.size)) tr
      simp only [List.length_append, Shape.length_cells, List.append_assoc] at e1 e2 ⊢
      rw [show tl.root heap.length = heap.length + tl.size - 1 from rfl,
        show tr.root (heap.length + tl.size) = heap.length + tl.size + tr.size - 1 from rfl] at *
      rw [e1, e2]
      simp [Shape.cells, Shape.body, Shape.rootCell, Shape.digest]

/-- `FindProofFor` leaves the audited hasher reset, whatever it returns. -/
theorem FindProofFor_audited_state (H : List Byte → List Byte) (fuel : Nat)
    (heap : List MerkleTree) (tree : Nat) (q : Stringer) :
    (FindProofFor (audited H) fuel heap tree q ([], [], true)).2 = ([], [], true) := by
  unfold FindProofFor
  split
  · rfl
  · simp only [audited, Bool.false_eq_true, if_false, List.nil_append, decide_True, Bool.and_self]
    split
    · split <;> rfl
    · rfl
    · rfl
    · rfl
  · rfl
  · rfl
  · rfl

theorem writeChained_audited (H : List Byte → List Byte) (st : List Byte × List Byte × Bool)
    (data : List Byte) :
    writeChained false (audited H) st data = (false, (st.1 ++ data, st.2.1 ++ data, st.2.2)) :=
  rfl

theorem audited_Sum (H : List Byte → List Byte) (st : List Byte × List Byte × Bool) :
    (audited H).Sum st = (H st.1, (st.1, [], st.2.2 && decide (st.1 = st.2.1))) := rfl

theorem audited_Reset (H : List Byte → List Byte) (st : List Byte × List Byte × Bool) :
    (audited H).Reset st = ([], [], st.2.2) := rfl

/-- The loop of `CheckProof` leaves the audited hasher reset, whatever it returns. -/
theorem checkLoop_audited_state (H : List Byte → List Byte) (tree : MerkleTree) (first last : Int)
    (rest : List MerkleStep) :
    ∀ (idx : Nat) (hash : List Byte),
      (checkLoop (audited H) tree first last idx rest hash ([], [], true)).2 = ([], [], true) := by
  induction rest with
  | nil => intro idx hash; rfl
  | cons step rest ih =>
    intro idx hash
    rw [checkLoop]
    by_cases h1 : (idx : Int) = first
    · rw [if_pos h1]
      exact ih _ _
    · rw [if_neg h1]
      by_cases h2 : (idx : Int) = last
      · rw [if_pos h2]
        split_ifs <;> rfl
      · rw [if_neg h2]
        have hRL : ¬ ("Right" = "Left") := by decide
        by_cases hL : step.Typ = "Left"
        · by_cases hx : tree.hex = true <;>
            simp only [hx, hL, if_true, if_false, Bool.false_eq_true, writeChained_audited,
              audited_Sum, audited_Reset, List.nil_append, decide_True, Bool.and_self, ih]
        · by_cases hR : step.Typ = "Right"
          · by_cases hx : tree.hex = true <;>
              simp only [hx, hR, hRL, if_true, if_false, Bool.false_eq_true, writeChained_audited,
                audited_Sum, audited_Reset, List.nil_append, decide_True, Bool.and_self, ih]
          · by_cases hx : tree.hex = true <;>
              simp only [hx, hL, hR, if_true, if_false, Bool.false_eq_true, writeChained_audited,
                audited_Sum, audited_Reset, List.nil_append, decide_True, Bool.and_self, ih]

/-- `CheckProof` leaves the audited hasher reset, whatever it returns. -/
theorem CheckProof_audited_state (H : List Byte → List Byte) (tree : MerkleTree)
    (steps : List MerkleStep) :
    (CheckProof (audited H) tree steps ([], [], true)).2 = ([], [], true) := by
  unfold CheckProof
  dsimp only
  split
  · rfl
  · split
    · rfl
    · split
      · rfl
      · split
        · rfl
        · exact checkLoop_audited_state H tree _ _ steps 0 []

/-- The audit is not idle: when `Build` is called with a byte left in the accumulator, the
first digest is not the hash of the bytes written for it, and the audit says so. -/
theorem audited_detects_residue (H : List Byte → List Byte) (useHex : Bool) (separator : Byte)
    (heap : List MerkleTree) :
    (Build (audited H) useHex separator [] heap ([1], [], true)).2.2 = ([], [], false) := by
  rw [Build]
  simp [audited]

/-- C17. The hasher is left reset: with the hasher of a digest function as an accumulator
with write, sum and reset, audited, and empty when the operation is called, `Build`,
`FindProofFor` and `CheckProof` take every digest as the hash of exactly the bytes written
for it and return with the accumulator empty, with or without an error; `Build` returns
the reference digest, and a second `Build` with the same hasher, flag, separator and leaf
list, after the first, returns the same root digest. -/
theorem hasher_left_reset (H : List Byte → List Byte) (useHex : Bool) (separator : Byte)
    (leaves : List Stringer) (heap : List MerkleTree) :
    (∃ (root : Nat) (heap1 : List MerkleTree) (tree : MerkleTree),
      Build (audited H) useHex separator leaves heap ([], [], true) =
        (.ok root, heap1, ([], [], true)) ∧
      heap1[root]? = some tree ∧ tree.Hash = refDigest H useHex separator leaves ∧
      ∃ (root2 : Nat) (heap2 : List MerkleTree) (tree2 : MerkleTree),
        Build (audited H) useHex separator leaves heap1 ([], [], true) =
          (.ok root2, heap2, ([], [], true)) ∧
        heap2[root2]? = some tree2 ∧ tree2.Hash = tree.Hash) ∧
    (∀ (fuel : Nat) (heap0 : List MerkleTree) (tree : Nat) (q : Stringer),
      (FindProofFor (audited H) fuel heap0 tree q ([], [], true)).2 = ([], [], true)) ∧
    ∀ (tree : MerkleTree) (steps : List MerkleStep),
      (CheckProof (audited H) tree steps ([], [], true)).2 = ([], [], true) := by
  refine ⟨?_, FindProofFor_audited_state H, CheckProof_audited_state H⟩
  have hs : Sits H useHex separator (heap ++ (shape leaves).cells H useHex separator heap.length none)
      heap.length none (shape leaves) := Sits.of_append heap none _
  have hs2 : Sits H useHex separator
      ((heap ++ (shape leaves).cells H useHex separator heap.length none) ++
        (shape leaves).cells H useHex separator
          (heap ++ (shape leaves).cells H useHex separator heap.length none).length none)
      (heap ++ (shape leaves).cells H useHex separator heap.length none).length none
      (shape leaves) := Sits.of_append _ none _
  refine ⟨_, _, _, Build_audited H useHex separator leaves heap, hs.get_root, ?_,
    _, _, _, Build_audited H useHex separator leaves _, hs2.get_root, ?_⟩
  · rw [Shape.rootCell_Hash, digest_shape]
  · rw [Shape.rootCell_Hash, Shape.rootCell_Hash]

end Gerkle
